import Mathlib

/-!
# The s-expression front end of `lisp_interpreter.cpp`

A shallow embedding of the lexer, the recursive-descent parser and the tree
of `src/lisp_interpreter.cpp`, followed by the properties established for it.

Conventions of the embedding:

* a `char` is a `Nat` (its byte value) and a `std::string` is a `List Nat`;
* a `const char*` cursor into the NUL-terminated source is the list of bytes
  from the cursor up to (not including) the terminator, so `*p` is `peek p`
  (`0` at the end) and `++p` is `List.tail`;
* a token iterator is the list of tokens from the iterator to the end of the
  vector; reading through the end iterator is the error `read_past_end`;
* `error_handler` (which prints and calls `std::exit`) is an `Except.error`;
* loops whose progress depends on a library call carry a fuel argument, and
  running out of fuel is an error constructor of its own.
-/

namespace rais

/-! ## Characters and strings -/

/-- Byte values of the characters of a text (ASCII texts only). -/
def bytes (s : String) : List Nat := s.toList.map Char.toNat

/-- Dereferencing a cursor: the byte under it, the terminating NUL at the end. -/
def peek (p : List Nat) : Nat := p.headD 0

/-- Classification `std::isspace` in the C locale. -/
def isspace (c : Nat) : Bool := c == 32 || (9 ≤ c && c ≤ 13)

/-- Classification `std::isdigit`. -/
def isdigit (c : Nat) : Bool := 48 ≤ c && c ≤ 57

/-- Classification `std::isalpha` in the C locale. -/
def isalpha (c : Nat) : Bool := (65 ≤ c && c ≤ 90) || (97 ≤ c && c ≤ 122)

/-- Classification `std::isalnum` in the C locale. -/
def isalnum (c : Nat) : Bool := isalpha c || isdigit c

/-! ## The C library integer parsers `strtoll` and `strtoull` -/

/-- Value of a byte read as a digit (`0-9`, `a-z`, `A-Z`), as the `strto*`
family reads it. -/
def digit_value (c : Nat) : Option Nat :=
  if 48 ≤ c ∧ c ≤ 57 then some (c - 48)
  else if 97 ≤ c ∧ c ≤ 122 then some (c - 97 + 10)
  else if 65 ≤ c ∧ c ≤ 90 then some (c - 65 + 10)
  else none

/-- Whether a byte is a digit of the given base. -/
def is_digit_of (base c : Nat) : Bool :=
  match digit_value c with
  | some d => decide (d < base)
  | none => false

/-- The digit loop of `strto*`: accumulates the longest run of digits of the
base and returns the (unbounded) magnitude with the cursor after the run. -/
def strto_digits (base : Nat) : List Nat → Nat → Nat × List Nat
  | [], acc => (acc, [])
  | c :: cs, acc =>
    if is_digit_of base c then strto_digits base cs (acc * base + (digit_value c).getD 0)
    else (acc, c :: cs)

/-- Whether the cursor is at `0x` or `0X` followed by a hexadecimal digit. -/
def has_hex_lead (s : List Nat) : Bool :=
  match s with
  | 48 :: x :: h :: _ => (x == 120 || x == 88) && is_digit_of 16 h
  | _ => false

/-- The part of `strto*` shared by the signed and the unsigned parser: skips
white space, reads the sign, detects the base (for base 0 and the optional
prefix of base 16) and reads the digits. The result is `none` when no
conversion can be performed, otherwise the sign, the magnitude and the cursor
after the subject sequence. -/
def strto_scan (p : List Nat) (base : Nat) : Option (Bool × Nat × List Nat) :=
  let s := p.dropWhile isspace
  let neg := peek s == 45
  let s := if peek s == 45 || peek s == 43 then s.tail else s
  let hex := (base == 0 || base == 16) && has_hex_lead s
  let b := if hex then 16 else if base == 0 then (if peek s == 48 then 8 else 10) else base
  let s := if hex then s.drop 2 else s
  if is_digit_of b (peek s) then
    let r := strto_digits b s 0
    some (neg, r.1, r.2)
  else none

/-- The C library function `std::strtoll(p, &p, base)`: the value, clamped to
the range of `long long`, and the new cursor (the old one when nothing was
converted). -/
def strtoll (p : List Nat) (base : Nat) : Int × List Nat :=
  match strto_scan p base with
  | none => (0, p)
  | some (neg, mag, rest) =>
    if neg then (if mag > 2 ^ 63 then (-(2 ^ 63 : Int), rest) else (-(mag : Int), rest))
    else (if mag ≥ 2 ^ 63 then ((2 ^ 63 - 1 : Int), rest) else ((mag : Int), rest))

/-- The C library function `std::strtoull(p, &p, base)`: the value in
`unsigned long long` (negated modulo `2^64` after a minus sign, `ULLONG_MAX`
when out of range) and the new cursor. -/
def strtoull (p : List Nat) (base : Nat) : Nat × List Nat :=
  match strto_scan p base with
  | none => (0, p)
  | some (neg, mag, rest) =>
    if mag ≥ 2 ^ 64 then (2 ^ 64 - 1, rest)
    else if neg then ((2 ^ 64 - mag) % 2 ^ 64, rest)
    else (mag, rest)

/-- Rendering `std::to_string(long long)`: decimal digits, with a leading
minus sign for a negative value. -/
def to_string_ll (n : Int) : List Nat :=
  if n < 0 then 45 :: (Nat.toDigits 10 n.natAbs).map Char.toNat
  else (Nat.toDigits 10 n.natAbs).map Char.toNat

/-! ## Tokens -/

/-- The enumeration `vocabulary`: terminals first, then non-terminals. -/
inductive vocabulary
  | LPAREN
  | RPAREN
  | NUMBER
  | STRING
  | IDENTIFIER
  | KEYWORD
  | ENDING
  | E
  | EList
  | Name
  deriving DecidableEq, Repr

/-! The enumerators of `keyword_category`, numbered from `KW_PLUS = 0` in the
order of the enumeration. -/

/-- The enumerator `KW_PLUS`. -/
def KW_PLUS : Int := 0
/-- The enumerator `KW_MINUS`. -/
def KW_MINUS : Int := 1
/-- The enumerator `KW_MUL`. -/
def KW_MUL : Int := 2
/-- The enumerator `KW_DIV`. -/
def KW_DIV : Int := 3
/-- The enumerator `KW_EQUAL`. -/
def KW_EQUAL : Int := 4
/-- The enumerator `KW_NEQUAL`. -/
def KW_NEQUAL : Int := 5
/-- The enumerator `KW_LESSEQ`. -/
def KW_LESSEQ : Int := 6
/-- The enumerator `KW_LARGEREQ`. -/
def KW_LARGEREQ : Int := 7
/-- The enumerator `KW_LESS`. -/
def KW_LESS : Int := 8
/-- The enumerator `KW_LARGER`. -/
def KW_LARGER : Int := 9
/-- The enumerator `KW_T`. -/
def KW_T : Int := 10
/-- The enumerator `KW_NIL`. -/
def KW_NIL : Int := 11
/-- The enumerator `KW_IF`. -/
def KW_IF : Int := 12
/-- The enumerator `KW_LOOP`. -/
def KW_LOOP : Int := 13
/-- The enumerator `KW_FOR`. -/
def KW_FOR : Int := 14
/-- The enumerator `KW_PRINT`. -/
def KW_PRINT : Int := 15

/-- The enumerator `KW_NOT_A_KEYWORD`. -/
def KW_NOT_A_KEYWORD : Int := -1

/-- The table `keywords`; the position of a spelling is its
`keyword_category` code. -/
def keywords : List (List Nat) :=
  [bytes "+", bytes "-", bytes "*", bytes "/",
   bytes "=", bytes "!=", bytes "<=", bytes ">=", bytes "<", bytes ">",
   bytes "t", bytes "nil",
   bytes "if",
   bytes "loop",
   bytes "for",
   bytes "print"]

/-- The struct `token`: the tag and the attribute union, whose members (a
number, a keyword code, an index into a table, a null pointer) are all read
as one integer. -/
structure token where
  v : vocabulary
  attr : Int
  deriving DecidableEq, Repr

/-- The constructor `token(vocabulary v_)`: the attribute is the null pointer. -/
def token.mk0 (v : vocabulary) : token := ⟨v, 0⟩

/-! ## The lexer -/

/-- The failures of the lexer: the three messages of `lexer::error_handler`,
and the exhaustion of the fuel of a loop of the embedding. -/
inductive lex_error
  | bad_escape_character
  | bad_string
  | bad_identifier
  | out_of_fuel
  deriving DecidableEq, Repr

/-- The data members of `class lexer`. -/
structure lexer where
  tokens : List token
  identifiers : List (List Nat)
  strings : List (List Nat)
  deriving DecidableEq, Repr

/-- The loop of `skip_comment` after its first `++p`: advances while the byte
under the cursor is neither NUL nor a newline. -/
def skip_comment_loop : List Nat → List Nat
  | [] => []
  | c :: cs => if c ≠ 0 ∧ c ≠ 10 then skip_comment_loop cs else c :: cs

/-- The function `lexer::skip_comment`. -/
def skip_comment (p : List Nat) : List Nat :=
  let p1 := skip_comment_loop p.tail
  if peek p1 = 10 then p1.tail else p1

/-- The function `lexer::parse_number`. -/
def parse_number (p : List Nat) : Int × List Nat := strtoll p 0

/-- The bounded `for` loop of the octal escape: at most `i` further octal
digits are folded into the 16-bit `val`. -/
def octal_loop : Nat → Nat → List Nat → Nat × List Nat
  | 0, val, p => (val, p)
  | i + 1, val, p =>
    if 48 ≤ peek p ∧ peek p ≤ 55 then
      octal_loop i ((val * 8 + (peek p - 48)) % 65536) p.tail
    else (val, p)

/-- The ten cases of the inner `switch` of `lexer::parse_string` that push
one fixed byte and step over the character: the byte pushed for the character
after the backslash, `none` for a character of another case. -/
def escape_byte (c : Nat) : Option Nat :=
  match c with
  | 39 => some 39
  | 34 => some 34
  | 92 => some 92
  | 97 => some 7
  | 98 => some 8
  | 102 => some 12
  | 110 => some 10
  | 114 => some 13
  | 116 => some 9
  | 118 => some 11
  | _ => none

/-- The inner `switch` of `lexer::parse_string`, entered after the backslash
was eaten: the byte that is pushed to the result and the new cursor. -/
def parse_escape (q : List Nat) : Except lex_error (Nat × List Nat) :=
  match escape_byte (peek q) with
  | some b => .ok (b, q.tail)
  | none =>
    if peek q = 120 then
      let r := strtoull q 16
      .ok (r.1 % 256, r.2)
    else if 48 ≤ peek q ∧ peek q ≤ 55 then
      let r := octal_loop 2 ((peek q - 48) % 65536) q.tail
      .ok (r.1 % 256, r.2)
    else .error .bad_escape_character

/-- The `while(true)` loop of `lexer::parse_string` with its outer `switch`,
entered after the leading quote was eaten; returns the decoded text and the
new cursor. -/
def parse_string_loop : Nat → List Nat → List Nat → Except lex_error (List Nat × List Nat)
  | 0, _, _ => .error .out_of_fuel
  | fuel + 1, p, result =>
    if peek p = 92 then
      match parse_escape p.tail with
      | .error e => .error e
      | .ok (b, q) => parse_string_loop fuel q (result ++ [b])
    else if peek p = 0 then .error .bad_string
    else if peek p = 34 then .ok (result, p.tail)
    else parse_string_loop fuel p.tail (result ++ [peek p])

/-- The function `lexer::parse_string`, called with the cursor on the
leading quote. -/
def parse_string (p : List Nat) : Except lex_error (List Nat × List Nat) :=
  parse_string_loop p.length p.tail []

/-- The `while` loop of `lexer::parse_identifier`. -/
def parse_identifier_loop : List Nat → List Nat → List Nat × List Nat
  | [], id => (id, [])
  | c :: cs, id =>
    if c ≠ 0 ∧ (isalnum c ∨ c = 95) then parse_identifier_loop cs (id ++ [c])
    else (id, c :: cs)

/-- The function `lexer::parse_identifier`. -/
def parse_identifier (s : List Nat) : Except lex_error (List Nat × List Nat) :=
  if isalpha (peek s) ∨ peek s = 95 then .ok (parse_identifier_loop s.tail [peek s])
  else .error .bad_identifier

/-- The inner `for` loop of `lexer::match_keyword`: compares the spelling
with the input byte by byte; `none` is the jump to `next_kw`. -/
def match_literal : List Nat → List Nat → Option (List Nat)
  | [], p => some p
  | c :: cs, p => if peek p ≠ c then none else match_literal cs p.tail

/-- The outer `for` loop of `lexer::match_keyword`, from table position `i`. -/
def match_keyword_from (i : Nat) : List (List Nat) → List Nat → Int × List Nat
  | [], s => (KW_NOT_A_KEYWORD, s)
  | kw :: kws, s =>
    match match_literal kw s with
    | some p => ((i : Int), p)
    | none => match_keyword_from (i + 1) kws s

/-- The function `lexer::match_keyword`: the code found and the new cursor. -/
def match_keyword (s : List Nat) : Int × List Nat := match_keyword_from 0 keywords s

/-- The body of the `while` loop of `lexer::lexing` (the `switch`), run with
a cursor that is not on the terminator. -/
def lexing_step (p : List Nat) (lx : lexer) : Except lex_error (List Nat × lexer) :=
  let c := peek p
  if (9 ≤ c ∧ c ≤ 13) ∨ c = 32 then .ok (p.tail, lx)
  else if c = 59 then .ok (skip_comment p, lx)
  else if c = 40 then .ok (p.tail, { lx with tokens := lx.tokens ++ [token.mk0 .LPAREN] })
  else if c = 41 then .ok (p.tail, { lx with tokens := lx.tokens ++ [token.mk0 .RPAREN] })
  else if c = 34 then
    match parse_string p with
    | .error e => .error e
    | .ok (str, p1) =>
      .ok (p1, { lx with strings := lx.strings ++ [str],
                         tokens := lx.tokens ++ [⟨.STRING, ((lx.strings.length : Nat) : Int)⟩] })
  else if 48 ≤ c ∧ c ≤ 57 then
    let r := parse_number p
    .ok (r.2, { lx with tokens := lx.tokens ++ [⟨.NUMBER, r.1⟩] })
  else
    let r := match_keyword p
    if r.1 = KW_NOT_A_KEYWORD then
      match parse_identifier r.2 with
      | .error e => .error e
      | .ok (id, p1) =>
        .ok (p1, { lx with identifiers := lx.identifiers ++ [id],
                           tokens := lx.tokens ++ [⟨.IDENTIFIER, ((lx.identifiers.length : Nat) : Int)⟩] })
    else .ok (r.2, { lx with tokens := lx.tokens ++ [⟨.KEYWORD, r.1⟩] })

/-- The `while(*p != 0)` loop of `lexer::lexing` and the final
`tokens.emplace_back(ENDING)`. -/
def lexing_loop : Nat → List Nat → lexer → Except lex_error lexer
  | 0, _, _ => .error .out_of_fuel
  | fuel + 1, p, lx =>
    if peek p = 0 then .ok { lx with tokens := lx.tokens ++ [token.mk0 .ENDING] }
    else
      match lexing_step p lx with
      | .error e => .error e
      | .ok (p1, lx1) => lexing_loop fuel p1 lx1

/-- The function `lexer::lexing`: the three containers are cleared, the
source is scanned, and the lexer with the tokens and tables is the result. -/
def lexing (target : List Nat) : Except lex_error lexer :=
  lexing_loop (target.length + 1) target ⟨[], [], []⟩

/-- The function `lexer::token_to_string`; `none` stands for an index outside
its table (`strings.at` throwing, `keywords[...]` read out of bounds). -/
def token_to_string (lx : lexer) (tok : token) : Option (List Nat) :=
  match tok.v with
  | .LPAREN => some (bytes "(")
  | .RPAREN => some (bytes ")")
  | .NUMBER => some (bytes "\x7bnumber:" ++ to_string_ll tok.attr ++ bytes "\x7d")
  | .STRING =>
    if tok.attr < 0 then none
    else lx.strings[tok.attr.toNat]?.map (fun s => bytes "\x7bstring:" ++ s ++ bytes "\x7d")
  | .IDENTIFIER =>
    if tok.attr < 0 then none
    else lx.identifiers[tok.attr.toNat]?.map (fun s => bytes "\x7bid:" ++ s ++ bytes "\x7d")
  | .KEYWORD =>
    if tok.attr < 0 then none
    else keywords[tok.attr.toNat]?.map (fun s => bytes "\x7bkeyword:" ++ s ++ bytes "\x7d")
  | .ENDING => some (bytes "$")
  | _ => some (bytes "\x7bunknown token\x7d")

/-! ## The tree -/

/-- The struct `ast_node`: a terminal holds its token, a non-terminal its
ordered list of children. `ast_node` declares a destructor that deletes the
child list and no copy constructor, so a copy shares the list of its
original: `freed` is a non-terminal (`is_terminal` is false) whose
`attr.childs` points to a list that was deleted. -/
inductive ast_node
  | terminal (tok : token)
  | nonterminal (childs : List ast_node)
  | freed
  deriving Repr

/-- The failures of the parser: the messages of `parser::error_handler` and
of `ast_node::error_handler`, a read through the end iterator, a member call
on a child list that was deleted (undefined behaviour, after which the
embedding follows the run no further), and the exhaustion of the fuel of the
embedding. -/
inductive parse_error
  | parse_E_missing_rparen
  | parse_E_unexpected_token
  | parse_EList_unexpected_token
  | parse_Name_unexpected_token
  | add_child_to_terminal
  | read_past_end
  | use_after_free
  | out_of_fuel
  deriving DecidableEq, Repr

/-- The overload `ast_node::add_child(const token&)`: appends a terminal
child; `emplace_back` on a deleted list is undefined. -/
def ast_node.add_child_tok (node : ast_node) (tok : token) : Except parse_error ast_node :=
  match node with
  | .terminal _ => .error .add_child_to_terminal
  | .nonterminal cs => .ok (.nonterminal (cs ++ [.terminal tok]))
  | .freed => .error .use_after_free

/-- The overload `ast_node::add_child()`, as the node behind the reference it
returns: `attr.childs->push_back({})` builds a temporary non-terminal with a
new list, copies it member by member to the end of the child list, and
destroys the temporary, whose destructor deletes the list the copy points to
as well. So `attr.childs->back()` is a non-terminal with a deleted list. -/
def ast_node.add_child (node : ast_node) : Except parse_error ast_node :=
  match node with
  | .terminal _ => .error .add_child_to_terminal
  | .nonterminal _ => .ok .freed
  | .freed => .error .use_after_free

/-- The node after `add_child()` and the work done through the reference it
returned: `child` is the last element of the child list. -/
def ast_node.with_child (node child : ast_node) : ast_node :=
  match node with
  | .nonterminal cs => .nonterminal (cs ++ [child])
  | other => other

/-- The function `parser::parse_Name`. -/
def parse_Name (it : List token) (node : ast_node) : Except parse_error (List token × ast_node) :=
  match it with
  | [] => .error .read_past_end
  | tok :: it1 =>
    match tok.v with
    | .IDENTIFIER | .KEYWORD =>
      match node.add_child_tok tok with
      | .error e => .error e
      | .ok node1 => .ok (it1, node1)
    | _ => .error .parse_Name_unexpected_token

mutual
/-- The function `parser::parse_E`; the iterator and the node it works on are
passed in and returned. -/
def parse_E : Nat → List token → ast_node → Except parse_error (List token × ast_node)
  | 0, _, _ => .error .out_of_fuel
  | _ + 1, [], _ => .error .read_past_end
  | fuel + 1, tok :: it1, node =>
    match tok.v with
    | .LPAREN =>
      match parse_Name it1 node with
      | .error e => .error e
      | .ok (it2, node2) =>
        match parse_EList fuel it2 node2 with
        | .error e => .error e
        | .ok ([], _) => .error .read_past_end
        | .ok (tok3 :: it4, node3) =>
          if tok3.v ≠ .RPAREN then .error .parse_E_missing_rparen
          else .ok (it4, node3)
    | .NUMBER | .STRING | .IDENTIFIER | .KEYWORD =>
      match node.add_child_tok tok with
      | .error e => .error e
      | .ok node1 => .ok (it1, node1)
    | .ENDING => .ok (it1, node)
    | _ => .error .parse_E_unexpected_token
/-- The function `parser::parse_EList`; `parse_E(node.add_child())` works in
place on the child that `add_child()` appended. -/
def parse_EList : Nat → List token → ast_node → Except parse_error (List token × ast_node)
  | 0, _, _ => .error .out_of_fuel
  | _ + 1, [], _ => .error .read_past_end
  | fuel + 1, tok :: it1, node =>
    match tok.v with
    | .RPAREN => .ok (tok :: it1, node)
    | .LPAREN | .NUMBER | .STRING | .IDENTIFIER | .KEYWORD =>
      match node.add_child with
      | .error e => .error e
      | .ok child0 =>
        match parse_E fuel (tok :: it1) child0 with
        | .error e => .error e
        | .ok (it2, child) => parse_EList fuel it2 (node.with_child child)
    | _ => .error .parse_EList_unexpected_token
end

/-- The data members of `class parser` that the parse depends on: the tree
`root` (default-constructed as an empty non-terminal) and the iterator. -/
structure parser where
  root : ast_node
  it : List token

/-- The constructor `parser()`. -/
def parser.new : parser := ⟨.nonterminal [], []⟩

/-- The function `parser::parsing`: the iterator is set to the first token
and `parse_E` works on the member `root`. -/
def parsing (pas : parser) (lex : lexer) : Except parse_error parser :=
  match parse_E (2 * lex.tokens.length + 2) lex.tokens pas.root with
  | .error e => .error e
  | .ok (it1, root1) => .ok ⟨root1, it1⟩

mutual
/-- The function `ast_node::to_string`; a token that `token_to_string` cannot
render makes the whole rendering `none`, and so does the loop over a child
list that was deleted. -/
def ast_node.to_string (lx : lexer) : ast_node → Nat → Option (List Nat)
  | .terminal tok, align_len => (token_to_string lx tok).map (fun s => List.replicate align_len 9 ++ s)
  | .nonterminal cs, align_len => to_string_childs lx cs align_len
  | .freed, _ => none
/-- The `for` loop of `ast_node::to_string` over the children. -/
def to_string_childs (lx : lexer) : List ast_node → Nat → Option (List Nat)
  | [], _ => some []
  | child :: cs, align_len =>
    match child.to_string lx (align_len + 1), to_string_childs lx cs align_len with
    | some s, some r => some (s ++ [10] ++ r)
    | _, _ => none
end

/-- Membership in `{number, string, identifier, keyword}`, the tokens that
are an `E` on their own. -/
def is_atom (t : token) : Bool :=
  t.v == .NUMBER || t.v == .STRING || t.v == .IDENTIFIER || t.v == .KEYWORD

/-- Membership in FIRST(Name), the identifier and keyword tokens. -/
def is_name (t : token) : Bool := t.v == .IDENTIFIER || t.v == .KEYWORD

/-- Membership in FIRST(E) as `parse_EList` tests it. -/
def is_first_E (t : token) : Bool := t.v == .LPAREN || is_atom t

/-- Derivation trees of the grammar
`E -> ( Name EList ) | number | string | identifier | keyword`,
`EList -> E EList | ε`, `Name -> identifier | keyword`. An `EList` is the
list of its `E`s. -/
inductive sentence
  | atom (tok : token)
  | paren (name : token) (elist : List sentence)

mutual
/-- The token sequence a derivation of `E` derives. -/
def sentence.tokens : sentence → List token
  | .atom tok => [tok]
  | .paren name elist => token.mk0 .LPAREN :: name :: (tokens_EList elist ++ [token.mk0 .RPAREN])
/-- The token sequence a derivation of `EList` derives. -/
def tokens_EList : List sentence → List token
  | [] => []
  | e :: l => e.tokens ++ tokens_EList l
end

mutual
/-- Whether the tokens at the leaves of a derivation of `E` are of the kinds
the grammar asks for. -/
def sentence.wf : sentence → Bool
  | .atom tok => is_atom tok
  | .paren name elist => is_name name && wf_EList elist
/-- Whether every `E` of an `EList` derivation is well formed. -/
def wf_EList : List sentence → Bool
  | [] => true
  | e :: l => e.wf && wf_EList l
end

/-- The token of the first terminal of a sentence of `E`: the token of an
atom, the name of a list. -/
def sentence.leaf : sentence → token
  | .atom tok => tok
  | .paren name _ => name

/-- Whether a sentence of `E` has no element: an atom, or a list of its name
alone. -/
def sentence.no_element : sentence → Bool
  | .atom _ => true
  | .paren _ elist => elist.isEmpty

mutual
/-- The tokens of the terminal leaves of a tree, left to right. -/
def ast_node.leaves : ast_node → List token
  | .terminal tok => [tok]
  | .nonterminal cs => leaves_childs cs
  | .freed => []
/-- The tokens of the terminal leaves of a list of trees, left to right. -/
def leaves_childs : List ast_node → List token
  | [] => []
  | c :: cs => c.leaves ++ leaves_childs cs
end

/-- The ten simple escapes: the character after the backslash and the byte it
stands for in C. -/
def simple_escapes : List (Nat × Nat) :=
  [(92, 92), (34, 34), (39, 39), (97, 7), (98, 8), (102, 12), (110, 10), (114, 13),
   (116, 9), (118, 11)]

/-- Whether a byte may stand unescaped in a string literal: any byte but the
quote, the backslash and NUL. -/
def is_plain (c : Nat) : Bool := c != 0 && c != 34 && c != 92

/-- A piece of the body of a string literal, paired with the byte it stands
for: an unescaped byte standing for itself, or a backslash and the character
of a simple escape. -/
def is_simple_piece (x : List Nat × Nat) : Bool :=
  match x.1 with
  | [c] => is_plain c && x.2 == c
  | [b, e] => b == 92 && simple_escapes.contains (e, x.2)
  | _ => false

/-- Whether a byte is one of the digits `0` to `7`. -/
def is_octal_digit (c : Nat) : Bool := 48 ≤ c && c ≤ 55

/-- The number that a run of octal digits denotes. -/
def octal_value (ds : List Nat) : Nat := ds.foldl (fun acc d => acc * 8 + (d - 48)) 0

/-! ## Numeric literals -/

/-- The number that a run of digits denotes in a base. -/
def digits_value (base : Nat) (ds : List Nat) : Nat :=
  ds.foldl (fun acc c => acc * base + (digit_value c).getD 0) 0

/-- A decimal literal: a digit `1` to `9` followed by decimal digits. -/
def is_decimal_literal (lit : List Nat) : Bool :=
  match lit with
  | d :: ds => 49 ≤ d && d ≤ 57 && ds.all isdigit
  | [] => false

/-- A hexadecimal literal: `0x` or `0X` followed by at least one hexadecimal
digit. -/
def is_hex_literal (lit : List Nat) : Bool :=
  match lit with
  | 48 :: x :: h :: hs => (x == 120 || x == 88) && (h :: hs).all (is_digit_of 16)
  | _ => false

/-- An octal literal: `0` followed by octal digits (with `0` itself). -/
def is_octal_literal (lit : List Nat) : Bool :=
  match lit with
  | 48 :: os => os.all is_octal_digit
  | _ => false

/-- The value of a literal of one of the three kinds. -/
def literal_value (lit : List Nat) : Nat :=
  if is_hex_literal lit then digits_value 16 (lit.drop 2)
  else if is_octal_literal lit then digits_value 8 lit
  else digits_value 10 lit

/-- What may follow a literal: the end of the input, white space or a
parenthesis. -/
def is_follower (tail : List Nat) : Bool :=
  peek tail == 0 || isspace (peek tail) || peek tail == 40 || peek tail == 41

/-- The lexer with further tokens placed before its own. -/
def lexer.push_front (pre : List token) (lx : lexer) : lexer :=
  { lx with tokens := pre ++ lx.tokens }

/-! ## Interning tables -/

/-- The indices carried by the string tokens of a token sequence, in order. -/
def string_attrs (toks : List token) : List Int :=
  (toks.filter (fun t => t.v == .STRING)).map token.attr

/-- The indices carried by the identifier tokens of a token sequence, in
order. -/
def identifier_attrs (toks : List token) : List Int :=
  (toks.filter (fun t => t.v == .IDENTIFIER)).map token.attr

/-- The state of the containers of the lexer between two iterations of its
main loop: the string tokens carry `0, 1, 2, ...` up to the size of the table
of strings, the identifier tokens likewise, a keyword token carries a position
of the keyword table, and every token is a parenthesis, a number, a string, an
identifier or a keyword. -/
def lexer.consistent (lx : lexer) : Prop :=
  string_attrs lx.tokens = (List.range lx.strings.length).map (fun i : Nat => (i : Int)) ∧
  identifier_attrs lx.tokens = (List.range lx.identifiers.length).map (fun i : Nat => (i : Int)) ∧
  (∀ t ∈ lx.tokens, t.v = .KEYWORD → 0 ≤ t.attr ∧ t.attr < (keywords.length : Int)) ∧
  (∀ t ∈ lx.tokens, t.v = .LPAREN ∨ t.v = .RPAREN ∨ t.v = .NUMBER ∨ t.v = .STRING ∨
    t.v = .IDENTIFIER ∨ t.v = .KEYWORD)

/-! ## Identifier texts -/

/-- Whether a byte continues an identifier in `parse_identifier`: a letter, a
digit or an underscore. -/
def is_identifier_char (c : Nat) : Bool := isalnum c || c == 95

/-- A text that `parse_identifier` reads whole: a letter or an underscore,
then letters, digits and underscores. -/
def is_identifier_text (idt : List Nat) : Bool :=
  match idt with
  | c :: rest => (isalpha c || c == 95) && rest.all is_identifier_char
  | [] => false

/-! ## Lists left open -/

/-- The tokens of lists that were opened and not closed: for each frame, `(`,
the name and the complete elements read so far, the next frame being opened
where the elements of the previous one stop. -/
def tokens_open : List (token × List sentence) → List token
  | [] => []
  | (n, es) :: more => token.mk0 .LPAREN :: n :: (tokens_EList es ++ tokens_open more)

/-- Whether every frame has a name and well-formed elements. -/
def wf_open : List (token × List sentence) → Bool
  | [] => true
  | (n, es) :: more => is_name n && wf_EList es && wf_open more

/-! ## Cursor movement -/

/-- The cursor `p1` is the cursor `p` moved forward, and no byte it moved over
is NUL: the terminator was not passed. -/
def moved_over (p p1 : List Nat) : Prop :=
  ∃ consumed : List Nat, p = consumed ++ p1 ∧ ∀ c ∈ consumed, c ≠ 0

/-- The characters that may follow a backslash in a string literal: the ten
simple escapes, `x`, and the octal digits. -/
def is_escape_char (e : Nat) : Bool :=
  [39, 34, 92, 97, 98, 102, 110, 114, 116, 118, 120].contains e || is_octal_digit e

/-- Whether the body of a string literal, read from after the opening quote,
reaches a closing quote before the input ends: a quote closes the literal
unless it is the character right after a backslash; a backslash takes the
character after it along, whatever it is. -/
def has_closing_quote : List Nat → Bool
  | [] => false
  | [c] => c == 34
  | c :: e :: t =>
    if c = 0 then false
    else if c = 34 then true
    else if c = 92 then (if e = 0 then false else has_closing_quote t)
    else has_closing_quote (e :: t)

/-- Whether the body of a string literal, read from after the opening quote,
has a bad escape before it closes or the input ends: a backslash takes the
character after it along, and the escape is bad when that character is not
one of those that may follow a backslash (the end of the input included). -/
def has_bad_escape : List Nat → Bool
  | [] => false
  | [c] => c == 92
  | c :: e :: t =>
    if c = 0 then false
    else if c = 34 then false
    else if c = 92 then (if is_escape_char e then has_bad_escape t else true)
    else has_bad_escape (e :: t)

/-! ## Token kinds of a sentence -/

/-- Whether every `(` of a sequence of token kinds is immediately followed by
an identifier or a keyword. -/
def lparen_then_name : List vocabulary → Bool
  | [] => true
  | [v] => v != .LPAREN
  | v :: w :: rest =>
    (v != .LPAREN || w == .IDENTIFIER || w == .KEYWORD) && lparen_then_name (w :: rest)

/-! ## The rendered text -/

/-- The lines of a text: the pieces between its line breaks (byte 10). -/
def split_lines : List Nat → List (List Nat)
  | [] => [[]]
  | c :: cs =>
    if c = 10 then [] :: split_lines cs
    else (c :: (split_lines cs).headD []) :: (split_lines cs).tail

/-- The lines of a text that are not empty, in order. -/
def nonempty_lines (text : List Nat) : List (List Nat) :=
  (split_lines text).filter (fun l => !l.isEmpty)

mutual
/-- The terminal leaves of a tree, left to right, each with its depth, the
tree itself being at depth `d`. -/
def ast_node.leaf_depths : ast_node → Nat → List (token × Nat)
  | .terminal tok, d => [(tok, d)]
  | .nonterminal cs, d => leaf_depths_childs cs d
  | .freed, _ => []
/-- The terminal leaves of the children of a node at depth `d`. -/
def leaf_depths_childs : List ast_node → Nat → List (token × Nat)
  | [], _ => []
  | c :: cs, d => c.leaf_depths (d + 1) ++ leaf_depths_childs cs d
end

mutual
/-- The number of nodes of a tree other than its root. -/
def ast_node.descendants : ast_node → Nat
  | .terminal _ => 0
  | .nonterminal cs => descendants_childs cs
  | .freed => 0
/-- The number of nodes of a list of trees. -/
def descendants_childs : List ast_node → Nat
  | [] => 0
  | c :: cs => 1 + c.descendants + descendants_childs cs
end

mutual
/-- The number of non-terminal nodes of a tree, its root included. -/
def ast_node.nonterminals : ast_node → Nat
  | .terminal _ => 0
  | .nonterminal cs => 1 + nonterminals_childs cs
  | .freed => 1
/-- The number of non-terminal nodes of a list of trees. -/
def nonterminals_childs : List ast_node → Nat
  | [] => 0
  | c :: cs => c.nonterminals + nonterminals_childs cs
end

/-- Equality of lexer and parser outcomes is decidable, so that concrete runs
can be checked by evaluation. -/
instance instDecidableEqExcept {ε α : Type} [DecidableEq ε] [DecidableEq α] :
    DecidableEq (Except ε α) := fun a b =>
  match a, b with
  | .ok x, .ok y => if h : x = y then isTrue (by rw [h]) else isFalse (by intro h1; cases h1; exact h rfl)
  | .error x, .error y => if h : x = y then isTrue (by rw [h]) else isFalse (by intro h1; cases h1; exact h rfl)
  | .ok _, .error _ => isFalse (by intro h; cases h)
  | .error _, .ok _ => isFalse (by intro h; cases h)

/-! # Properties -/
/-! ## The parser, function by function -/

theorem parse_Name_name (n : token) (it : List token) (cs : List ast_node)
    (hn : is_name n = true) :
    parse_Name (n :: it) (.nonterminal cs) = .ok (it, .nonterminal (cs ++ [.terminal n])) := by
  rcases n with ⟨v, a⟩
  cases v <;> simp [is_name] at hn <;> simp [parse_Name, ast_node.add_child_tok]

theorem parse_Name_freed (n : token) (it : List token) (hn : is_name n = true) :
    parse_Name (n :: it) .freed = .error .use_after_free := by
  rcases n with ⟨v, a⟩
  cases v <;> simp [is_name] at hn <;> simp [parse_Name, ast_node.add_child_tok]

theorem parse_Name_bad (t : token) (rest : List token) (node : ast_node)
    (ht : is_name t = false) :
    parse_Name (t :: rest) node = .error .parse_Name_unexpected_token := by
  obtain ⟨v, x⟩ := t
  cases v <;> simp [is_name] at ht <;> simp [parse_Name]

/-- What `parse_Name` can do: return after adding the name it stands on, or
fail. -/
theorem parse_Name_cases (it : List token) (node : ast_node) :
    (it = [] ∧ parse_Name it node = .error .read_past_end) ∨
    (∃ t rest, it = t :: rest ∧ is_name t = false ∧
      parse_Name it node = .error .parse_Name_unexpected_token) ∨
    (∃ t rest, it = t :: rest ∧ is_name t = true ∧
      ((∃ e, node.add_child_tok t = .error e ∧ parse_Name it node = .error e) ∨
       (∃ node1, node.add_child_tok t = .ok node1 ∧ parse_Name it node = .ok (rest, node1)))) := by
  cases it with
  | nil => exact Or.inl ⟨rfl, rfl⟩
  | cons t rest =>
    cases hn : is_name t with
    | false => exact Or.inr (Or.inl ⟨t, rest, rfl, hn, parse_Name_bad t rest node hn⟩)
    | true =>
      refine Or.inr (Or.inr ⟨t, rest, rfl, hn, ?_⟩)
      obtain ⟨v, x⟩ := t
      cases ha : node.add_child_tok ⟨v, x⟩ with
      | error e =>
        left
        cases v <;> simp [is_name] at hn <;> simp [parse_Name, ha]
      | ok node1 =>
        right
        cases v <;> simp [is_name] at hn <;> simp [parse_Name, ha]

theorem add_child_tok_error (node : ast_node) (t : token) (e : parse_error)
    (h : node.add_child_tok t = .error e) :
    e = .add_child_to_terminal ∨ e = .use_after_free := by
  cases node <;> simp [ast_node.add_child_tok] at h
  · exact Or.inl h.symm
  · exact Or.inr h.symm

theorem parse_E_atom (fuel : Nat) (a : token) (it : List token) (cs : List ast_node)
    (ha : is_atom a = true) :
    parse_E (fuel + 1) (a :: it) (.nonterminal cs)
      = .ok (it, .nonterminal (cs ++ [.terminal a])) := by
  rcases a with ⟨v, x⟩
  cases v <;> simp [is_atom] at ha <;> simp [parse_E, ast_node.add_child_tok]

theorem parse_E_atom_eq (fuel : Nat) (a : token) (it : List token) (node : ast_node)
    (ha : is_atom a = true) :
    parse_E (fuel + 1) (a :: it) node
      = (node.add_child_tok a).map (fun node1 => (it, node1)) := by
  rcases a with ⟨v, x⟩
  cases hc : node.add_child_tok ⟨v, x⟩ <;>
    cases v <;> simp [is_atom] at ha <;> simp [parse_E, hc, Except.map]

theorem parse_E_atom_freed (fuel : Nat) (a : token) (it : List token)
    (ha : is_atom a = true) :
    parse_E (fuel + 1) (a :: it) .freed = .error .use_after_free := by
  rw [parse_E_atom_eq fuel a it _ ha]
  rfl

theorem parse_E_lparen_name_error (fuel : Nat) (x : Int) (it : List token) (node : ast_node)
    (e : parse_error) (h : parse_Name it node = .error e) :
    parse_E (fuel + 1) (⟨.LPAREN, x⟩ :: it) node = .error e := by
  simp [parse_E, h]

theorem parse_E_lparen_list_error (fuel : Nat) (x : Int) (it it2 : List token)
    (node node2 : ast_node) (e : parse_error) (h : parse_Name it node = .ok (it2, node2))
    (h2 : parse_EList fuel it2 node2 = .error e) :
    parse_E (fuel + 1) (⟨.LPAREN, x⟩ :: it) node = .error e := by
  simp [parse_E, h, h2]

theorem parse_E_lparen_ok (fuel : Nat) (x : Int) (it it2 it4 : List token)
    (node node2 node3 : ast_node) (rp : token) (h : parse_Name it node = .ok (it2, node2))
    (h2 : parse_EList fuel it2 node2 = .ok (rp :: it4, node3)) (h3 : rp.v = .RPAREN) :
    parse_E (fuel + 1) (⟨.LPAREN, x⟩ :: it) node = .ok (it4, node3) := by
  simp [parse_E, h, h2, h3]

theorem parse_E_ending (fuel : Nat) (x : Int) (it : List token) (node : ast_node) :
    parse_E (fuel + 1) (⟨.ENDING, x⟩ :: it) node = .ok (it, node) := by
  simp [parse_E]

theorem parse_E_other (fuel : Nat) (tok : token) (it1 : List token) (node : ast_node)
    (h1 : tok.v ≠ .LPAREN) (h2 : is_atom tok = false) (h3 : tok.v ≠ .ENDING) :
    parse_E (fuel + 1) (tok :: it1) node = .error .parse_E_unexpected_token := by
  rcases tok with ⟨v, a⟩
  cases v <;> simp [is_atom] at h1 h2 h3 <;> simp [parse_E]

theorem parse_EList_rparen (fuel : Nat) (x : Int) (it : List token) (node : ast_node) :
    parse_EList (fuel + 1) (⟨.RPAREN, x⟩ :: it) node = .ok (⟨.RPAREN, x⟩ :: it, node) := by
  simp [parse_EList]

theorem parse_EList_ending (fuel : Nat) (x : Int) (it : List token) (node : ast_node) :
    parse_EList (fuel + 1) (⟨.ENDING, x⟩ :: it) node = .error .parse_EList_unexpected_token := by
  simp [parse_EList]

theorem parse_EList_other (fuel : Nat) (tok : token) (it : List token) (node : ast_node)
    (h1 : is_first_E tok = false) (h2 : tok.v ≠ .RPAREN) :
    parse_EList (fuel + 1) (tok :: it) node = .error .parse_EList_unexpected_token := by
  rcases tok with ⟨v, x⟩
  cases v <;> simp [is_first_E, is_atom] at h1 h2 <;> simp [parse_EList]

theorem parse_EList_terminal (fuel : Nat) (tok : token) (it : List token) (tk : token)
    (h : is_first_E tok = true) :
    parse_EList (fuel + 1) (tok :: it) (.terminal tk) = .error .add_child_to_terminal := by
  rcases tok with ⟨v, x⟩
  cases v <;> simp [is_first_E, is_atom] at h <;> simp [parse_EList, ast_node.add_child]

theorem parse_EList_freed (fuel : Nat) (tok : token) (it : List token)
    (h : is_first_E tok = true) :
    parse_EList (fuel + 1) (tok :: it) .freed = .error .use_after_free := by
  rcases tok with ⟨v, x⟩
  cases v <;> simp [is_first_E, is_atom] at h <;> simp [parse_EList, ast_node.add_child]

/-- An element of a list, by the branch `parse_E(node.add_child())` of
`parse_EList` on a node with a live list: `parse_E` is given the child whose
list was deleted, and its failure is the failure of `parse_EList`. -/
theorem parse_EList_first (fuel : Nat) (tok : token) (it : List token) (cs : List ast_node)
    (h : is_first_E tok = true) (e : parse_error)
    (he : parse_E fuel (tok :: it) .freed = .error e) :
    parse_EList (fuel + 1) (tok :: it) (.nonterminal cs) = .error e := by
  rcases tok with ⟨v, x⟩
  cases v <;> simp [is_first_E, is_atom] at h <;>
    simp [parse_EList, ast_node.add_child, he]

theorem first_E_cases (tok : token) (h : is_first_E tok = true) :
    is_atom tok = true ∨ ∃ x, tok = ⟨.LPAREN, x⟩ := by
  rcases tok with ⟨v, x⟩
  cases v <;> simp [is_first_E, is_atom] at h ⊢

/-- On the child that `add_child()` returns, `parse_E` never returns: it
stops in `parse_Name` on a token that is not a name, and otherwise calls
`emplace_back` on the deleted list. -/
theorem parse_E_freed (fuel : Nat) (tok : token) (it : List token)
    (h : is_first_E tok = true) :
    (is_atom tok = true ∧ parse_E (fuel + 1) (tok :: it) .freed = .error .use_after_free) ∨
    (∃ x n rest, tok = ⟨.LPAREN, x⟩ ∧ it = n :: rest ∧ is_name n = true ∧
      parse_E (fuel + 1) (tok :: it) .freed = .error .use_after_free) ∨
    (∃ x t rest, tok = ⟨.LPAREN, x⟩ ∧ it = t :: rest ∧ is_name t = false ∧
      parse_E (fuel + 1) (tok :: it) .freed = .error .parse_Name_unexpected_token) ∨
    (∃ x, tok = ⟨.LPAREN, x⟩ ∧ it = [] ∧
      parse_E (fuel + 1) (tok :: it) .freed = .error .read_past_end) := by
  rcases first_E_cases tok h with ha | ⟨x, rfl⟩
  · exact Or.inl ⟨ha, parse_E_atom_freed fuel tok it ha⟩
  · right
    cases it with
    | nil =>
      exact Or.inr (Or.inr ⟨x, rfl, rfl, parse_E_lparen_name_error fuel x [] _ _ rfl⟩)
    | cons t rest =>
      cases hn : is_name t with
      | true =>
        exact Or.inl ⟨x, t, rest, rfl, rfl, hn,
          parse_E_lparen_name_error fuel x _ _ _ (parse_Name_freed t rest hn)⟩
      | false =>
        exact Or.inr (Or.inl ⟨x, t, rest, rfl, rfl, hn,
          parse_E_lparen_name_error fuel x _ _ _ (parse_Name_bad t rest _ hn)⟩)

theorem parse_E_freed_error (fuel : Nat) (tok : token) (it : List token)
    (h : is_first_E tok = true) :
    ∃ e, parse_E fuel (tok :: it) .freed = .error e ∧
      (e = .use_after_free ∨ e = .parse_Name_unexpected_token ∨ e = .read_past_end ∨
        e = .out_of_fuel) := by
  cases fuel with
  | zero => exact ⟨_, by simp [parse_E], Or.inr (Or.inr (Or.inr rfl))⟩
  | succ f =>
    rcases parse_E_freed f tok it h with ⟨_, h1⟩ | ⟨_, _, _, _, _, _, h1⟩ |
      ⟨_, _, _, _, _, _, h1⟩ | ⟨_, _, _, h1⟩
    · exact ⟨_, h1, Or.inl rfl⟩
    · exact ⟨_, h1, Or.inl rfl⟩
    · exact ⟨_, h1, Or.inr (Or.inl rfl)⟩
    · exact ⟨_, h1, Or.inr (Or.inr (Or.inl rfl))⟩

/-- The only way `parse_EList` returns: at once, on a `)`, with the node as
it was. -/
theorem parse_EList_ok (fuel : Nat) (it : List token) (node : ast_node) (rest : List token)
    (node1 : ast_node) (h : parse_EList fuel it node = .ok (rest, node1)) :
    rest = it ∧ node1 = node ∧ ∃ r rs, it = r :: rs ∧ r.v = .RPAREN := by
  cases fuel with
  | zero => simp [parse_EList] at h
  | succ f =>
    cases it with
    | nil => simp [parse_EList] at h
    | cons tok it1 =>
      by_cases hr : tok.v = .RPAREN
      · obtain ⟨v, x⟩ := tok
        simp only at hr
        subst hr
        rw [parse_EList_rparen] at h
        simp only [Except.ok.injEq, Prod.mk.injEq] at h
        exact ⟨h.1.symm, h.2.symm, _, _, rfl, rfl⟩
      · cases hf : is_first_E tok with
        | false => rw [parse_EList_other f tok it1 node hf hr] at h; cases h
        | true =>
          cases node with
          | terminal tk => rw [parse_EList_terminal f tok it1 tk hf] at h; cases h
          | freed => rw [parse_EList_freed f tok it1 hf] at h; cases h
          | nonterminal cs =>
            obtain ⟨e, he, _⟩ := parse_E_freed_error f tok it1 hf
            rw [parse_EList_first f tok it1 cs hf e he] at h
            cases h

/-- The ways `parse_E` returns: on an atom, on the sentinel, or on `(`, a name
and `)`. -/
theorem parse_E_ok (fuel : Nat) (it : List token) (node : ast_node) (rest : List token)
    (node1 : ast_node) (h : parse_E fuel it node = .ok (rest, node1)) :
    (∃ tok, is_atom tok = true ∧ it = tok :: rest ∧ node.add_child_tok tok = .ok node1) ∨
    (∃ x, it = ⟨.ENDING, x⟩ :: rest ∧ node1 = node) ∨
    (∃ x n rp, is_name n = true ∧ rp.v = .RPAREN ∧ it = ⟨.LPAREN, x⟩ :: n :: rp :: rest ∧
      node.add_child_tok n = .ok node1) := by
  cases fuel with
  | zero => simp [parse_E] at h
  | succ f =>
    cases it with
    | nil => simp [parse_E] at h
    | cons tok it1 =>
      cases ha : is_atom tok with
      | true =>
        rw [parse_E_atom_eq f tok it1 node ha] at h
        cases hc : node.add_child_tok tok with
        | error e => simp [hc, Except.map] at h
        | ok n1 =>
          simp only [hc, Except.map, Except.ok.injEq, Prod.mk.injEq] at h
          exact Or.inl ⟨tok, ha, by rw [h.1], by rw [← h.2, hc]⟩
      | false =>
        by_cases he : tok.v = .ENDING
        · obtain ⟨v, x⟩ := tok
          simp only at he
          subst he
          rw [parse_E_ending] at h
          simp only [Except.ok.injEq, Prod.mk.injEq] at h
          exact Or.inr (Or.inl ⟨x, by rw [h.1], h.2.symm⟩)
        · by_cases hl : tok.v = .LPAREN
          · obtain ⟨v, x⟩ := tok
            simp only at hl
            subst hl
            rcases parse_Name_cases it1 node with ⟨_, h1⟩ | ⟨_, _, _, _, h1⟩ |
              ⟨n, it2, hit, hn, ⟨e, _, h1⟩ | ⟨node2, hadd, h1⟩⟩
            · rw [parse_E_lparen_name_error f x it1 node _ h1] at h; cases h
            · rw [parse_E_lparen_name_error f x it1 node _ h1] at h; cases h
            · rw [parse_E_lparen_name_error f x it1 node _ h1] at h; cases h
            · cases hp : parse_EList f it2 node2 with
              | error e => rw [parse_E_lparen_list_error f x it1 it2 node node2 e h1 hp] at h; cases h
              | ok r =>
                obtain ⟨it3, node3⟩ := r
                obtain ⟨h3, h4, rp, rs, h5, h6⟩ := parse_EList_ok f it2 node2 it3 node3 hp
                subst h3 h4 h5
                rw [parse_E_lparen_ok f x it1 _ rs node _ _ rp h1 hp h6] at h
                simp only [Except.ok.injEq, Prod.mk.injEq] at h
                obtain ⟨h7, h8⟩ := h
                subst h7 h8
                exact Or.inr (Or.inr ⟨x, n, rp, hn, h6, by rw [hit], hadd⟩)
          · rw [parse_E_other f tok it1 node hl ha he] at h
            cases h

/-- A list of its name alone, `( n )`: the terminal of the name is appended
and the iterator goes past the `)`. -/
theorem parse_E_name_only (fuel : Nat) (x y : Int) (n : token) (rest : List token)
    (cs : List ast_node) (hn : is_name n = true) :
    parse_E (fuel + 2) (⟨.LPAREN, x⟩ :: n :: ⟨.RPAREN, y⟩ :: rest) (.nonterminal cs)
      = .ok (rest, .nonterminal (cs ++ [.terminal n])) := by
  exact parse_E_lparen_ok (fuel + 1) x _ _ rest _ _ _ ⟨.RPAREN, y⟩
    (parse_Name_name n _ cs hn) (parse_EList_rparen fuel y rest _) rfl

/-- A list with something in the place of its first element: `parse_E` gives
what `parse_E` gives on the child with the deleted list. -/
theorem parse_E_element (fuel : Nat) (x : Int) (n t : token) (rest : List token)
    (cs : List ast_node) (hn : is_name n = true) (ht : is_first_E t = true) (e : parse_error)
    (he : parse_E (fuel + 1) (t :: rest) .freed = .error e) :
    parse_E (fuel + 3) (⟨.LPAREN, x⟩ :: n :: t :: rest) (.nonterminal cs) = .error e := by
  exact parse_E_lparen_list_error (fuel + 2) x _ _ _ _ e (parse_Name_name n _ cs hn)
    (parse_EList_first (fuel + 1) t rest _ ht e he)

theorem sentence_tokens_first : ∀ (e : sentence), e.wf = true →
    ∃ tok tl, e.tokens = tok :: tl ∧ is_first_E tok = true
  | .atom tok, h => ⟨tok, [], by simp [sentence.tokens], by
      simp [sentence.wf] at h; simp [is_first_E, h]⟩
  | .paren n l, _ => ⟨token.mk0 .LPAREN, n :: (tokens_EList l ++ [token.mk0 .RPAREN]), by
      simp [sentence.tokens], by
      simp [is_first_E, token.mk0]⟩

/-- A well-formed sentence of `E`, parsed as an element: `parse_E` calls
`emplace_back` on the deleted list of the child, for an atom with the token
and for a list with its name. -/
theorem parse_E_sentence_freed (e : sentence) (h : e.wf = true) (fuel : Nat)
    (rest : List token) :
    parse_E (fuel + 1) (e.tokens ++ rest) .freed = .error .use_after_free := by
  cases e with
  | atom tok =>
    simp only [sentence.wf] at h
    simpa [sentence.tokens] using parse_E_atom_freed fuel tok rest h
  | paren n l =>
    simp only [sentence.wf, Bool.and_eq_true] at h
    simpa [sentence.tokens, token.mk0]
      using parse_E_lparen_name_error fuel 0 _ _ _ (parse_Name_freed n _ h.1)

/-- A sentence without element is parsed: the terminal of its token or name
is appended. -/
theorem parse_E_no_element (e : sentence) (h : e.wf = true) (hn : e.no_element = true)
    (fuel : Nat) (rest : List token) (cs : List ast_node) :
    parse_E (fuel + 2) (e.tokens ++ rest) (.nonterminal cs)
      = .ok (rest, .nonterminal (cs ++ [.terminal e.leaf])) := by
  cases e with
  | atom tok =>
    simp only [sentence.wf] at h
    simpa [sentence.tokens, sentence.leaf] using parse_E_atom (fuel + 1) tok rest cs h
  | paren n l =>
    simp only [sentence.wf, Bool.and_eq_true] at h
    simp only [sentence.no_element, List.isEmpty_iff] at hn
    subst hn
    simpa [sentence.tokens, sentence.leaf, tokens_EList, token.mk0]
      using parse_E_name_only fuel 0 0 n rest cs h.1

/-- A list with an element is not parsed: the run stops at the first element,
in the call of `emplace_back` on the deleted list. -/
theorem parse_E_with_element (n : token) (x : sentence) (hn : is_name n = true)
    (hx : x.wf = true) (fuel : Nat) (rest : List token) (cs : List ast_node) :
    parse_E (fuel + 3) (token.mk0 .LPAREN :: n :: (x.tokens ++ rest)) (.nonterminal cs)
      = .error .use_after_free := by
  obtain ⟨tok, tl, htok, hfirst⟩ := sentence_tokens_first x hx
  have he := parse_E_sentence_freed x hx fuel rest
  rw [htok] at he ⊢
  exact parse_E_element fuel 0 n tok (tl ++ rest) cs hn hfirst _ he

theorem parsing_fuel (toks : List token) (k : Nat) (h : k ≤ toks.length) :
    ∃ f, 2 * toks.length + 2 = f + (2 * k + 2) := ⟨2 * (toks.length - k), by omega⟩

theorem parsing_no_element (e : sentence) (h : e.wf = true) (hn : e.no_element = true)
    (cs : List ast_node) (it0 rest : List token) (ids strs : List (List Nat)) :
    parsing ⟨.nonterminal cs, it0⟩ ⟨e.tokens ++ rest, ids, strs⟩
      = .ok ⟨.nonterminal (cs ++ [.terminal e.leaf]), rest⟩ := by
  obtain ⟨f, hf⟩ := parsing_fuel (e.tokens ++ rest) 0 (by omega)
  simp only [parsing, hf]
  rw [parse_E_no_element e h hn f rest cs]

theorem parsing_with_element (n : token) (x : sentence) (l : List sentence)
    (hn : is_name n = true) (hx : x.wf = true) (cs : List ast_node) (it0 rest : List token)
    (ids strs : List (List Nat)) :
    parsing ⟨.nonterminal cs, it0⟩ ⟨(sentence.paren n (x :: l)).tokens ++ rest, ids, strs⟩
      = .error .use_after_free := by
  have hlen : 1 ≤ ((sentence.paren n (x :: l)).tokens ++ rest).length := by
    simp [sentence.tokens]
  obtain ⟨f, hf⟩ : ∃ f, 2 * ((sentence.paren n (x :: l)).tokens ++ rest).length + 2 = f + 3 :=
    ⟨2 * ((sentence.paren n (x :: l)).tokens ++ rest).length - 1, by omega⟩
  simp only [parsing, hf]
  have := parse_E_with_element n x hn hx f
    (tokens_EList l ++ token.mk0 .RPAREN :: rest) cs
  simp only [sentence.tokens, tokens_EList, List.cons_append, List.append_assoc,
    List.singleton_append, List.nil_append] at this ⊢
  rw [this]

/-! ## Sentences of the grammar -/

theorem is_name_atom (t : token) (h : is_name t = true) : is_atom t = true := by
  rcases t with ⟨v, x⟩
  cases v <;> simp [is_name] at h <;> simp [is_atom]

/-- A well-formed sentence with an element is a list whose first element is
well formed. -/
theorem sentence_with_element (e : sentence) (h : e.wf = true) (hn : e.no_element = false) :
    ∃ n x l, e = .paren n (x :: l) ∧ is_name n = true ∧ x.wf = true := by
  cases e with
  | atom tok => simp [sentence.no_element] at hn
  | paren n l =>
    cases l with
    | nil => simp [sentence.no_element] at hn
    | cons x l =>
      simp only [sentence.wf, wf_EList, Bool.and_eq_true] at h
      exact ⟨n, x, l, rfl, h.1, h.2.1⟩

/-- C1, as the code behaves. Of the token sequences derivable from `E`,
followed by the sentinel, `parsing` accepts those without a list element: an
atom, or a list of its name alone; the iterator is then left on the sentinel.
On every list with at least one element the run stops at the first element:
`parse_EList` gives `parse_E` the child returned by `add_child()`, whose list
was deleted, and the first `add_child(tok)` on it is a call on that list. -/
theorem parsing_complete_only_without_element (e : sentence) (h : e.wf = true)
    (cs : List ast_node) (it0 : List token) (ids strs : List (List Nat)) :
    (e.no_element = true →
      parsing ⟨.nonterminal cs, it0⟩ ⟨e.tokens ++ [token.mk0 .ENDING], ids, strs⟩
        = .ok ⟨.nonterminal (cs ++ [.terminal e.leaf]), [token.mk0 .ENDING]⟩) ∧
    (e.no_element = false →
      parsing ⟨.nonterminal cs, it0⟩ ⟨e.tokens ++ [token.mk0 .ENDING], ids, strs⟩
        = .error .use_after_free) := by
  constructor
  · intro hn
    exact parsing_no_element e h hn cs it0 _ ids strs
  · intro hn
    obtain ⟨n, x, l, rfl, h1, h2⟩ := sentence_with_element e h hn
    exact parsing_with_element n x l h1 h2 cs it0 _ ids strs

/-- C1, at the tokens of the demo-like input `(print "hi")`: no parser state is
returned. -/
theorem parsing_complete_only_without_element_witness :
    ((sentence.paren ⟨.KEYWORD, 15⟩ [.atom ⟨.STRING, 0⟩]).wf = true ∧
      (sentence.paren ⟨.KEYWORD, 15⟩ [.atom ⟨.STRING, 0⟩]).no_element = false) ∧
    parsing ⟨.nonterminal [], []⟩
        ⟨(sentence.paren ⟨.KEYWORD, 15⟩ [.atom ⟨.STRING, 0⟩]).tokens ++ [token.mk0 .ENDING],
          [], [bytes "hi"]⟩
      = .error .use_after_free :=
  ⟨⟨by decide, by decide⟩,
    (parsing_complete_only_without_element (.paren ⟨.KEYWORD, 15⟩ [.atom ⟨.STRING, 0⟩])
      (by decide) [] [] [] [bytes "hi"]).2 (by decide)⟩

/-- C2, as the code behaves. On the tokens `( n )` with `n` an identifier or
keyword, `parse_E` appends to a non-terminal exactly one child, the terminal
of `n`. On `( n e1 ...` with a sentence `e1` of `E`, `parse_E` appends the
terminal of `n` and appends no child for `e1`: the run stops in the parse of
`e1`, in a call on the deleted list of the node `add_child()` returned. -/
theorem parse_E_paren_stops_at_element (n : token) (hn : is_name n = true) (fuel : Nat)
    (rest : List token) (cs : List ast_node) :
    parse_E (fuel + 2) (token.mk0 .LPAREN :: n :: token.mk0 .RPAREN :: rest) (.nonterminal cs)
      = .ok (rest, .nonterminal (cs ++ [.terminal n])) ∧
    ∀ e1 : sentence, e1.wf = true →
      parse_E (fuel + 3) (token.mk0 .LPAREN :: n :: (e1.tokens ++ rest)) (.nonterminal cs)
        = .error .use_after_free :=
  ⟨parse_E_name_only fuel 0 0 n rest cs hn,
    fun e1 h1 => parse_E_with_element n e1 hn h1 fuel rest cs⟩

/-- C2, at the tokens of `(f 1 2)` followed by the sentinel. -/
theorem parse_E_paren_stops_at_element_witness :
    (is_name ⟨.IDENTIFIER, 0⟩ = true ∧ (sentence.atom ⟨.NUMBER, 1⟩).wf = true) ∧
    parse_E (5 + 3) (token.mk0 .LPAREN :: ⟨.IDENTIFIER, 0⟩ ::
        ((sentence.atom ⟨.NUMBER, 1⟩).tokens
          ++ [⟨.NUMBER, 2⟩, token.mk0 .RPAREN, token.mk0 .ENDING]))
        (.nonterminal [])
      = .error .use_after_free :=
  ⟨⟨by decide, by decide⟩,
    (parse_E_paren_stops_at_element ⟨.IDENTIFIER, 0⟩ (by decide) 5
      [⟨.NUMBER, 2⟩, token.mk0 .RPAREN, token.mk0 .ENDING] []).2 (.atom ⟨.NUMBER, 1⟩)
      (by decide)⟩

/-- C3, as the code behaves. An atomic `E` in the place of the first element
of a list gets no node: `parsing` stops there, in `add_child(tok)` on the node
that `add_child()` returned, whose list was deleted, and returns no tree. So
it is for `(print "hi")`. -/
theorem atom_element_gets_no_node :
    (∀ (n a : token) (rest : List token) (cs : List ast_node) (it0 : List token)
      (ids strs : List (List Nat)), is_name n = true → is_atom a = true →
      parsing ⟨.nonterminal cs, it0⟩ ⟨token.mk0 .LPAREN :: n :: a :: rest, ids, strs⟩
        = .error .use_after_free) ∧
    ∃ lx : lexer, lexing (bytes "(print \"hi\")") = .ok lx ∧
      lx.tokens = [⟨.LPAREN, 0⟩, ⟨.KEYWORD, 15⟩, ⟨.STRING, 0⟩, ⟨.RPAREN, 0⟩, ⟨.ENDING, 0⟩] ∧
      parsing parser.new lx = .error .use_after_free := by
  refine ⟨?_, ⟨_, rfl, rfl, rfl⟩⟩
  intro n a rest cs it0 ids strs hn ha
  obtain ⟨f, hf⟩ : ∃ f, 2 * (token.mk0 .LPAREN :: n :: a :: rest).length + 2 = f + 3 :=
    ⟨2 * (token.mk0 .LPAREN :: n :: a :: rest).length - 1, by simp; omega⟩
  simp only [parsing, hf]
  have h2 := parse_E_with_element n (.atom a) hn (by simpa [sentence.wf] using ha) f rest cs
  simp only [sentence.tokens, List.singleton_append] at h2
  rw [h2]

/-- C3, at the tokens of `(f x)`. -/
theorem atom_element_gets_no_node_witness :
    (is_name ⟨.IDENTIFIER, 0⟩ = true ∧ is_atom ⟨.IDENTIFIER, 1⟩ = true) ∧
    parsing ⟨.nonterminal [], []⟩
        ⟨token.mk0 .LPAREN :: ⟨.IDENTIFIER, 0⟩ :: ⟨.IDENTIFIER, 1⟩ ::
          [token.mk0 .RPAREN, token.mk0 .ENDING], [bytes "f", bytes "x"], []⟩
      = .error .use_after_free :=
  ⟨⟨by decide, by decide⟩,
    atom_element_gets_no_node.1 ⟨.IDENTIFIER, 0⟩ ⟨.IDENTIFIER, 1⟩
      [token.mk0 .RPAREN, token.mk0 .ENDING] [] [] [bytes "f", bytes "x"] []
      (by decide) (by decide)⟩

theorem match_literal_eq_some (kw : List Nat) (hkw : ∀ c ∈ kw, c ≠ 0) (s p : List Nat) :
    match_literal kw s = some p ↔ s = kw ++ p := by
  induction kw generalizing s with
  | nil => simp [match_literal, eq_comm]
  | cons c cs ih =>
    have hc : c ≠ 0 := hkw c (by simp)
    have hcs : ∀ d ∈ cs, d ≠ 0 := fun d hd => hkw d (by simp [hd])
    cases s with
    | nil => simp [match_literal, peek, Ne.symm hc]
    | cons d s1 =>
      by_cases hdc : d = c
      · subst hdc
        simp [match_literal, peek, ih hcs]
      · simp [match_literal, peek, hdc]

theorem match_literal_eq_none (kw : List Nat) (hkw : ∀ c ∈ kw, c ≠ 0) (s : List Nat)
    (h : ¬ kw <+: s) : match_literal kw s = none := by
  cases hm : match_literal kw s with
  | none => rfl
  | some p =>
    exact absurd ⟨p, ((match_literal_eq_some kw hkw s p).1 hm).symm⟩ h

theorem match_literal_of_le (kw : List Nat) (hkw : ∀ c ∈ kw, c ≠ 0) (s : List Nat)
    (h : kw <+: s) : match_literal kw s = some (s.drop kw.length) := by
  obtain ⟨p, rfl⟩ := h
  simp [match_literal_eq_some kw hkw]

theorem keywords_nonzero : ∀ kw ∈ keywords, ∀ c ∈ kw, c ≠ 0 := by decide

/-- In the table, a spelling that has another spelling as a proper initial
part stands before it. -/
theorem keywords_order : ∀ a ∈ keywords.enum, ∀ b ∈ keywords.enum,
    a.2 <+: b.2 → a.2.length < b.2.length → b.1 < a.1 := by decide

theorem match_keyword_from_none (i : Nat) (kws : List (List Nat))
    (hkws : ∀ kw ∈ kws, ∀ c ∈ kw, c ≠ 0) (s : List Nat) (h : ∀ kw ∈ kws, ¬ kw <+: s) :
    match_keyword_from i kws s = (KW_NOT_A_KEYWORD, s) := by
  induction kws generalizing i with
  | nil => simp [match_keyword_from]
  | cons kw kws ih =>
    have h1 := match_literal_eq_none kw (hkws kw (by simp)) s (h kw (by simp))
    simp only [match_keyword_from, h1]
    exact ih (i + 1) (fun k hk => hkws k (by simp [hk])) (fun k hk => h k (by simp [hk]))

/-- The outer loop returns the first spelling of the table that the input
starts with, if there is one. -/
theorem match_keyword_from_first (i : Nat) (kws : List (List Nat))
    (hkws : ∀ kw ∈ kws, ∀ c ∈ kw, c ≠ 0) (s : List Nat) (h : ∃ kw ∈ kws, kw <+: s) :
    ∃ (j : Nat) (kwj : List Nat), kws[j]? = some kwj ∧
      match_keyword_from i kws s = (((i + j : Nat) : Int), s.drop kwj.length) ∧ kwj <+: s ∧
      ∀ (k : Nat) (kwk : List Nat), k < j → kws[k]? = some kwk → ¬ kwk <+: s := by
  induction kws generalizing i with
  | nil => simp at h
  | cons kw kws ih =>
    by_cases hp : kw <+: s
    · refine ⟨0, kw, by simp, ?_, hp, by simp⟩
      simp [match_keyword_from, match_literal_of_le kw (hkws kw (by simp)) s hp]
    · have h1 := match_literal_eq_none kw (hkws kw (by simp)) s hp
      have h2 : ∃ k ∈ kws, k <+: s := by
        obtain ⟨k, hk, hks⟩ := h
        simp at hk
        rcases hk with rfl | hk
        · exact absurd hks hp
        · exact ⟨k, hk, hks⟩
      obtain ⟨j, kwj, hj, hm, hpj, hfirst⟩ :=
        ih (i + 1) (fun k hk => hkws k (by simp [hk])) h2
      refine ⟨j + 1, kwj, by simpa using hj, ?_, hpj, ?_⟩
      · simp only [match_keyword_from, h1, hm]
        congr 2
        omega
      · intro k kwk hk hget
        cases k with
        | zero =>
          simp at hget
          subst hget
          exact hp
        | succ k1 =>
          exact hfirst k1 kwk (by omega) (by simpa using hget)

theorem match_keyword_first (s : List Nat) (h : ∃ kw ∈ keywords, kw <+: s) :
    ∃ (j : Nat) (kwj : List Nat), keywords[j]? = some kwj ∧
      match_keyword s = ((j : Int), s.drop kwj.length) ∧ kwj <+: s ∧
      ∀ (k : Nat) (kwk : List Nat), k < j → keywords[k]? = some kwk → ¬ kwk <+: s := by
  simpa [match_keyword] using match_keyword_from_first 0 keywords keywords_nonzero s h

/-- C5. Keyword matching is safe for spellings that start alike: whenever
some spelling of the table is an initial part of the remaining input,
`match_keyword` returns the code of a spelling that is an initial part of the
input, moves the cursor past it, and no spelling that is an initial part of
the input is longer than the one returned. In particular `<=` and `>=` lex to
the single keywords with codes 6 and 7. -/
theorem match_keyword_longest :
    (∀ (s kw : List Nat), kw ∈ keywords → kw <+: s →
      ∃ (i : Nat) (kwi : List Nat), keywords[i]? = some kwi ∧
        match_keyword s = ((i : Int), s.drop kwi.length) ∧ kwi <+: s ∧
        kw.length ≤ kwi.length) ∧
    keywords[6]? = some (bytes "<=") ∧ keywords[7]? = some (bytes ">=") ∧
    lexing (bytes "<=") = .ok ⟨[⟨.KEYWORD, 6⟩, token.mk0 .ENDING], [], []⟩ ∧
    lexing (bytes ">=") = .ok ⟨[⟨.KEYWORD, 7⟩, token.mk0 .ENDING], [], []⟩ := by
  refine ⟨?_, by decide, by decide, by decide, by decide⟩
  intro s kw hkw hp
  obtain ⟨i, kwi, hi, hm, hpi, hfirst⟩ := match_keyword_first s ⟨kw, hkw, hp⟩
  refine ⟨i, kwi, hi, hm, hpi, ?_⟩
  by_contra hlen
  obtain ⟨j, hj⟩ := List.mem_iff_getElem?.1 hkw
  have hpre : kwi <+: kw := List.prefix_of_prefix_length_le hpi hp (by omega)
  have hlt : j < i := keywords_order (i, kwi) (List.mk_mem_enum_iff_getElem?.2 hi) (j, kw)
    (List.mk_mem_enum_iff_getElem?.2 hj) hpre (by show kwi.length < kw.length; omega)
  exact hfirst j kw hlt hj hp

/-- C5, at the input `<=x`, which both `<` and `<=` start: the keyword
returned is at least as long as `<`. -/
theorem match_keyword_longest_witness :
    bytes "<" ∈ keywords ∧ bytes "<" <+: bytes "<=x" ∧
    ∃ (i : Nat) (kwi : List Nat), keywords[i]? = some kwi ∧
      match_keyword (bytes "<=x") = ((i : Int), (bytes "<=x").drop kwi.length) ∧
      kwi <+: bytes "<=x" ∧ (bytes "<").length ≤ kwi.length :=
  ⟨by decide, by decide, match_keyword_longest.1 (bytes "<=x") (bytes "<") (by decide) (by decide)⟩

/-- C6. Spellings and codes are paired one to one: the table has 16 entries
and lexing the `i`-th spelling alone gives the keyword token with code `i`
followed by the sentinel, with empty tables; `token_to_string` renders that
token as the spelling between `{keyword:` and `}`; `<=` lexes to the code
`KW_LESSEQ = 6` and `print` to `KW_PRINT = 15`; and when no spelling is an initial part of the input,
`match_keyword` returns `KW_NOT_A_KEYWORD` and the cursor unchanged. -/
theorem keyword_codes :
    keywords.length = 16 ∧
    (∀ (i : Nat) (kw : List Nat), keywords[i]? = some kw →
      lexing kw = .ok ⟨[⟨.KEYWORD, (i : Int)⟩, token.mk0 .ENDING], [], []⟩ ∧
      ∀ lx : lexer, token_to_string lx ⟨.KEYWORD, (i : Int)⟩
        = some (bytes "\x7bkeyword:" ++ kw ++ bytes "\x7d")) ∧
    lexing (bytes "<=") = .ok ⟨[⟨.KEYWORD, KW_LESSEQ⟩, token.mk0 .ENDING], [], []⟩ ∧
    lexing (bytes "print") = .ok ⟨[⟨.KEYWORD, KW_PRINT⟩, token.mk0 .ENDING], [], []⟩ ∧
    (∀ s : List Nat, (∀ kw ∈ keywords, ¬ kw <+: s) →
      match_keyword s = (KW_NOT_A_KEYWORD, s)) := by
  refine ⟨by decide, ?_, by decide, by decide, ?_⟩
  · intro i kw h
    constructor
    · have hall : ∀ a ∈ keywords.enum,
          lexing a.2 = .ok ⟨[⟨.KEYWORD, (a.1 : Int)⟩, token.mk0 .ENDING], [], []⟩ := by decide
      exact hall (i, kw) (List.mk_mem_enum_iff_getElem?.2 h)
    · intro lx
      simp [token_to_string, h]
  · intro s h
    exact match_keyword_from_none 0 keywords keywords_nonzero s h

/-- C6, at the spelling `print` (code 15) and at the input `abc`, which no
spelling starts. -/
theorem keyword_codes_witness :
    (keywords[15]? = some (bytes "print") ∧
      lexing (bytes "print") = .ok ⟨[⟨.KEYWORD, 15⟩, token.mk0 .ENDING], [], []⟩) ∧
    ((∀ kw ∈ keywords, ¬ kw <+: bytes "abc") ∧
      match_keyword (bytes "abc") = (KW_NOT_A_KEYWORD, bytes "abc")) :=
  ⟨⟨by decide, (keyword_codes.2.1 15 (bytes "print") (by decide)).1⟩,
    ⟨by decide, keyword_codes.2.2.2.2 (bytes "abc") (by decide)⟩⟩

/-! ## String literals -/

theorem parse_string_loop_quote (fuel : Nat) (rest result : List Nat) :
    parse_string_loop (fuel + 1) (34 :: rest) result = .ok (result, rest) := by
  simp [parse_string_loop, peek]

theorem parse_string_loop_plain_step (fuel c : Nat) (t result : List Nat)
    (hc : is_plain c = true) :
    parse_string_loop (fuel + 1) (c :: t) result = parse_string_loop fuel t (result ++ [c]) := by
  simp [is_plain] at hc
  simp [parse_string_loop, peek, hc]

theorem parse_string_loop_escape_step (fuel e v : Nat) (t result : List Nat)
    (h : (e, v) ∈ simple_escapes) :
    parse_string_loop (fuel + 1) (92 :: e :: t) result
      = parse_string_loop fuel t (result ++ [v]) := by
  simp [simple_escapes] at h
  rcases h with h | h | h | h | h | h | h | h | h | h <;> obtain ⟨rfl, rfl⟩ := h <;>
    simp [parse_string_loop, parse_escape, escape_byte, peek]

theorem parse_string_loop_pieces (pieces : List (List Nat × Nat))
    (h : ∀ x ∈ pieces, is_simple_piece x = true) (k : Nat) (tail result : List Nat) :
    parse_string_loop (pieces.length + k) ((pieces.map Prod.fst).flatten ++ tail) result
      = parse_string_loop k tail (result ++ pieces.map Prod.snd) := by
  induction pieces generalizing result with
  | nil => simp
  | cons x xs ih =>
    have hx := h x (by simp)
    have hxs : ∀ y ∈ xs, is_simple_piece y = true := fun y hy => h y (by simp [hy])
    obtain ⟨src, out⟩ := x
    have hfuel : (⟨src, out⟩ :: xs).length + k = (xs.length + k) + 1 := by simp; omega
    rw [hfuel]
    match src, hx with
    | [c], hx =>
      simp [is_simple_piece] at hx
      obtain ⟨hc, hout⟩ := hx
      subst hout
      have e1 : (List.map Prod.fst (([out], out) :: xs)).flatten ++ tail
          = out :: ((xs.map Prod.fst).flatten ++ tail) := by simp
      rw [e1, parse_string_loop_plain_step _ _ _ _ hc, ih hxs]
      simp
    | [b, e], hx =>
      simp [is_simple_piece] at hx
      obtain ⟨rfl, he⟩ := hx
      have e1 : (List.map Prod.fst (([92, e], out) :: xs)).flatten ++ tail
          = 92 :: e :: ((xs.map Prod.fst).flatten ++ tail) := by simp
      rw [e1, parse_string_loop_escape_step _ _ _ _ _ he, ih hxs]
      simp

/-- The hexadecimal escape, whatever follows: `strtoull` is called with the
cursor still on the `x`, converts nothing, and the loop goes on from the `x`
with a NUL byte appended. -/
theorem parse_string_loop_hex_step (fuel : Nat) (t result : List Nat) :
    parse_string_loop (fuel + 1) (92 :: 120 :: t) result
      = parse_string_loop fuel (120 :: t) (result ++ [0]) := by
  have h : strtoull (120 :: t) 16 = (0, 120 :: t) := by
    simp [strtoull, strto_scan, isspace, peek, has_hex_lead, is_digit_of, digit_value]
  simp [parse_string_loop, parse_escape, escape_byte, peek, h]

/-- C7, on the code. Lexing the source `"\x41\x42"` gives one string token
whose text is the eight bytes NUL `x41` NUL `x42`, not the two bytes `AB`: each
`\x` appends a NUL byte and consumes no digit. -/
theorem hex_escape_decodes_to_nul :
    lexing (bytes "\"\\x41\\x42\"")
      = .ok ⟨[⟨.STRING, 0⟩, token.mk0 .ENDING], [], [[0, 120, 52, 49, 0, 120, 52, 50]]⟩ ∧
    [0, 120, 52, 49, 0, 120, 52, 50] ≠ bytes "AB" := by
  constructor <;> decide

/-- C8. Simple escapes and unescaped bytes: a string literal whose body is
made of unescaped bytes other than the quote, the backslash and NUL, and of
the ten simple escapes, is read up to and including its closing quote, and
its text has one byte per piece: the byte itself for an unescaped byte, and
for an escape the value C gives it (`\\` 0x5C, `\"` 0x22, `\'` 0x27, `\a` 7,
`\b` 8, `\f` 12, `\n` 10, `\r` 13, `\t` 9, `\v` 11). -/
theorem parse_string_simple (pieces : List (List Nat × Nat))
    (h : ∀ x ∈ pieces, is_simple_piece x = true) (rest : List Nat) :
    parse_string (34 :: ((pieces.map Prod.fst).flatten ++ 34 :: rest))
      = .ok (pieces.map Prod.snd, rest) := by
  have hlen : pieces.length ≤ (pieces.map Prod.fst).flatten.length := by
    clear rest
    induction pieces with
    | nil => simp
    | cons x xs ih =>
      have hx := h x (by simp)
      have := ih (fun y hy => h y (by simp [hy]))
      obtain ⟨src, out⟩ := x
      match src, hx with
      | [c], _ =>
        simp only [List.map_cons, List.flatten_cons, List.length_append, List.length_cons,
          List.length_nil]
        omega
      | [b, e], _ =>
        simp only [List.map_cons, List.flatten_cons, List.length_append, List.length_cons,
          List.length_nil]
        omega
  obtain ⟨k, hk⟩ : ∃ k, (34 :: ((pieces.map Prod.fst).flatten ++ 34 :: rest)).length
      = pieces.length + (k + 1) :=
    ⟨(pieces.map Prod.fst).flatten.length - pieces.length + rest.length + 1, by
      simp only [List.length_cons, List.length_append]
      omega⟩
  simp only [parse_string, hk, List.tail_cons]
  rw [parse_string_loop_pieces pieces h, parse_string_loop_quote]
  simp

/-- C8, at the body `a\n\\\"\'\a\b\f\r\t\v` followed by `)`. -/
theorem parse_string_simple_witness :
    (∀ x ∈ [([97], 97), ([92, 110], 10), ([92, 92], 92), ([92, 34], 34), ([92, 39], 39),
        ([92, 97], 7), ([92, 98], 8), ([92, 102], 12), ([92, 114], 13), ([92, 116], 9),
        ([92, 118], 11)], is_simple_piece x = true) ∧
    parse_string (34 :: (([([97], 97), ([92, 110], 10), ([92, 92], 92), ([92, 34], 34),
        ([92, 39], 39), ([92, 97], 7), ([92, 98], 8), ([92, 102], 12), ([92, 114], 13),
        ([92, 116], 9), ([92, 118], 11)].map Prod.fst).flatten ++ 34 :: [41]))
      = .ok ([([97], 97), ([92, 110], 10), ([92, 92], 92), ([92, 34], 34), ([92, 39], 39),
        ([92, 97], 7), ([92, 98], 8), ([92, 102], 12), ([92, 114], 13), ([92, 116], 9),
        ([92, 118], 11)].map Prod.snd, [41]) :=
  ⟨by decide, parse_string_simple _ (by decide) [41]⟩

theorem parse_string_loop_plain (tail : List Nat) (h : ∀ c ∈ tail, is_plain c = true)
    (k : Nat) (t2 result : List Nat) :
    parse_string_loop (tail.length + k) (tail ++ t2) result
      = parse_string_loop k t2 (result ++ tail) := by
  induction tail generalizing result with
  | nil => simp
  | cons c cs ih =>
    have e : (c :: cs).length + k = (cs.length + k) + 1 := by simp; omega
    rw [e, List.cons_append, parse_string_loop_plain_step _ _ _ _ (h c (by simp)),
      ih (fun d hd => h d (by simp [hd]))]
    simp

theorem parse_string_loop_octal_step (fuel d : Nat) (t result : List Nat)
    (hd : is_octal_digit d = true) :
    parse_string_loop (fuel + 1) (92 :: d :: t) result
      = parse_string_loop fuel (octal_loop 2 ((d - 48) % 65536) t).2
          (result ++ [(octal_loop 2 ((d - 48) % 65536) t).1 % 256]) := by
  simp [is_octal_digit] at hd
  have he : escape_byte d = none := by
    unfold escape_byte
    split <;> first | omega | rfl
  have hx : d ≠ 120 := by omega
  simp [parse_string_loop, parse_escape, peek, he, hx, hd]

/-- What the octal escape reads: with the cursor after the backslash on a run
`ds` of one to three octal digits that is followed by `t`, where a run
shorter than three is not followed by an octal digit, the two loops leave the
value of the run in `val` and the cursor on `t`. -/
theorem octal_loop_run (ds t : List Nat) (h1 : 1 ≤ ds.length) (h3 : ds.length ≤ 3)
    (hds : ∀ d ∈ ds, is_octal_digit d = true)
    (hnext : ds.length = 3 ∨ is_octal_digit (peek t) = false) :
    octal_loop 2 ((peek (ds ++ t) - 48) % 65536) (ds ++ t).tail = (octal_value ds, t) := by
  have hstop : ∀ v : Nat, is_octal_digit (peek t) = false → ∀ i, octal_loop i v t = (v, t) := by
    intro v hp i
    simp [is_octal_digit] at hp
    cases i with
    | zero => simp [octal_loop]
    | succ j =>
      have : ¬ (48 ≤ peek t ∧ peek t ≤ 55) := by omega
      simp [octal_loop, this]
  match ds, h1, h3, hds, hnext with
  | [a], _, _, hds, hnext =>
    have ha := hds a (by simp)
    simp [is_octal_digit] at ha
    have hn : is_octal_digit (peek t) = false := by simpa using hnext
    have hv : (a - 48) % 65536 = octal_value [a] := by simp [octal_value]; omega
    simp only [List.singleton_append, peek, List.headD_cons, List.tail_cons]
    rw [hstop _ hn, hv]
  | [a, b], _, _, hds, hnext =>
    have ha := hds a (by simp)
    have hb := hds b (by simp)
    simp [is_octal_digit] at ha hb
    have hn : is_octal_digit (peek t) = false := by simpa using hnext
    have hv : (((a - 48) % 65536) * 8 + (b - 48)) % 65536 = octal_value [a, b] := by
      simp [octal_value]; omega
    simp only [List.cons_append, List.nil_append, peek, List.headD_cons, List.tail_cons,
      octal_loop, hb, and_self, if_true]
    rw [hv]
    exact hstop _ hn 1
  | [a, b, c], _, _, hds, _ =>
    have ha := hds a (by simp)
    have hb := hds b (by simp)
    have hc := hds c (by simp)
    simp [is_octal_digit] at ha hb hc
    have hv : ((((a - 48) % 65536) * 8 + (b - 48)) % 65536 * 8 + (c - 48)) % 65536
        = octal_value [a, b, c] := by
      simp [octal_value]; omega
    simp only [List.cons_append, List.nil_append, peek, List.headD_cons, List.tail_cons,
      octal_loop, hb, hc, and_self, if_true]
    rw [hv]

/-- C9. The octal escape: in a string literal, a backslash followed by a run
`ds` of one to three octal digits appends the one byte `octal_value ds % 256`
and consumes exactly the run, given that a run of fewer than three digits is
not followed by another octal digit. The bytes `tail` after the run (no
quote, backslash or NUL) are copied as they are, so a fourth octal digit is an
ordinary character. So `\101` gives byte 65 and `\777` byte 255. -/
theorem parse_string_octal (ds tail rest : List Nat) (h1 : 1 ≤ ds.length)
    (h3 : ds.length ≤ 3) (hds : ∀ d ∈ ds, is_octal_digit d = true)
    (htail : ∀ c ∈ tail, is_plain c = true)
    (hnext : ds.length = 3 ∨ is_octal_digit (peek tail) = false) :
    parse_string (34 :: 92 :: (ds ++ (tail ++ 34 :: rest)))
      = .ok (octal_value ds % 256 :: tail, rest) := by
  have hnext2 : ds.length = 3 ∨ is_octal_digit (peek (tail ++ 34 :: rest)) = false := by
    rcases hnext with h | h
    · exact Or.inl h
    · right
      cases tail with
      | nil => simp [peek, is_octal_digit]
      | cons c cs => simpa [peek] using h
  have hrun := octal_loop_run ds (tail ++ 34 :: rest) h1 h3 hds hnext2
  obtain ⟨d, ds1, rfl⟩ : ∃ d ds1, ds = d :: ds1 := by
    cases ds with
    | nil => simp at h1
    | cons d ds1 => exact ⟨d, ds1, rfl⟩
  obtain ⟨k, hk⟩ : ∃ k, (34 :: 92 :: d :: (ds1 ++ (tail ++ 34 :: rest))).length
      = (tail.length + (k + 1)) + 1 := ⟨ds1.length + rest.length + 2, by simp; omega⟩
  simp only [List.cons_append, peek, List.headD_cons, List.tail_cons] at hrun
  simp only [parse_string, List.tail_cons, List.cons_append]
  rw [hk, parse_string_loop_octal_step _ _ _ _ (hds d (by simp)), hrun]
  simp only []
  rw [parse_string_loop_plain tail htail, parse_string_loop_quote]
  simp

/-- C9, at `\101` followed by a fourth digit `0`, which is copied as a
character after the byte 65, and at `\777`, which gives the byte 255. -/
theorem parse_string_octal_witness :
    (1 ≤ [49, 48, 49].length ∧ [49, 48, 49].length ≤ 3 ∧
      (∀ d ∈ [49, 48, 49], is_octal_digit d = true) ∧
      (∀ c ∈ [48], is_plain c = true) ∧
      ([49, 48, 49].length = 3 ∨ is_octal_digit (peek [48]) = false)) ∧
    parse_string (34 :: 92 :: ([49, 48, 49] ++ ([48] ++ 34 :: []))) = .ok (65 % 256 :: [48], []) ∧
    parse_string (34 :: 92 :: ([55, 55, 55] ++ ([] ++ 34 :: []))) = .ok ([255], []) ∧
    octal_value [49, 48, 49] = 65 ∧ octal_value [55, 55, 55] % 256 = 255 :=
  ⟨⟨by decide, by decide, by decide, by decide, by decide⟩,
    parse_string_octal [49, 48, 49] [48] [] (by decide) (by decide) (by decide) (by decide)
      (by decide),
    parse_string_octal [55, 55, 55] [] [] (by decide) (by decide) (by decide) (by decide)
      (by decide),
    by decide, by decide⟩

/-! ## Progress of the lexer

Every helper returns a cursor that is no longer than the one it was given,
and every iteration of the main loop that does not fail returns a strictly
shorter one. -/

theorem skip_comment_loop_length (p : List Nat) : (skip_comment_loop p).length ≤ p.length := by
  induction p with
  | nil => simp [skip_comment_loop]
  | cons c cs ih =>
    simp only [skip_comment_loop]
    split
    · simp; omega
    · simp

theorem skip_comment_length (c : Nat) (t : List Nat) :
    (skip_comment (c :: t)).length < (c :: t).length := by
  have h := skip_comment_loop_length t
  simp only [skip_comment, List.tail_cons]
  split
  · simp [List.length_tail]; omega
  · simp; omega

theorem strto_digits_length (base : Nat) (s : List Nat) (acc : Nat) :
    (strto_digits base s acc).2.length ≤ s.length := by
  induction s generalizing acc with
  | nil => simp [strto_digits]
  | cons c cs ih =>
    simp only [strto_digits]
    split
    · have := ih (acc * base + (digit_value c).getD 0)
      simp; omega
    · simp

theorem strto_digits_length_lt (base : Nat) (s : List Nat) (acc : Nat)
    (h : is_digit_of base (peek s) = true) :
    (strto_digits base s acc).2.length < s.length := by
  cases s with
  | nil => simp [peek, is_digit_of, digit_value] at h
  | cons c cs =>
    simp only [peek, List.headD_cons] at h
    simp only [strto_digits, h, if_true]
    have := strto_digits_length base cs (acc * base + (digit_value c).getD 0)
    simp; omega

theorem strto_scan_shape (p : List Nat) (base : Nat) :
    ∃ (neg : Bool) (b : Nat) (s2 : List Nat), s2.length ≤ p.length ∧
      strto_scan p base
        = if is_digit_of b (peek s2) = true then
            some (neg, (strto_digits b s2 0).1, (strto_digits b s2 0).2)
          else none := by
  refine ⟨_, _, _, ?_, rfl⟩
  have h0 : (List.dropWhile isspace p).length ≤ p.length :=
    (List.dropWhile_sublist isspace).length_le
  split <;> split <;> simp [List.length_tail] <;> omega

theorem strto_scan_length (p : List Nat) (base : Nat) (neg : Bool) (mag : Nat)
    (rest : List Nat) (h : strto_scan p base = some (neg, mag, rest)) :
    rest.length < p.length := by
  obtain ⟨neg1, b, s2, hlen, heq⟩ := strto_scan_shape p base
  rw [heq] at h
  split at h
  · rename_i hd
    simp only [Option.some.injEq, Prod.mk.injEq] at h
    obtain ⟨_, _, rfl⟩ := h
    have h3 := strto_digits_length_lt b s2 0 hd
    omega
  · simp at h

theorem strtoull_length (p : List Nat) (base : Nat) : (strtoull p base).2.length ≤ p.length := by
  simp only [strtoull]
  split
  · simp
  · rename_i neg mag rest h
    have := strto_scan_length p base neg mag rest h
    split
    · simp; omega
    · split <;> simp <;> omega

theorem strtoll_length (p : List Nat) (base : Nat) : (strtoll p base).2.length ≤ p.length := by
  simp only [strtoll]
  split
  · simp
  · rename_i neg mag rest h
    have := strto_scan_length p base neg mag rest h
    split <;> split <;> simp <;> omega

/-- With the cursor on a decimal digit and base 0, `strto_scan` always finds
a subject sequence. -/
theorem strto_scan_digit_head (c : Nat) (t : List Nat) (hc : 48 ≤ c ∧ c ≤ 57) :
    ∃ mag rest, strto_scan (c :: t) 0 = some (false, mag, rest) := by
  have hsp : isspace c = false := by simp [isspace]; omega
  have h45 : c ≠ 45 := by omega
  have h43 : c ≠ 43 := by omega
  simp only [strto_scan, List.dropWhile_cons, hsp, peek, List.headD_cons]
  by_cases hx : has_hex_lead (c :: t) = true
  · match c, t, hx with
    | 48, x :: h :: t1, hx =>
      simp only [has_hex_lead, Bool.and_eq_true] at hx
      simp [has_hex_lead, hx.1, hx.2, peek]
      exact ⟨_, _, rfl⟩
  · simp only [Bool.not_eq_true] at hx
    by_cases h0 : c = 48
    · subst h0
      simp [hx, peek, is_digit_of, digit_value]
      exact ⟨_, _, rfl⟩
    · have hd : is_digit_of 10 c = true := by
        simp [is_digit_of, digit_value, hc]; omega
      simp [hx, h45, h43, h0, peek, hd]
      exact ⟨_, _, rfl⟩

theorem parse_number_length (c : Nat) (t : List Nat) (hc : 48 ≤ c ∧ c ≤ 57) :
    (parse_number (c :: t)).2.length < (c :: t).length := by
  obtain ⟨mag, rest, h⟩ := strto_scan_digit_head c t hc
  have hl := strto_scan_length _ _ _ _ _ h
  simp only [parse_number, strtoll, h, Bool.false_eq_true, if_false]
  split <;> simpa using hl

theorem octal_loop_length (i v : Nat) (p : List Nat) : (octal_loop i v p).2.length ≤ p.length := by
  induction i generalizing v p with
  | zero => simp [octal_loop]
  | succ j ih =>
    simp only [octal_loop]
    split
    · have := ih ((v * 8 + (peek p - 48)) % 65536) p.tail
      simp [List.length_tail] at this ⊢
      omega
    · simp

theorem parse_escape_length (q : List Nat) (b : Nat) (q1 : List Nat)
    (h : parse_escape q = .ok (b, q1)) : q1.length ≤ q.length := by
  have hu := strtoull_length q 16
  have ho := octal_loop_length 2 ((peek q - 48) % 65536) q.tail
  simp only [List.length_tail] at ho
  unfold parse_escape at h
  split at h
  · simp only [Except.ok.injEq, Prod.mk.injEq] at h
    obtain ⟨_, rfl⟩ := h
    simp [List.length_tail]
  · split_ifs at h
    · simp only [Except.ok.injEq, Prod.mk.injEq] at h
      obtain ⟨_, rfl⟩ := h
      exact hu
    · simp only [Except.ok.injEq, Prod.mk.injEq] at h
      obtain ⟨_, rfl⟩ := h
      omega

theorem parse_string_loop_length (fuel : Nat) (q result str p1 : List Nat)
    (h : parse_string_loop fuel q result = .ok (str, p1)) : p1.length < q.length := by
  induction fuel generalizing q result with
  | zero => simp [parse_string_loop] at h
  | succ f ih =>
    cases q with
    | nil => simp [parse_string_loop, peek] at h
    | cons c t =>
      simp only [parse_string_loop, peek, List.headD_cons, List.tail_cons] at h
      split at h
      · split at h
        · simp at h
        · rename_i b q1 he
          have h1 := parse_escape_length _ _ _ he
          have h2 := ih _ _ h
          simp
          omega
      · split_ifs at h
        · simp only [Except.ok.injEq, Prod.mk.injEq] at h
          obtain ⟨_, rfl⟩ := h
          simp
        · have := ih _ _ h
          simp
          omega

theorem parse_string_length (p str p1 : List Nat) (h : parse_string p = .ok (str, p1)) :
    p1.length < p.length := by
  have := parse_string_loop_length _ _ _ _ _ h
  simp [List.length_tail] at this
  omega

theorem parse_identifier_loop_length (s id : List Nat) :
    (parse_identifier_loop s id).2.length ≤ s.length := by
  induction s generalizing id with
  | nil => simp [parse_identifier_loop]
  | cons c cs ih =>
    simp only [parse_identifier_loop]
    split
    · have := ih (id ++ [c])
      simp; omega
    · simp

theorem parse_identifier_length (s id p1 : List Nat)
    (h : parse_identifier s = .ok (id, p1)) : p1.length < s.length := by
  cases s with
  | nil => simp [parse_identifier, peek, isalpha] at h
  | cons c t =>
    simp only [parse_identifier, peek, List.headD_cons, List.tail_cons] at h
    split at h
    · simp only [Except.ok.injEq] at h
      have := parse_identifier_loop_length t [c]
      rw [h] at this
      simp at this ⊢
      omega
    · simp at h

theorem keywords_nonempty : ∀ kw ∈ keywords, kw ≠ [] := by decide

/-- A result of the outer loop of `match_keyword` is either the failure code
with the cursor untouched, or a code that is not the failure code with the
cursor moved past one spelling of the table. -/
theorem match_keyword_from_result (i : Nat) (kws : List (List Nat))
    (hkws : ∀ kw ∈ kws, ∀ c ∈ kw, c ≠ 0) (s : List Nat) :
    (match_keyword_from i kws s = (KW_NOT_A_KEYWORD, s)) ∨
    ((match_keyword_from i kws s).1 ≠ KW_NOT_A_KEYWORD ∧
      ∃ kw ∈ kws, s = kw ++ (match_keyword_from i kws s).2) := by
  induction kws generalizing i with
  | nil => simp [match_keyword_from]
  | cons kw kws ih =>
    cases hm : match_literal kw s with
    | none =>
      simp only [match_keyword_from, hm]
      rcases ih (i + 1) (fun k hk => hkws k (by simp [hk])) with h | ⟨h1, k, hk, h2⟩
      · exact Or.inl h
      · exact Or.inr ⟨h1, k, by simp [hk], h2⟩
    | some p =>
      right
      simp only [match_keyword_from, hm]
      refine ⟨?_, kw, by simp, (match_literal_eq_some kw (hkws kw (by simp)) s p).1 hm⟩
      simp only [KW_NOT_A_KEYWORD]
      omega

theorem match_keyword_result (s : List Nat) :
    (match_keyword s = (KW_NOT_A_KEYWORD, s)) ∨
    ((match_keyword s).1 ≠ KW_NOT_A_KEYWORD ∧ (match_keyword s).2.length < s.length) := by
  rcases match_keyword_from_result 0 keywords keywords_nonzero s with h | ⟨h1, kw, hkw, h2⟩
  · exact Or.inl h
  · right
    refine ⟨h1, ?_⟩
    have hne := keywords_nonempty kw hkw
    have hl : 0 < kw.length := List.length_pos.2 hne
    have := congrArg List.length h2
    simp only [List.length_append] at this
    simp only [match_keyword]
    omega

/-- Every iteration of the main loop that does not fail moves the cursor
forward by at least one byte. -/
theorem lexing_step_progress (p : List Nat) (lx : lexer) (p1 : List Nat) (lx1 : lexer)
    (hp : peek p ≠ 0) (h : lexing_step p lx = .ok (p1, lx1)) : p1.length < p.length := by
  cases p with
  | nil => simp [peek] at hp
  | cons c t =>
    simp only [lexing_step, peek, List.headD_cons, List.tail_cons] at h
    split at h
    · simp only [Except.ok.injEq, Prod.mk.injEq] at h
      obtain ⟨rfl, _⟩ := h
      simp
    split at h
    · simp only [Except.ok.injEq, Prod.mk.injEq] at h
      obtain ⟨rfl, _⟩ := h
      exact skip_comment_length c t
    split at h
    · simp only [Except.ok.injEq, Prod.mk.injEq] at h
      obtain ⟨rfl, _⟩ := h
      simp
    split at h
    · simp only [Except.ok.injEq, Prod.mk.injEq] at h
      obtain ⟨rfl, _⟩ := h
      simp
    split at h
    · split at h
      · simp at h
      · rename_i str p2 hs
        simp only [Except.ok.injEq, Prod.mk.injEq] at h
        obtain ⟨rfl, _⟩ := h
        exact parse_string_length _ _ _ hs
    split at h
    · rename_i hd
      simp only [Except.ok.injEq, Prod.mk.injEq] at h
      obtain ⟨rfl, _⟩ := h
      exact parse_number_length c t hd
    rcases match_keyword_result (c :: t) with hk | ⟨hk1, hk2⟩
    · simp only [hk, if_true] at h
      split at h
      · simp at h
      · rename_i id p2 hs
        simp only [Except.ok.injEq, Prod.mk.injEq] at h
        obtain ⟨rfl, _⟩ := h
        exact parse_identifier_length _ _ _ hs
    · simp only [hk1, if_false] at h
      simp only [Except.ok.injEq, Prod.mk.injEq] at h
      obtain ⟨rfl, _⟩ := h
      exact hk2

/-- The result of the main loop does not depend on the fuel, once the fuel
exceeds the length of the input. -/
theorem lexing_loop_fuel (n : Nat) (p : List Nat) (lx : lexer) (m : Nat)
    (hn : p.length < n) (hm : p.length < m) : lexing_loop n p lx = lexing_loop m p lx := by
  induction n generalizing p lx m with
  | zero => omega
  | succ n1 ih =>
    obtain ⟨m1, rfl⟩ : ∃ m1, m = m1 + 1 := ⟨m - 1, by omega⟩
    simp only [lexing_loop]
    split
    · rfl
    · rename_i hp
      cases hs : lexing_step p lx with
      | error e => rfl
      | ok r =>
        obtain ⟨p1, lx1⟩ := r
        have := lexing_step_progress p lx p1 lx1 hp hs
        exact ih p1 lx1 m1 (by omega) (by omega)

/-! ## The fuel is never exhausted -/

theorem parse_string_loop_fuel (fuel : Nat) (q result : List Nat) (h : q.length < fuel) :
    parse_string_loop fuel q result ≠ .error .out_of_fuel := by
  induction fuel generalizing q result with
  | zero => omega
  | succ f ih =>
    cases q with
    | nil => simp [parse_string_loop, peek]
    | cons c t =>
      simp only [List.length_cons] at h
      simp only [parse_string_loop, peek, List.headD_cons, List.tail_cons]
      split
      · cases he : parse_escape t with
        | error e =>
          unfold parse_escape at he
          split at he
          · simp at he
          · split_ifs at he
            simp only [Except.error.injEq] at he
            subst he
            simp
        | ok r =>
          obtain ⟨b, q1⟩ := r
          have := parse_escape_length _ _ _ he
          exact ih q1 _ (by omega)
      · split_ifs
        · simp
        · simp
        · exact ih t _ (by omega)

theorem lexing_step_push_front (p : List Nat) (pre : List token) (lx : lexer) :
    lexing_step p (lx.push_front pre)
      = (lexing_step p lx).map (fun r => (r.1, r.2.push_front pre)) := by
  obtain ⟨toks, ids, strs⟩ := lx
  simp only [lexing_step, lexer.push_front]
  split_ifs
  · rfl
  · rfl
  · simp [Except.map]
  · simp [Except.map]
  · cases parse_string p with
    | error e => rfl
    | ok r => simp [Except.map]
  · simp [Except.map]
  · cases parse_identifier (match_keyword p).2 with
    | error e => rfl
    | ok r => simp [Except.map]
  · simp [Except.map]

theorem lexing_loop_push_front (fuel : Nat) (p : List Nat) (pre : List token) (lx : lexer) :
    lexing_loop fuel p (lx.push_front pre)
      = (lexing_loop fuel p lx).map (lexer.push_front pre) := by
  induction fuel generalizing p lx with
  | zero => rfl
  | succ f ih =>
    simp only [lexing_loop]
    split
    · simp [Except.map, lexer.push_front]
    · rw [lexing_step_push_front]
      cases lexing_step p lx with
      | error e => rfl
      | ok r =>
        obtain ⟨p1, lx1⟩ := r
        simpa [Except.map] using ih p1 lx1

/-- Lexing an input whose first iteration of the main loop produces the
tokens `new` and no table entry is lexing the rest with `new` put in front. -/
theorem lexing_of_step (p rest : List Nat) (new : List token)
    (hp : peek p ≠ 0)
    (hs : lexing_step p ⟨[], [], []⟩ = .ok (rest, ⟨new, [], []⟩)) :
    lexing p = (lexing rest).map (lexer.push_front new) := by
  have hlt := lexing_step_progress p _ _ _ hp hs
  have h1 : lexing p = lexing_loop p.length rest ⟨new, [], []⟩ := by
    simp only [lexing, lexing_loop, hp, if_false, hs]
  have h2 : (⟨new, [], []⟩ : lexer) = (⟨[], [], []⟩ : lexer).push_front new := by
    simp [lexer.push_front]
  rw [h1, lexing_loop_fuel p.length rest _ (rest.length + 1) hlt (by omega), h2,
    lexing_loop_push_front]
  rfl

/-! ## Numeric literals -/

theorem strto_digits_run (b : Nat) (ds tail : List Nat) (acc : Nat)
    (hds : ∀ d ∈ ds, is_digit_of b d = true) (ht : is_digit_of b (peek tail) = false) :
    strto_digits b (ds ++ tail) acc
      = (ds.foldl (fun a c => a * b + (digit_value c).getD 0) acc, tail) := by
  induction ds generalizing acc with
  | nil =>
    cases tail with
    | nil => simp [strto_digits]
    | cons c cs =>
      simp only [peek, List.headD_cons] at ht
      simp [strto_digits, ht]
  | cons d ds ih =>
    have hd := hds d (by simp)
    simp only [List.cons_append, strto_digits, hd, if_true, List.foldl_cons]
    exact ih _ (fun x hx => hds x (by simp [hx]))

theorem is_digit_of_decimal (b d : Nat) (h : 48 ≤ d ∧ d ≤ 57) (hb : d - 48 < b) :
    is_digit_of b d = true := by
  unfold is_digit_of digit_value
  rw [if_pos h]
  simpa using hb

theorem follower_not_digit (b : Nat) (tail : List Nat) (h : is_follower tail = true) :
    is_digit_of b (peek tail) = false := by
  simp only [is_follower, isspace, Bool.or_eq_true, beq_iff_eq, Bool.and_eq_true,
    decide_eq_true_eq] at h
  have hlt : peek tail < 48 := by omega
  have hv : digit_value (peek tail) = none := by
    simp only [digit_value]
    split_ifs <;> first | omega | rfl
  simp [is_digit_of, hv]

theorem strto_scan_decimal (lit tail : List Nat) (hl : is_decimal_literal lit = true)
    (ht : is_follower tail = true) :
    strto_scan (lit ++ tail) 0 = some (false, digits_value 10 lit, tail) := by
  match lit, hl with
  | d :: ds, hl =>
    simp only [is_decimal_literal, Bool.and_eq_true, decide_eq_true_eq, List.all_eq_true] at hl
    obtain ⟨⟨h1, h2⟩, h3⟩ := hl
    have hd : is_digit_of 10 d = true := is_digit_of_decimal 10 d (by omega) (by omega)
    have hds : ∀ x ∈ d :: ds, is_digit_of 10 x = true := by
      intro x hx
      simp only [List.mem_cons] at hx
      rcases hx with rfl | hx
      · exact hd
      · have := h3 x hx
        simp only [isdigit, Bool.and_eq_true, decide_eq_true_eq] at this
        exact is_digit_of_decimal 10 x (by omega) (by omega)
    have hsp : isspace d = false := by simp [isspace]; omega
    have hhex : has_hex_lead (d :: (ds ++ tail)) = false := by
      unfold has_hex_lead
      split
      · rename_i heq
        simp only [List.cons.injEq] at heq
        omega
      · rfl
    have h45 : d ≠ 45 := by omega
    have h43 : d ≠ 43 := by omega
    have h48 : d ≠ 48 := by omega
    have hrun := strto_digits_run 10 (d :: ds) tail 0 hds (follower_not_digit 10 tail ht)
    simp only [List.cons_append] at hrun
    simp [strto_scan, hsp, peek, h45, h43, h48, hhex, hd, hrun, digits_value]

theorem strto_scan_hex (lit tail : List Nat) (hl : is_hex_literal lit = true)
    (ht : is_follower tail = true) :
    strto_scan (lit ++ tail) 0 = some (false, digits_value 16 (lit.drop 2), tail) := by
  match lit, hl with
  | 48 :: x :: h :: hs, hl =>
    simp only [is_hex_literal, Bool.and_eq_true, List.all_eq_true] at hl
    obtain ⟨hx, hds⟩ := hl
    have hh : is_digit_of 16 h = true := hds h (by simp)
    have hhex : has_hex_lead (48 :: x :: h :: (hs ++ tail)) = true := by
      simp [has_hex_lead, hh]
      simpa using hx
    have hsp : isspace 48 = false := by decide
    have hrun := strto_digits_run 16 (h :: hs) tail 0 hds (follower_not_digit 16 tail ht)
    simp only [List.cons_append] at hrun
    simp [strto_scan, hsp, peek, hhex, hh, hrun, digits_value]

theorem strto_scan_octal (lit tail : List Nat) (hl : is_octal_literal lit = true)
    (ht : is_follower tail = true) :
    strto_scan (lit ++ tail) 0 = some (false, digits_value 8 lit, tail) := by
  match lit, hl with
  | 48 :: os, hl =>
    simp only [is_octal_literal, List.all_eq_true] at hl
    have h0 : is_digit_of 8 48 = true := by decide
    have hds : ∀ x ∈ 48 :: os, is_digit_of 8 x = true := by
      intro x hx
      simp only [List.mem_cons] at hx
      rcases hx with rfl | hx
      · exact h0
      · have := hl x hx
        simp only [is_octal_digit, Bool.and_eq_true, decide_eq_true_eq] at this
        exact is_digit_of_decimal 8 x (by omega) (by omega)
    have hhex : has_hex_lead (48 :: (os ++ tail)) = false := by
      cases os with
      | nil =>
        have hf := ht
        simp only [is_follower, isspace, Bool.or_eq_true, beq_iff_eq, Bool.and_eq_true,
          decide_eq_true_eq] at hf
        match tail, hf with
        | [], _ => rfl
        | [c], _ => rfl
        | c :: h :: t, hf =>
          simp only [peek, List.headD_cons] at hf
          have h1 : c ≠ 120 := by omega
          have h2 : c ≠ 88 := by omega
          simp [has_hex_lead, h1, h2]
      | cons o os1 =>
        have := hl o (by simp)
        simp only [is_octal_digit, Bool.and_eq_true, decide_eq_true_eq] at this
        have h1 : o ≠ 120 := by omega
        have h2 : o ≠ 88 := by omega
        match os1, tail with
        | [], [] => rfl
        | [], c :: t => simp [has_hex_lead, h1, h2]
        | c :: os2, _ => simp [has_hex_lead, h1, h2]
    have hsp : isspace 48 = false := by decide
    have hrun := strto_digits_run 8 (48 :: os) tail 0 hds (follower_not_digit 8 tail ht)
    simp only [List.cons_append] at hrun
    simp [strto_scan, hsp, peek, hhex, h0, hrun, digits_value]

theorem strto_scan_literal (lit tail : List Nat)
    (hl : is_decimal_literal lit = true ∨ is_hex_literal lit = true ∨
      is_octal_literal lit = true)
    (ht : is_follower tail = true) :
    strto_scan (lit ++ tail) 0 = some (false, literal_value lit, tail) := by
  rcases hl with h | h | h
  · have h1 : is_hex_literal lit = false := by
      match lit, h with
      | d :: ds, h =>
        simp only [is_decimal_literal, Bool.and_eq_true, decide_eq_true_eq] at h
        unfold is_hex_literal
        split
        · rename_i heq
          simp only [List.cons.injEq] at heq
          omega
        · rfl
    have h2 : is_octal_literal lit = false := by
      match lit, h with
      | d :: ds, h =>
        simp only [is_decimal_literal, Bool.and_eq_true, decide_eq_true_eq] at h
        unfold is_octal_literal
        split
        · rename_i heq
          simp only [List.cons.injEq] at heq
          omega
        · rfl
    simpa [literal_value, h1, h2] using strto_scan_decimal lit tail h ht
  · simpa [literal_value, h] using strto_scan_hex lit tail h ht
  · have h1 : is_hex_literal lit = false := by
      match lit, h with
      | 48 :: os, h =>
        simp only [is_octal_literal, List.all_eq_true] at h
        match os, h with
        | [], _ => rfl
        | [x], _ => rfl
        | x :: y :: t, h =>
          have := h x (by simp)
          simp only [is_octal_digit, Bool.and_eq_true, decide_eq_true_eq] at this
          have h1 : x ≠ 120 := by omega
          have h2 : x ≠ 88 := by omega
          simp [is_hex_literal, h1, h2]
    simpa [literal_value, h1, h] using strto_scan_octal lit tail h ht

theorem literal_head_digit (lit : List Nat)
    (hl : is_decimal_literal lit = true ∨ is_hex_literal lit = true ∨
      is_octal_literal lit = true) :
    ∃ c t, lit = c :: t ∧ 48 ≤ c ∧ c ≤ 57 := by
  rcases hl with h | h | h
  · match lit, h with
    | d :: ds, h =>
      simp only [is_decimal_literal, Bool.and_eq_true, decide_eq_true_eq] at h
      exact ⟨d, ds, rfl, by omega, by omega⟩
  · match lit, h with
    | 48 :: x :: h1 :: hs, _ => exact ⟨48, _, rfl, by omega, by omega⟩
  · match lit, h with
    | 48 :: os, _ => exact ⟨48, _, rfl, by omega, by omega⟩

theorem parse_number_literal (lit tail : List Nat)
    (hl : is_decimal_literal lit = true ∨ is_hex_literal lit = true ∨
      is_octal_literal lit = true)
    (hv : literal_value lit < 2 ^ 63) (ht : is_follower tail = true) :
    parse_number (lit ++ tail) = ((literal_value lit : Int), tail) := by
  have hge : ¬ literal_value lit ≥ 2 ^ 63 := by omega
  simp only [parse_number, strtoll, strto_scan_literal lit tail hl ht, Bool.false_eq_true,
    if_false, hge]

theorem lexing_step_number (c : Nat) (t : List Nat) (hc : 48 ≤ c ∧ c ≤ 57) (lx : lexer) :
    lexing_step (c :: t) lx
      = .ok ((parse_number (c :: t)).2,
          { lx with tokens := lx.tokens ++ [⟨.NUMBER, (parse_number (c :: t)).1⟩] }) := by
  have h1 : ¬ ((9 ≤ c ∧ c ≤ 13) ∨ c = 32) := by omega
  have h2 : c ≠ 59 := by omega
  have h3 : c ≠ 40 := by omega
  have h4 : c ≠ 41 := by omega
  have h5 : c ≠ 34 := by omega
  simp only [lexing_step, peek, List.headD_cons, h1, h2, h3, h4, h5, hc, if_false, if_true,
    and_self]

theorem lexing_nil : lexing [] = .ok ⟨[token.mk0 .ENDING], [], []⟩ := by decide

/-- C10. Number round trip on value: a decimal literal, a hexadecimal literal
with prefix `0x` or `0X`, or an octal literal with a leading `0`, whose value
`v` is below `2^63` and which is followed by the end of the input, white
space or a parenthesis, is read by `parse_number` as `v` with the cursor right
after it, and is lexed to the single token `Number(v)`: lexing the literal
followed by `tail` gives that token in front of the result of lexing `tail`,
so the literal alone gives `Number(v)` and the sentinel. `token_to_string`
renders the token as the decimal digits of `v` between `{number:` and `}`. -/
theorem lexing_number_literal (lit tail : List Nat)
    (hl : is_decimal_literal lit = true ∨ is_hex_literal lit = true ∨
      is_octal_literal lit = true)
    (hv : literal_value lit < 2 ^ 63) (ht : is_follower tail = true) :
    parse_number (lit ++ tail) = ((literal_value lit : Int), tail) ∧
    lexing (lit ++ tail)
      = (lexing tail).map (lexer.push_front [⟨.NUMBER, (literal_value lit : Int)⟩]) ∧
    lexing lit = .ok ⟨[⟨.NUMBER, (literal_value lit : Int)⟩, token.mk0 .ENDING], [], []⟩ ∧
    ∀ lx : lexer, token_to_string lx ⟨.NUMBER, (literal_value lit : Int)⟩
      = some (bytes "\x7bnumber:" ++ bytes (toString (literal_value lit)) ++ bytes "\x7d") := by
  have key : ∀ tl : List Nat, is_follower tl = true →
      lexing (lit ++ tl)
        = (lexing tl).map (lexer.push_front [⟨.NUMBER, (literal_value lit : Int)⟩]) := by
    intro tl htl
    obtain ⟨c, t, rfl, hc1, hc2⟩ := literal_head_digit lit hl
    have hpn := parse_number_literal (c :: t) tl hl hv htl
    have hp : peek (c :: t ++ tl) ≠ 0 := by simp [peek]; omega
    refine lexing_of_step (c :: t ++ tl) tl _ hp ?_
    have := lexing_step_number c (t ++ tl) ⟨hc1, hc2⟩ ⟨[], [], []⟩
    simp only [List.cons_append] at hpn ⊢
    rw [this, hpn]
    simp
  refine ⟨parse_number_literal lit tail hl hv ht, key tail ht, ?_, ?_⟩
  · have := key [] (by decide)
    simpa [lexing_nil, Except.map, lexer.push_front] using this
  · intro lx
    have hn : ¬ ((literal_value lit : Int) < 0) := by omega
    simp only [token_to_string, to_string_ll, hn, if_false, Int.natAbs_ofNat]
    rfl

/-- C10, at the literals `0x1F` (value 31) before the end of the input, `017`
(value 15) before a blank and `42` before a closing parenthesis. -/
theorem lexing_number_literal_witness :
    ((is_decimal_literal (bytes "0x1F") = true ∨ is_hex_literal (bytes "0x1F") = true ∨
        is_octal_literal (bytes "0x1F") = true) ∧
      literal_value (bytes "0x1F") < 2 ^ 63 ∧ is_follower [] = true ∧
      literal_value (bytes "0x1F") = 31) ∧
    lexing (bytes "0x1F" ++ [])
      = (lexing []).map (lexer.push_front [⟨.NUMBER, (literal_value (bytes "0x1F") : Int)⟩]) ∧
    lexing (bytes "0x1F")
      = .ok ⟨[⟨.NUMBER, (literal_value (bytes "0x1F") : Int)⟩, token.mk0 .ENDING], [], []⟩ ∧
    parse_number (bytes "017" ++ bytes " )") = ((literal_value (bytes "017") : Int), bytes " )") ∧
    parse_number (bytes "42" ++ bytes ")") = ((literal_value (bytes "42") : Int), bytes ")") :=
  ⟨⟨by decide, by decide, by decide, by decide⟩,
    (lexing_number_literal (bytes "0x1F") [] (by decide) (by decide) (by decide)).2.1,
    (lexing_number_literal (bytes "0x1F") [] (by decide) (by decide) (by decide)).2.2.1,
    (lexing_number_literal (bytes "017") (bytes " )") (by decide) (by decide) (by decide)).1,
    (lexing_number_literal (bytes "42") (bytes ")") (by decide) (by decide) (by decide)).1⟩

/-! ## The tokens and the tables of a pass -/

theorem match_keyword_from_range (i : Nat) (kws : List (List Nat)) (s : List Nat) :
    (match_keyword_from i kws s).1 = KW_NOT_A_KEYWORD ∨
    ((i : Int) ≤ (match_keyword_from i kws s).1 ∧
      (match_keyword_from i kws s).1 < ((i + kws.length : Nat) : Int)) := by
  induction kws generalizing i with
  | nil => simp [match_keyword_from]
  | cons kw kws ih =>
    cases hm : match_literal kw s with
    | none =>
      simp only [match_keyword_from, hm]
      rcases ih (i + 1) with h | ⟨h1, h2⟩
      · exact Or.inl h
      · right
        simp only [List.length_cons]
        push_cast at h1 h2 ⊢
        omega
    | some p =>
      right
      simp only [match_keyword_from, hm, List.length_cons]
      push_cast
      omega

theorem match_keyword_range (s : List Nat) (h : (match_keyword s).1 ≠ KW_NOT_A_KEYWORD) :
    0 ≤ (match_keyword s).1 ∧ (match_keyword s).1 < (keywords.length : Int) := by
  rcases match_keyword_from_range 0 keywords s with h1 | ⟨h1, h2⟩
  · exact absurd h1 h
  · simp only [match_keyword]
    push_cast at h1 h2 ⊢
    omega

/-- What one iteration of the main loop does to the containers: nothing, or
one token is appended, together with one table entry when the token is a
string or an identifier, which then carries the position of that entry. -/
theorem lexing_step_shape (p : List Nat) (lx : lexer) (p1 : List Nat) (lx1 : lexer)
    (h : lexing_step p lx = .ok (p1, lx1)) :
    lx1 = lx ∨
    (∃ t : token, lx1 = ⟨lx.tokens ++ [t], lx.identifiers, lx.strings⟩ ∧
      (t.v = .LPAREN ∨ t.v = .RPAREN ∨ t.v = .NUMBER ∨
        (t.v = .KEYWORD ∧ 0 ≤ t.attr ∧ t.attr < (keywords.length : Int)))) ∨
    (∃ str : List Nat, lx1 = ⟨lx.tokens ++ [⟨.STRING, (lx.strings.length : Int)⟩],
      lx.identifiers, lx.strings ++ [str]⟩) ∨
    (∃ id : List Nat, lx1 = ⟨lx.tokens ++ [⟨.IDENTIFIER, (lx.identifiers.length : Int)⟩],
      lx.identifiers ++ [id], lx.strings⟩) := by
  simp only [lexing_step] at h
  split at h
  · simp only [Except.ok.injEq, Prod.mk.injEq] at h
    exact Or.inl h.2.symm
  split at h
  · simp only [Except.ok.injEq, Prod.mk.injEq] at h
    exact Or.inl h.2.symm
  split at h
  · simp only [Except.ok.injEq, Prod.mk.injEq] at h
    exact Or.inr (Or.inl ⟨token.mk0 .LPAREN, h.2.symm, Or.inl rfl⟩)
  split at h
  · simp only [Except.ok.injEq, Prod.mk.injEq] at h
    exact Or.inr (Or.inl ⟨token.mk0 .RPAREN, h.2.symm, Or.inr (Or.inl rfl)⟩)
  split at h
  · split at h
    · simp at h
    · rename_i str p2 hs
      simp only [Except.ok.injEq, Prod.mk.injEq] at h
      exact Or.inr (Or.inr (Or.inl ⟨str, h.2.symm⟩))
  split at h
  · simp only [Except.ok.injEq, Prod.mk.injEq] at h
    exact Or.inr (Or.inl ⟨_, h.2.symm, Or.inr (Or.inr (Or.inl rfl))⟩)
  split at h
  · split at h
    · simp at h
    · rename_i id p2 hs
      simp only [Except.ok.injEq, Prod.mk.injEq] at h
      exact Or.inr (Or.inr (Or.inr ⟨id, h.2.symm⟩))
  · rename_i hk
    simp only [Except.ok.injEq, Prod.mk.injEq] at h
    exact Or.inr (Or.inl ⟨_, h.2.symm, Or.inr (Or.inr (Or.inr
      ⟨rfl, match_keyword_range p hk⟩))⟩)

theorem lexing_step_consistent (p : List Nat) (lx : lexer) (p1 : List Nat) (lx1 : lexer)
    (h : lexing_step p lx = .ok (p1, lx1)) (hc : lx.consistent) : lx1.consistent := by
  obtain ⟨hs, hi, hk, hv⟩ := hc
  rcases lexing_step_shape p lx p1 lx1 h with rfl | ⟨t, rfl, ht⟩ | ⟨str, rfl⟩ | ⟨id, rfl⟩
  · exact ⟨hs, hi, hk, hv⟩
  · have hns : (t.v == vocabulary.STRING) = false := by
      rcases ht with h1 | h1 | h1 | ⟨h1, _⟩ <;> simp [h1]
    have hni : (t.v == vocabulary.IDENTIFIER) = false := by
      rcases ht with h1 | h1 | h1 | ⟨h1, _⟩ <;> simp [h1]
    refine ⟨?_, ?_, ?_, ?_⟩
    · simpa [string_attrs, List.filter_append, List.filter_cons, hns] using hs
    · simpa [identifier_attrs, List.filter_append, List.filter_cons, hni] using hi
    · intro x hx hxk
      simp only [List.mem_append, List.mem_singleton] at hx
      rcases hx with hx | rfl
      · exact hk x hx hxk
      · rcases ht with h1 | h1 | h1 | ⟨_, h2⟩
        · rw [h1] at hxk; cases hxk
        · rw [h1] at hxk; cases hxk
        · rw [h1] at hxk; cases hxk
        · exact h2
    · intro x hx
      simp only [List.mem_append, List.mem_singleton] at hx
      rcases hx with hx | rfl
      · exact hv x hx
      · rcases ht with h1 | h1 | h1 | ⟨h1, _⟩ <;> simp [h1]
  · refine ⟨?_, ?_, ?_, ?_⟩
    · simp only [string_attrs] at hs
      simp [string_attrs, List.filter_append, List.filter_cons, List.range_succ, hs]
    · simpa [identifier_attrs, List.filter_append, List.filter_cons] using hi
    · intro x hx hxk
      simp only [List.mem_append, List.mem_singleton] at hx
      rcases hx with hx | rfl
      · exact hk x hx hxk
      · cases hxk
    · intro x hx
      simp only [List.mem_append, List.mem_singleton] at hx
      rcases hx with hx | rfl
      · exact hv x hx
      · simp
  · refine ⟨?_, ?_, ?_, ?_⟩
    · simpa [string_attrs, List.filter_append, List.filter_cons] using hs
    · simp only [identifier_attrs] at hi
      simp [identifier_attrs, List.filter_append, List.filter_cons, List.range_succ, hi]
    · intro x hx hxk
      simp only [List.mem_append, List.mem_singleton] at hx
      rcases hx with hx | rfl
      · exact hk x hx hxk
      · cases hxk
    · intro x hx
      simp only [List.mem_append, List.mem_singleton] at hx
      rcases hx with hx | rfl
      · exact hv x hx
      · simp

/-- The result of the main loop: the tokens it started with and produced,
still consistent with the tables, followed by the one sentinel. -/
theorem lexing_loop_consistent (fuel : Nat) (p : List Nat) (lx lx1 : lexer)
    (h : lexing_loop fuel p lx = .ok lx1) (hc : lx.consistent) :
    ∃ body : List token, lx1.tokens = body ++ [token.mk0 .ENDING] ∧
      (⟨body, lx1.identifiers, lx1.strings⟩ : lexer).consistent := by
  induction fuel generalizing p lx with
  | zero => simp [lexing_loop] at h
  | succ f ih =>
    simp only [lexing_loop] at h
    split at h
    · simp only [Except.ok.injEq] at h
      subst h
      exact ⟨lx.tokens, rfl, hc⟩
    · cases hs : lexing_step p lx with
      | error e => simp [hs] at h
      | ok r =>
        obtain ⟨p2, lx2⟩ := r
        simp only [hs] at h
        exact ih p2 lx2 h (lexing_step_consistent p lx p2 lx2 hs hc)

theorem lexing_consistent (target : List Nat) (lx : lexer) (h : lexing target = .ok lx) :
    ∃ body : List token, lx.tokens = body ++ [token.mk0 .ENDING] ∧
      (⟨body, lx.identifiers, lx.strings⟩ : lexer).consistent :=
  lexing_loop_consistent _ target ⟨[], [], []⟩ lx h
    ⟨by simp [string_attrs], by simp [identifier_attrs], by simp, by simp⟩

theorem string_attrs_append (xs ys : List token) :
    string_attrs (xs ++ ys) = string_attrs xs ++ string_attrs ys := by
  simp [string_attrs, List.filter_append]

theorem identifier_attrs_append (xs ys : List token) :
    identifier_attrs (xs ++ ys) = identifier_attrs xs ++ identifier_attrs ys := by
  simp [identifier_attrs, List.filter_append]

theorem mem_string_attrs (toks : List token) (t : token) (ht : t ∈ toks)
    (hv : t.v = .STRING) : t.attr ∈ string_attrs toks := by
  simp only [string_attrs, List.mem_map, List.mem_filter]
  exact ⟨t, ⟨ht, by simp [hv]⟩, rfl⟩

theorem mem_identifier_attrs (toks : List token) (t : token) (ht : t ∈ toks)
    (hv : t.v = .IDENTIFIER) : t.attr ∈ identifier_attrs toks := by
  simp only [identifier_attrs, List.mem_map, List.mem_filter]
  exact ⟨t, ⟨ht, by simp [hv]⟩, rfl⟩

theorem mem_range_cast (n : Nat) (a : Int)
    (h : a ∈ (List.range n).map (fun i : Nat => (i : Int))) : 0 ≤ a ∧ a < (n : Int) := by
  simp only [List.mem_map, List.mem_range] at h
  obtain ⟨i, hi, rfl⟩ := h
  show 0 ≤ (i : Int) ∧ (i : Int) < (n : Int)
  omega

theorem range_cast_nodup (n : Nat) : ((List.range n).map (fun i : Nat => (i : Int))).Nodup :=
  List.Nodup.map Nat.cast_injective (List.nodup_range n)

theorem get_some_of_bound {α : Type} (l : List α) (a : Int) (h0 : 0 ≤ a)
    (h1 : a < (l.length : Int)) : ∃ x, l[a.toNat]? = some x := by
  have hlt : a.toNat < l.length := by omega
  exact ⟨l[a.toNat], List.getElem?_eq_getElem hlt⟩

/-- C13. Interning index validity: after a successful pass the string tokens
carry, in sequence order, the indices `0, 1, 2, ...` up to the size of the
table of strings, and the identifier tokens likewise for the table of
identifiers, so the k-th such token carries index k, the sizes of the tables
are the numbers of these tokens, every index is inside its table, and
`token_to_string` yields a text for every token produced. -/
theorem lexing_indices_valid (target : List Nat) (lx : lexer) (h : lexing target = .ok lx) :
    string_attrs lx.tokens = (List.range lx.strings.length).map (fun i : Nat => (i : Int)) ∧
    identifier_attrs lx.tokens
      = (List.range lx.identifiers.length).map (fun i : Nat => (i : Int)) ∧
    (lx.tokens.filter (fun t => t.v == .STRING)).length = lx.strings.length ∧
    (lx.tokens.filter (fun t => t.v == .IDENTIFIER)).length = lx.identifiers.length ∧
    (∀ tok ∈ lx.tokens,
      (tok.v = .STRING → 0 ≤ tok.attr ∧ tok.attr < (lx.strings.length : Int)) ∧
      (tok.v = .IDENTIFIER → 0 ≤ tok.attr ∧ tok.attr < (lx.identifiers.length : Int))) ∧
    ∀ tok ∈ lx.tokens, (token_to_string lx tok).isSome = true := by
  obtain ⟨body, hb, hs, hi, hk, hv⟩ := lexing_consistent target lx h
  have hs1 : string_attrs lx.tokens
      = (List.range lx.strings.length).map (fun i : Nat => (i : Int)) := by
    rw [hb, string_attrs_append, hs]
    simp [string_attrs, token.mk0]
  have hi1 : identifier_attrs lx.tokens
      = (List.range lx.identifiers.length).map (fun i : Nat => (i : Int)) := by
    rw [hb, identifier_attrs_append, hi]
    simp [identifier_attrs, token.mk0]
  have hbs : ∀ tok ∈ lx.tokens, tok.v = .STRING →
      0 ≤ tok.attr ∧ tok.attr < (lx.strings.length : Int) := by
    intro tok ht hv1
    have := mem_string_attrs lx.tokens tok ht hv1
    rw [hs1] at this
    exact mem_range_cast _ _ this
  have hbi : ∀ tok ∈ lx.tokens, tok.v = .IDENTIFIER →
      0 ≤ tok.attr ∧ tok.attr < (lx.identifiers.length : Int) := by
    intro tok ht hv1
    have := mem_identifier_attrs lx.tokens tok ht hv1
    rw [hi1] at this
    exact mem_range_cast _ _ this
  refine ⟨hs1, hi1, ?_, ?_, fun tok ht => ⟨hbs tok ht, hbi tok ht⟩, ?_⟩
  · have := congrArg List.length hs1
    simpa [string_attrs] using this
  · have := congrArg List.length hi1
    simpa [identifier_attrs] using this
  · intro tok ht
    rcases tok with ⟨v, a⟩
    cases v with
    | STRING =>
      obtain ⟨h0, h1⟩ := hbs _ ht rfl
      simp only at h0 h1
      obtain ⟨x, hx⟩ := get_some_of_bound lx.strings a h0 h1
      have hn : ¬ a < 0 := by omega
      simp [token_to_string, hn, hx]
    | IDENTIFIER =>
      obtain ⟨h0, h1⟩ := hbi _ ht rfl
      simp only at h0 h1
      obtain ⟨x, hx⟩ := get_some_of_bound lx.identifiers a h0 h1
      have hn : ¬ a < 0 := by omega
      simp [token_to_string, hn, hx]
    | KEYWORD =>
      rw [hb] at ht
      simp only [List.mem_append, List.mem_singleton] at ht
      rcases ht with ht | ht
      · obtain ⟨h0, h1⟩ := hk _ ht rfl
        simp only at h0 h1
        obtain ⟨x, hx⟩ := get_some_of_bound keywords a h0 h1
        have hn : ¬ a < 0 := by omega
        simp [token_to_string, hn, hx]
      · simp [token.mk0] at ht
    | _ => simp [token_to_string]

/-- C13, at the source `(f "s" g "t")`, where the two identifier tokens carry
0 and 1 and the two string tokens carry 0 and 1. -/
theorem lexing_indices_valid_witness :
    lexing (bytes "(f \"s\" g \"t\")")
      = .ok ⟨[⟨.LPAREN, 0⟩, ⟨.IDENTIFIER, 0⟩, ⟨.STRING, 0⟩, ⟨.IDENTIFIER, 1⟩, ⟨.STRING, 1⟩,
          ⟨.RPAREN, 0⟩, ⟨.ENDING, 0⟩], [bytes "f", bytes "g"], [bytes "s", bytes "t"]⟩ ∧
    string_attrs [⟨.LPAREN, 0⟩, ⟨.IDENTIFIER, 0⟩, ⟨.STRING, 0⟩, ⟨.IDENTIFIER, 1⟩, ⟨.STRING, 1⟩,
        ⟨.RPAREN, 0⟩, ⟨.ENDING, 0⟩]
      = (List.range [bytes "s", bytes "t"].length).map (fun i : Nat => (i : Int)) :=
  ⟨by decide,
    (lexing_indices_valid (bytes "(f \"s\" g \"t\")")
      ⟨[⟨.LPAREN, 0⟩, ⟨.IDENTIFIER, 0⟩, ⟨.STRING, 0⟩, ⟨.IDENTIFIER, 1⟩, ⟨.STRING, 1⟩,
        ⟨.RPAREN, 0⟩, ⟨.ENDING, 0⟩], [bytes "f", bytes "g"], [bytes "s", bytes "t"]⟩
      (by decide)).1⟩

/-- C14, as the code has it. The tables are filled without looking for an
equal entry: after a successful pass no two identifier tokens carry the same
index and no two string tokens do, whatever their texts, and each table has
as many entries as there are tokens of its kind. -/
theorem lexing_no_sharing (target : List Nat) (lx : lexer) (h : lexing target = .ok lx) :
    (identifier_attrs lx.tokens).Nodup ∧ (string_attrs lx.tokens).Nodup ∧
    lx.identifiers.length = (lx.tokens.filter (fun t => t.v == .IDENTIFIER)).length ∧
    lx.strings.length = (lx.tokens.filter (fun t => t.v == .STRING)).length := by
  obtain ⟨body, hb, hs, hi, _, _⟩ := lexing_consistent target lx h
  have hs1 : string_attrs lx.tokens
      = (List.range lx.strings.length).map (fun i : Nat => (i : Int)) := by
    rw [hb, string_attrs_append, hs]
    simp [string_attrs, token.mk0]
  have hi1 : identifier_attrs lx.tokens
      = (List.range lx.identifiers.length).map (fun i : Nat => (i : Int)) := by
    rw [hb, identifier_attrs_append, hi]
    simp [identifier_attrs, token.mk0]
  refine ⟨?_, ?_, ?_, ?_⟩
  · rw [hi1]
    exact range_cast_nodup _
  · rw [hs1]
    exact range_cast_nodup _
  · have := congrArg List.length hi1
    simpa [identifier_attrs] using this.symm
  · have := congrArg List.length hs1
    simpa [string_attrs] using this.symm

/-- C14 as amended, at the source `(a a)`. -/
theorem lexing_no_sharing_witness :
    lexing (bytes "(a a)")
      = .ok ⟨[⟨.LPAREN, 0⟩, ⟨.IDENTIFIER, 0⟩, ⟨.IDENTIFIER, 1⟩, ⟨.RPAREN, 0⟩, ⟨.ENDING, 0⟩],
          [bytes "a", bytes "a"], []⟩ ∧
    (identifier_attrs
      [⟨.LPAREN, 0⟩, ⟨.IDENTIFIER, 0⟩, ⟨.IDENTIFIER, 1⟩, ⟨.RPAREN, 0⟩, ⟨.ENDING, 0⟩]).Nodup :=
  ⟨by decide,
    (lexing_no_sharing (bytes "(a a)")
      ⟨[⟨.LPAREN, 0⟩, ⟨.IDENTIFIER, 0⟩, ⟨.IDENTIFIER, 1⟩, ⟨.RPAREN, 0⟩, ⟨.ENDING, 0⟩],
        [bytes "a", bytes "a"], []⟩ (by decide)).1⟩

/-- C14 as stated fails: for `(a a)` the two identifier tokens carry the
indices 0 and 1 and the table of identifiers holds the text `a` twice. -/
theorem same_text_stored_twice :
    ∃ lx : lexer, lexing (bytes "(a a)") = .ok lx ∧
      lx.tokens = [⟨.LPAREN, 0⟩, ⟨.IDENTIFIER, 0⟩, ⟨.IDENTIFIER, 1⟩, ⟨.RPAREN, 0⟩,
        ⟨.ENDING, 0⟩] ∧
      lx.identifiers = [bytes "a", bytes "a"] ∧ lx.identifiers ≠ [bytes "a"] :=
  ⟨⟨[⟨.LPAREN, 0⟩, ⟨.IDENTIFIER, 0⟩, ⟨.IDENTIFIER, 1⟩, ⟨.RPAREN, 0⟩, ⟨.ENDING, 0⟩],
      [bytes "a", bytes "a"], []⟩, by decide, rfl, rfl, by decide⟩

/-- C15. Exactly one sentinel, at the end: the token sequence of a successful
pass is some tokens, none of them the sentinel, followed by the one `End`
token, so it is not empty and its last token is `End`; lexing the empty source
gives exactly the sentinel. -/
theorem lexing_ends_with_sentinel (target : List Nat) (lx : lexer)
    (h : lexing target = .ok lx) :
    (∃ body : List token, lx.tokens = body ++ [token.mk0 .ENDING] ∧
      ∀ t ∈ body, t.v ≠ .ENDING) ∧
    lx.tokens ≠ [] ∧ lx.tokens.getLast? = some (token.mk0 .ENDING) ∧
    lexing [] = .ok ⟨[token.mk0 .ENDING], [], []⟩ := by
  obtain ⟨body, hb, _, _, _, hv⟩ := lexing_consistent target lx h
  refine ⟨⟨body, hb, ?_⟩, by simp [hb], by simp [hb], by decide⟩
  intro t ht hte
  have := hv t ht
  rw [hte] at this
  simp at this

/-- C15, at the source `(a)`. -/
theorem lexing_ends_with_sentinel_witness :
    lexing (bytes "(a)")
      = .ok ⟨[⟨.LPAREN, 0⟩, ⟨.IDENTIFIER, 0⟩, ⟨.RPAREN, 0⟩, ⟨.ENDING, 0⟩], [bytes "a"], []⟩ ∧
    [⟨.LPAREN, 0⟩, ⟨.IDENTIFIER, 0⟩, ⟨.RPAREN, 0⟩, (⟨.ENDING, 0⟩ : token)].getLast?
      = some (token.mk0 .ENDING) :=
  ⟨by decide,
    (lexing_ends_with_sentinel (bytes "(a)")
      ⟨[⟨.LPAREN, 0⟩, ⟨.IDENTIFIER, 0⟩, ⟨.RPAREN, 0⟩, ⟨.ENDING, 0⟩], [bytes "a"], []⟩
      (by decide)).2.2.1⟩

/-! ## Line comments -/

theorem skip_comment_loop_run (c t : List Nat) (hc : ∀ x ∈ c, x ≠ 0 ∧ x ≠ 10) :
    skip_comment_loop (c ++ t) = skip_comment_loop t := by
  induction c with
  | nil => rfl
  | cons x xs ih =>
    have hx := hc x (by simp)
    simp only [List.cons_append, skip_comment_loop, hx.1, hx.2, ne_eq, not_false_eq_true,
      and_self, if_true]
    exact ih (fun y hy => hc y (by simp [hy]))

theorem lexing_step_comment (t : List Nat) (lx : lexer) :
    lexing_step (59 :: t) lx = .ok (skip_comment (59 :: t), lx) := by
  simp [lexing_step, peek]

theorem push_front_nil (r : Except lex_error lexer) :
    r.map (lexer.push_front []) = r := by
  cases r with
  | error e => rfl
  | ok lx => simp [Except.map, lexer.push_front]

/-- C18. Line comments produce no tokens: for every text `c` without newline
and without NUL and every source `rest`, lexing `;`, `c`, a newline and `rest`
gives what lexing `rest` gives, tokens, tables or error alike, and lexing `;`
and `c` alone gives exactly the sentinel with empty tables. -/
theorem line_comment_no_tokens (c rest : List Nat) (hc : ∀ x ∈ c, x ≠ 0 ∧ x ≠ 10) :
    lexing (59 :: (c ++ 10 :: rest)) = lexing rest ∧
    lexing (59 :: c) = .ok ⟨[token.mk0 .ENDING], [], []⟩ := by
  have h1 : skip_comment (59 :: (c ++ 10 :: rest)) = rest := by
    simp [skip_comment, skip_comment_loop_run c _ hc, skip_comment_loop, peek]
  have h2 : skip_comment (59 :: c) = [] := by
    have := skip_comment_loop_run c [] hc
    simp only [List.append_nil] at this
    simp [skip_comment, this, skip_comment_loop, peek]
  constructor
  · have := lexing_of_step (59 :: (c ++ 10 :: rest)) rest [] (by simp [peek])
      (by rw [lexing_step_comment, h1])
    rw [this, push_front_nil]
  · have := lexing_of_step (59 :: c) [] [] (by simp [peek])
      (by rw [lexing_step_comment, h2])
    rw [this, push_front_nil]
    decide

/-- C18, at the comment `; a comment` before `(a)` on the next line, and at
the same comment running to the end of the input. -/
theorem line_comment_no_tokens_witness :
    (∀ x ∈ bytes " a comment", x ≠ 0 ∧ x ≠ 10) ∧
    lexing (59 :: (bytes " a comment" ++ 10 :: bytes "(a)")) = lexing (bytes "(a)") ∧
    lexing (59 :: bytes " a comment") = .ok ⟨[token.mk0 .ENDING], [], []⟩ :=
  ⟨by decide, line_comment_no_tokens (bytes " a comment") (bytes "(a)") (by decide)⟩

/-! ## Identifiers -/

/-- C12, on the code. The source `foo-bar` is not one identifier: the hyphen
ends the identifier `foo`, is lexed as the keyword `-`, and `bar` is a second
identifier. -/
theorem hyphen_ends_identifier :
    lexing (bytes "foo-bar")
      = .ok ⟨[⟨.IDENTIFIER, 0⟩, ⟨.KEYWORD, KW_MINUS⟩, ⟨.IDENTIFIER, 1⟩, token.mk0 .ENDING],
          [bytes "foo", bytes "bar"], []⟩ ∧
    parse_identifier (bytes "foo-bar") = .ok (bytes "foo", bytes "-bar") := by
  constructor <;> decide

theorem parse_identifier_loop_run (body tail id : List Nat)
    (hb : ∀ x ∈ body, is_identifier_char x = true)
    (ht : is_identifier_char (peek tail) = false) :
    parse_identifier_loop (body ++ tail) id = (id ++ body, tail) := by
  induction body generalizing id with
  | nil =>
    cases tail with
    | nil => simp [parse_identifier_loop]
    | cons c cs =>
      simp only [peek, List.headD_cons, is_identifier_char, Bool.or_eq_false_iff,
        beq_eq_false_iff_ne] at ht
      simp [parse_identifier_loop, ht.1, ht.2]
  | cons x xs ih =>
    have hx := hb x (by simp)
    simp only [is_identifier_char, Bool.or_eq_true, beq_iff_eq] at hx
    have h0 : x ≠ 0 := by
      rcases hx with h | h
      · intro h0
        subst h0
        simp [isalnum, isalpha, isdigit] at h
      · omega
    simp only [List.cons_append, parse_identifier_loop, h0, ne_eq, not_false_eq_true, hx,
      and_self, if_true]
    have := ih (id ++ [x]) (fun y hy => hb y (by simp [hy]))
    simpa using this

theorem identifier_start_cases (c : Nat) (h : (isalpha c || c == 95) = true) :
    (65 ≤ c ∧ c ≤ 90) ∨ (97 ≤ c ∧ c ≤ 122) ∨ c = 95 := by
  simp only [isalpha, Bool.or_eq_true, Bool.and_eq_true, decide_eq_true_eq, beq_iff_eq] at h
  omega

/-- The main loop on an identifier: a text that `parse_identifier` reads
whole, that no keyword spelling starts together with what follows, and that
is followed by a byte that does not continue it, becomes one identifier token
carrying the position of the table entry appended for it. -/
theorem lexing_step_identifier (idt tail : List Nat) (lx : lexer)
    (hi : is_identifier_text idt = true) (hk : ∀ kw ∈ keywords, ¬ kw <+: idt ++ tail)
    (ht : is_identifier_char (peek tail) = false) :
    lexing_step (idt ++ tail) lx
      = .ok (tail, ⟨lx.tokens ++ [⟨.IDENTIFIER, (lx.identifiers.length : Int)⟩],
          lx.identifiers ++ [idt], lx.strings⟩) := by
  match idt, hi with
  | c :: body, hi =>
    simp only [is_identifier_text, Bool.and_eq_true, List.all_eq_true] at hi
    obtain ⟨hc, hb⟩ := hi
    have hcases := identifier_start_cases c hc
    have h1 : ¬ ((9 ≤ c ∧ c ≤ 13) ∨ c = 32) := by omega
    have h2 : c ≠ 59 := by omega
    have h3 : c ≠ 40 := by omega
    have h4 : c ≠ 41 := by omega
    have h5 : c ≠ 34 := by omega
    have h6 : ¬ (48 ≤ c ∧ c ≤ 57) := by omega
    have hm : match_keyword (c :: (body ++ tail)) = (KW_NOT_A_KEYWORD, c :: (body ++ tail)) :=
      match_keyword_from_none 0 keywords keywords_nonzero _ hk
    have hs : (isalpha c = true ∨ c = 95) := by
      simpa only [Bool.or_eq_true, beq_iff_eq] using hc
    simp only [List.cons_append, lexing_step, peek, List.headD_cons, h1, h2, h3, h4, h5, h6,
      if_false, hm, if_true, parse_identifier, hs, List.tail_cons,
      parse_identifier_loop_run body tail [c] hb ht]
    simp

theorem lexing_identifier_alone (idt : List Nat) (hi : is_identifier_text idt = true)
    (hk : ∀ kw ∈ keywords, ¬ kw <+: idt) :
    lexing idt = .ok ⟨[⟨.IDENTIFIER, 0⟩, token.mk0 .ENDING], [idt], []⟩ := by
  have hstep := lexing_step_identifier idt [] ⟨[], [], []⟩ hi (by simpa using hk) (by decide)
  simp only [List.append_nil] at hstep
  obtain ⟨c, body, rfl⟩ : ∃ c body, idt = c :: body := by
    cases idt with
    | nil => simp [is_identifier_text] at hi
    | cons c body => exact ⟨c, body, rfl⟩
  have hp : peek (c :: body) ≠ 0 := by
    simp only [is_identifier_text, Bool.and_eq_true] at hi
    have := identifier_start_cases c hi.1
    simp only [peek, List.headD_cons]
    omega
  simp only [lexing, lexing_loop, hp, if_false, hstep, List.length_cons]
  simp [lexing_loop, peek]

theorem strto_scan_decimal_stop (lit tail : List Nat) (hl : is_decimal_literal lit = true)
    (ht : is_digit_of 10 (peek tail) = false) :
    strto_scan (lit ++ tail) 0 = some (false, digits_value 10 lit, tail) := by
  match lit, hl with
  | d :: ds, hl =>
    simp only [is_decimal_literal, Bool.and_eq_true, decide_eq_true_eq, List.all_eq_true] at hl
    obtain ⟨⟨h1, h2⟩, h3⟩ := hl
    have hd : is_digit_of 10 d = true := is_digit_of_decimal 10 d (by omega) (by omega)
    have hds : ∀ x ∈ d :: ds, is_digit_of 10 x = true := by
      intro x hx
      simp only [List.mem_cons] at hx
      rcases hx with rfl | hx
      · exact hd
      · have := h3 x hx
        simp only [isdigit, Bool.and_eq_true, decide_eq_true_eq] at this
        exact is_digit_of_decimal 10 x (by omega) (by omega)
    have hsp : isspace d = false := by simp [isspace]; omega
    have hhex : has_hex_lead (d :: (ds ++ tail)) = false := by
      unfold has_hex_lead
      split
      · rename_i heq
        simp only [List.cons.injEq] at heq
        omega
      · rfl
    have h45 : d ≠ 45 := by omega
    have h43 : d ≠ 43 := by omega
    have h48 : d ≠ 48 := by omega
    have hrun := strto_digits_run 10 (d :: ds) tail 0 hds ht
    simp only [List.cons_append] at hrun
    simp [strto_scan, hsp, peek, h45, h43, h48, hhex, hd, hrun, digits_value]

theorem identifier_start_not_digit (idt : List Nat) (hi : is_identifier_text idt = true) :
    is_digit_of 10 (peek idt) = false := by
  match idt, hi with
  | c :: body, hi =>
    simp only [is_identifier_text, Bool.and_eq_true] at hi
    have := identifier_start_cases c hi.1
    simp only [peek, List.headD_cons, is_digit_of, digit_value]
    split_ifs <;> first | omega | simp

/-- C11, as the code has it. A numeric literal ends where it cannot go on,
without an error: a decimal literal that does not start with `0`, immediately
followed by an identifier text, is lexed as the number, cut to the largest
`long long` if it exceeds it, followed by what the identifier text is lexed to
on its own. When no keyword spelling starts the text that is the one
identifier, so `123abc` gives `Number(123)`, `Identifier(0)` and the sentinel,
with `abc` in the table. -/
theorem lexing_number_then_identifier (lit idt : List Nat)
    (hl : is_decimal_literal lit = true) (hi : is_identifier_text idt = true) :
    parse_number (lit ++ idt)
      = (((min (digits_value 10 lit) (2 ^ 63 - 1) : Nat) : Int), idt) ∧
    lexing (lit ++ idt)
      = (lexing idt).map (lexer.push_front
          [⟨.NUMBER, ((min (digits_value 10 lit) (2 ^ 63 - 1) : Nat) : Int)⟩]) ∧
    ((∀ kw ∈ keywords, ¬ kw <+: idt) →
      lexing (lit ++ idt)
        = .ok ⟨[⟨.NUMBER, ((min (digits_value 10 lit) (2 ^ 63 - 1) : Nat) : Int)⟩,
            ⟨.IDENTIFIER, 0⟩, token.mk0 .ENDING], [idt], []⟩) := by
  have hscan := strto_scan_decimal_stop lit idt hl (identifier_start_not_digit idt hi)
  have hpn : parse_number (lit ++ idt)
      = (((min (digits_value 10 lit) (2 ^ 63 - 1) : Nat) : Int), idt) := by
    simp only [parse_number, strtoll, hscan, Bool.false_eq_true, if_false]
    split
    · rename_i hge
      rw [Nat.min_eq_right (by omega)]
      rfl
    · rename_i hlt
      rw [Nat.min_eq_left (by omega)]
  have hlex : lexing (lit ++ idt)
      = (lexing idt).map (lexer.push_front
          [⟨.NUMBER, ((min (digits_value 10 lit) (2 ^ 63 - 1) : Nat) : Int)⟩]) := by
    obtain ⟨c, t, rfl, hc1, hc2⟩ := literal_head_digit lit (Or.inl hl)
    have hp : peek (c :: t ++ idt) ≠ 0 := by simp [peek]; omega
    have hstep := lexing_step_number c (t ++ idt) ⟨hc1, hc2⟩ ⟨[], [], []⟩
    simp only [List.cons_append] at hpn hp ⊢
    rw [hpn] at hstep
    exact lexing_of_step _ idt _ hp hstep
  refine ⟨hpn, hlex, ?_⟩
  intro hk
  rw [hlex, lexing_identifier_alone idt hi hk]
  simp [Except.map, lexer.push_front]

/-- C11 as amended, at the source `123abc`. -/
theorem lexing_number_then_identifier_witness :
    (is_decimal_literal (bytes "123") = true ∧ is_identifier_text (bytes "abc") = true ∧
      (∀ kw ∈ keywords, ¬ kw <+: bytes "abc")) ∧
    lexing (bytes "123" ++ bytes "abc")
      = .ok ⟨[⟨.NUMBER, ((min (digits_value 10 (bytes "123")) (2 ^ 63 - 1) : Nat) : Int)⟩,
          ⟨.IDENTIFIER, 0⟩, token.mk0 .ENDING], [bytes "abc"], []⟩ ∧
    lexing (bytes "123abc")
      = .ok ⟨[⟨.NUMBER, 123⟩, ⟨.IDENTIFIER, 0⟩, token.mk0 .ENDING], [bytes "abc"], []⟩ :=
  ⟨⟨by decide, by decide, by decide⟩,
    (lexing_number_then_identifier (bytes "123") (bytes "abc") (by decide) (by decide)).2.2
      (by decide),
    by decide⟩

/-- C11 as stated fails: a run of decimal digits immediately followed by
identifier text is not always the number and the identifier. In `123test` the
keyword `t` is taken off the text first, and in `09abc` the leading `0` makes
`strtoll` read an octal literal, which ends before the `9`. -/
theorem digits_then_text_not_number_identifier :
    lexing (bytes "123test")
      = .ok ⟨[⟨.NUMBER, 123⟩, ⟨.KEYWORD, KW_T⟩, ⟨.IDENTIFIER, 0⟩, token.mk0 .ENDING],
          [bytes "est"], []⟩ ∧
    lexing (bytes "09abc")
      = .ok ⟨[⟨.NUMBER, 0⟩, ⟨.NUMBER, 9⟩, ⟨.IDENTIFIER, 0⟩, token.mk0 .ENDING],
          [bytes "abc"], []⟩ :=
  ⟨by decide, by decide⟩
/-! ## Unbalanced parentheses -/

theorem sentence_tokens_pos (e : sentence) : 1 ≤ e.tokens.length := by
  cases e with
  | atom tok => simp [sentence.tokens]
  | paren n l => simp [sentence.tokens]

theorem tokens_open_length (n : token) (es : List sentence)
    (more : List (token × List sentence)) :
    (tokens_open ((n, es) :: more)).length
      = 2 + (tokens_EList es).length + (tokens_open more).length := by
  simp [tokens_open]
  omega

/-- A list that is still open and holds nothing but its name, followed by
`tail`: `parse_E` gives what `parse_EList` gives on `tail`. -/
theorem parse_E_open_name (fuel : Nat) (n : token) (hn : is_name n = true)
    (tail : List token) (cs : List ast_node) (e : parse_error)
    (he : parse_EList fuel tail (.nonterminal (cs ++ [.terminal n])) = .error e) :
    parse_E (fuel + 1) (tokens_open [(n, [])] ++ tail) (.nonterminal cs) = .error e := by
  simpa [tokens_open, tokens_EList, token.mk0]
    using parse_E_lparen_list_error fuel 0 _ _ _ _ e (parse_Name_name n tail cs hn) he

/-- Lists that are still open, of which the first has an element or another
list inside: `parse_E` stops in a call on the deleted list of the node that
`add_child()` returned, whatever follows. -/
theorem parse_E_open_deep (frames : List (token × List sentence))
    (hw : wf_open frames = true) (hne : frames ≠ [])
    (hdeep : ∀ n, frames ≠ [(n, [])]) (fuel : Nat) (tail : List token)
    (cs : List ast_node) :
    parse_E (fuel + 3) (tokens_open frames ++ tail) (.nonterminal cs)
      = .error .use_after_free := by
  match frames, hw, hne, hdeep with
  | (n, x :: es) :: more, hw, _, _ =>
    simp only [wf_open, wf_EList, Bool.and_eq_true] at hw
    have := parse_E_with_element n x hw.1.1 hw.1.2.1 fuel
      (tokens_EList es ++ tokens_open more ++ tail) cs
    simpa [tokens_open, tokens_EList] using this
  | (n, []) :: (n2, es2) :: more, hw, _, _ =>
    simp only [wf_open, wf_EList, Bool.and_eq_true] at hw
    have h1 : parse_E (fuel + 1)
        (⟨.LPAREN, 0⟩ :: n2 :: (tokens_EList es2 ++ tokens_open more ++ tail)) .freed
        = .error .use_after_free :=
      parse_E_lparen_name_error fuel 0 _ _ _ (parse_Name_freed n2 _ hw.2.1.1)
    have := parse_E_element fuel 0 n ⟨.LPAREN, 0⟩ _ cs hw.1.1 (by decide) _ h1
    simpa [tokens_open, tokens_EList, token.mk0] using this
  | [(n, [])], _, _, hdeep => exact absurd rfl (hdeep n)

theorem parsing_open_deep (frames : List (token × List sentence))
    (hw : wf_open frames = true) (hne : frames ≠ [])
    (hdeep : ∀ n, frames ≠ [(n, [])]) (tail : List token)
    (cs : List ast_node) (it0 : List token) (ids strs : List (List Nat)) :
    parsing ⟨.nonterminal cs, it0⟩ ⟨tokens_open frames ++ tail, ids, strs⟩
      = .error .use_after_free := by
  have hlen : 1 ≤ (tokens_open frames ++ tail).length := by
    match frames, hne with
    | (n, es) :: more, _ => simp [tokens_open]
  obtain ⟨f, hf⟩ : ∃ f, 2 * (tokens_open frames ++ tail).length + 2 = f + 3 :=
    ⟨2 * (tokens_open frames ++ tail).length - 1, by omega⟩
  simp only [parsing, hf]
  rw [parse_E_open_deep frames hw hne hdeep f tail cs]

theorem parsing_open_name_then (n : token) (hn : is_name n = true) (tail : List token)
    (cs : List ast_node) (it0 : List token) (ids strs : List (List Nat)) (e : parse_error)
    (he : ∀ fuel, parse_EList (fuel + 2) tail (.nonterminal (cs ++ [.terminal n])) = .error e) :
    parsing ⟨.nonterminal cs, it0⟩ ⟨tokens_open [(n, [])] ++ tail, ids, strs⟩ = .error e := by
  have hlen : 2 ≤ (tokens_open [(n, [])] ++ tail).length := by simp [tokens_open]
  obtain ⟨f, hf⟩ : ∃ f, 2 * (tokens_open [(n, [])] ++ tail).length + 2 = (f + 2) + 1 :=
    ⟨2 * (tokens_open [(n, [])] ++ tail).length - 1, by omega⟩
  simp only [parsing, hf]
  rw [parse_E_open_name (f + 2) n hn tail cs e (he f)]

/-- C20, as the code has it. Parsing `(`, a name and the sentinel fails, and
the error is the unexpected-token error that `parse_EList` raises on the
sentinel, whatever the parser held before. -/
theorem parsing_open_name (n : token) (hn : is_name n = true) (cs : List ast_node)
    (it0 : List token) (ids strs : List (List Nat)) :
    parsing ⟨.nonterminal cs, it0⟩
        ⟨[token.mk0 .LPAREN, n, token.mk0 .ENDING], ids, strs⟩
      = .error .parse_EList_unexpected_token := by
  exact parsing_open_name_then n hn [token.mk0 .ENDING] cs it0 ids strs _
    (fun fuel => parse_EList_ending (fuel + 1) 0 [] _)

/-- C20 as amended, at the tokens of `(a`. -/
theorem parsing_open_name_witness :
    is_name ⟨.IDENTIFIER, 0⟩ = true ∧
    parsing ⟨.nonterminal [], []⟩
        ⟨[token.mk0 .LPAREN, ⟨.IDENTIFIER, 0⟩, token.mk0 .ENDING], [bytes "a"], []⟩
      = .error .parse_EList_unexpected_token :=
  ⟨by decide, parsing_open_name ⟨.IDENTIFIER, 0⟩ (by decide) [] [] [bytes "a"] []⟩

/-- C20 as stated fails: the error raised for `(a` is not the
missing-right-parenthesis error of `parse_E`. -/
theorem open_name_error_not_missing_rparen :
    ∃ lx : lexer, lexing (bytes "(a") = .ok lx ∧
      parsing parser.new lx = .error .parse_EList_unexpected_token ∧
      parsing parser.new lx ≠ .error .parse_E_missing_rparen :=
  ⟨⟨[⟨.LPAREN, 0⟩, ⟨.IDENTIFIER, 0⟩, ⟨.ENDING, 0⟩], [bytes "a"], []⟩, by decide, rfl, by
    intro h
    have h2 : parsing parser.new
        ⟨[⟨.LPAREN, 0⟩, ⟨.IDENTIFIER, 0⟩, ⟨.ENDING, 0⟩], [bytes "a"], []⟩
        = .error .parse_EList_unexpected_token := rfl
    rw [h2] at h
    cases h⟩

/-! ## Cursors never pass the terminator -/

theorem moved_over_refl (p : List Nat) : moved_over p p := ⟨[], rfl, by simp⟩

theorem moved_over_trans (p q r : List Nat) (h1 : moved_over p q) (h2 : moved_over q r) :
    moved_over p r := by
  obtain ⟨a, rfl, ha⟩ := h1
  obtain ⟨b, rfl, hb⟩ := h2
  refine ⟨a ++ b, by simp, ?_⟩
  intro c hc
  simp only [List.mem_append] at hc
  rcases hc with hc | hc
  · exact ha c hc
  · exact hb c hc

theorem moved_over_cons (c : Nat) (t p1 : List Nat) (hc : c ≠ 0) (h : moved_over t p1) :
    moved_over (c :: t) p1 :=
  moved_over_trans _ t _ ⟨[c], rfl, by simpa using hc⟩ h

theorem moved_over_tail (p : List Nat) (hp : peek p ≠ 0) : moved_over p p.tail := by
  cases p with
  | nil => simp [peek] at hp
  | cons c t => exact moved_over_cons c t t (by simpa [peek] using hp) (moved_over_refl t)

theorem is_digit_of_ne_zero (b c : Nat) (h : is_digit_of b c = true) : c ≠ 0 := by
  intro h0
  subst h0
  simp [is_digit_of, digit_value] at h

theorem strto_digits_moved (base : Nat) (s : List Nat) (acc : Nat) :
    moved_over s (strto_digits base s acc).2 := by
  induction s generalizing acc with
  | nil => exact moved_over_refl _
  | cons c cs ih =>
    simp only [strto_digits]
    split
    · rename_i hd
      exact moved_over_cons c cs _ (is_digit_of_ne_zero base c hd) (ih _)
    · exact moved_over_refl _

theorem dropWhile_isspace_moved (p : List Nat) : moved_over p (p.dropWhile isspace) := by
  induction p with
  | nil => exact moved_over_refl _
  | cons c cs ih =>
    simp only [List.dropWhile_cons]
    split
    · rename_i hc
      refine moved_over_cons c cs _ ?_ ih
      intro h0
      subst h0
      simp [isspace] at hc
    · exact moved_over_refl _

theorem hex_lead_moved (s : List Nat) (h : has_hex_lead s = true) :
    moved_over s (s.drop 2) := by
  match s, h with
  | 48 :: x :: hd :: t, h =>
    simp only [has_hex_lead, Bool.and_eq_true, Bool.or_eq_true, beq_iff_eq] at h
    refine ⟨[48, x], rfl, ?_⟩
    intro c hc
    simp only [List.mem_cons, List.mem_singleton, List.not_mem_nil, or_false] at hc
    rcases hc with rfl | rfl
    · omega
    · omega

theorem strto_scan_shape_moved (p : List Nat) (base : Nat) :
    ∃ (neg : Bool) (b : Nat) (s2 : List Nat), moved_over p s2 ∧
      strto_scan p base
        = if is_digit_of b (peek s2) = true then
            some (neg, (strto_digits b s2 0).1, (strto_digits b s2 0).2)
          else none := by
  refine ⟨_, _, _, ?_, rfl⟩
  have h0 := dropWhile_isspace_moved p
  have h1 : moved_over (List.dropWhile isspace p)
      (if (peek (List.dropWhile isspace p) == 45 || peek (List.dropWhile isspace p) == 43)
        = true then (List.dropWhile isspace p).tail else List.dropWhile isspace p) := by
    split
    · rename_i hs
      refine moved_over_tail _ ?_
      simp only [Bool.or_eq_true, beq_iff_eq] at hs
      omega
    · exact moved_over_refl _
  have h2 : ∀ s1 : List Nat, moved_over s1
      (if ((base == 0 || base == 16) && has_hex_lead s1) = true then s1.drop 2 else s1) := by
    intro s1
    by_cases hx : ((base == 0 || base == 16) && has_hex_lead s1) = true
    · rw [if_pos hx]
      simp only [Bool.and_eq_true] at hx
      exact hex_lead_moved _ hx.2
    · rw [if_neg hx]
      exact moved_over_refl _
  exact moved_over_trans _ _ _ (moved_over_trans _ _ _ h0 h1) (h2 _)

theorem strto_scan_moved (p : List Nat) (base : Nat) (neg : Bool) (mag : Nat)
    (rest : List Nat) (h : strto_scan p base = some (neg, mag, rest)) :
    moved_over p rest := by
  obtain ⟨neg1, b, s2, hm, heq⟩ := strto_scan_shape_moved p base
  rw [heq] at h
  split at h
  · simp only [Option.some.injEq, Prod.mk.injEq] at h
    obtain ⟨_, _, rfl⟩ := h
    exact moved_over_trans _ _ _ hm (strto_digits_moved b s2 0)
  · simp at h

theorem strtoull_moved (p : List Nat) (base : Nat) : moved_over p (strtoull p base).2 := by
  simp only [strtoull]
  split
  · exact moved_over_refl _
  · rename_i neg mag rest h
    have := strto_scan_moved p base neg mag rest h
    split
    · exact this
    · split <;> exact this

theorem octal_loop_moved (i v : Nat) (p : List Nat) : moved_over p (octal_loop i v p).2 := by
  induction i generalizing v p with
  | zero => exact moved_over_refl _
  | succ j ih =>
    simp only [octal_loop]
    split
    · rename_i hd
      exact moved_over_trans _ _ _ (moved_over_tail p (by omega)) (ih _ _)
    · exact moved_over_refl _

theorem escape_byte_zero : escape_byte 0 = none := by decide

theorem parse_escape_moved (q : List Nat) (b : Nat) (q1 : List Nat)
    (h : parse_escape q = .ok (b, q1)) : moved_over q q1 := by
  unfold parse_escape at h
  split at h
  · rename_i b1 he
    simp only [Except.ok.injEq, Prod.mk.injEq] at h
    obtain ⟨_, rfl⟩ := h
    refine moved_over_tail q ?_
    intro h0
    rw [h0, escape_byte_zero] at he
    cases he
  · split_ifs at h
    · simp only [Except.ok.injEq, Prod.mk.injEq] at h
      obtain ⟨_, rfl⟩ := h
      exact strtoull_moved q 16
    · rename_i hd
      simp only [Except.ok.injEq, Prod.mk.injEq] at h
      obtain ⟨_, rfl⟩ := h
      exact moved_over_trans _ _ _ (moved_over_tail q (by omega)) (octal_loop_moved _ _ _)

/-- One iteration of the loop of `parse_string`: it fails with a lexical
error, or returns at the closing quote, or goes on with a cursor that is
strictly shorter and was moved over bytes other than NUL only. -/
theorem parse_string_loop_iteration (fuel : Nat) (q result : List Nat) :
    (∃ e, parse_string_loop (fuel + 1) q result = .error e ∧ e ≠ .out_of_fuel) ∨
    (peek q = 34 ∧ parse_string_loop (fuel + 1) q result = .ok (result, q.tail)) ∨
    (∃ q1 result1, parse_string_loop (fuel + 1) q result = parse_string_loop fuel q1 result1 ∧
      q1.length < q.length ∧ moved_over q q1) := by
  cases q with
  | nil => exact Or.inl ⟨.bad_string, by simp [parse_string_loop, peek], by simp⟩
  | cons c t =>
    simp only [parse_string_loop, peek, List.headD_cons, List.tail_cons]
    by_cases hc : c = 92
    · simp only [hc, if_true]
      cases he : parse_escape t with
      | error e =>
        left
        refine ⟨e, rfl, ?_⟩
        unfold parse_escape at he
        split at he
        · simp at he
        · split_ifs at he
          simp only [Except.error.injEq] at he
          subst he
          simp
      | ok r =>
        obtain ⟨b, q1⟩ := r
        right; right
        have h1 := parse_escape_length _ _ _ he
        have h2 := parse_escape_moved _ _ _ he
        exact ⟨q1, result ++ [b], rfl, by simp; omega,
          moved_over_cons 92 t _ (by omega) h2⟩
    · simp only [hc, if_false]
      by_cases h0 : c = 0
      · left
        exact ⟨.bad_string, by simp [h0], by simp⟩
      · by_cases hq : c = 34
        · right; left
          exact ⟨hq, by simp [hq]⟩
        · right; right
          exact ⟨t, result ++ [c], by simp [h0, hq], by simp,
            moved_over_cons c t _ h0 (moved_over_refl _)⟩

theorem parse_escape_bad (e : Nat) (rest : List Nat) (h : is_escape_char e = false) :
    parse_escape (e :: rest) = .error .bad_escape_character := by
  simp [is_escape_char, is_octal_digit] at h
  obtain ⟨hl, h2⟩ := h
  have he : escape_byte e = none := by
    unfold escape_byte
    split <;> first | rfl | omega
  have hx : e ≠ 120 := by omega
  have ho : ¬ (48 ≤ e ∧ e ≤ 55) := by omega
  simp [parse_escape, peek, he, hx, ho]

theorem parse_string_loop_error_kind (fuel : Nat) (q result : List Nat) (e : lex_error)
    (h : parse_string_loop fuel q result = .error e) :
    e = .bad_string ∨ e = .bad_escape_character ∨ e = .out_of_fuel := by
  induction fuel generalizing q result with
  | zero =>
    simp only [parse_string_loop, Except.error.injEq] at h
    exact Or.inr (Or.inr h.symm)
  | succ f ih =>
    rcases parse_string_loop_iteration f q result with ⟨e1, h1, _⟩ | ⟨_, h1⟩ | ⟨q1, r1, h1, _, _⟩
    · rw [h1] at h
      simp only [Except.error.injEq] at h
      subst h
      cases q with
      | nil =>
        simp [parse_string_loop, peek] at h1
        exact Or.inl h1.symm
      | cons c t =>
        simp only [parse_string_loop, peek, List.headD_cons, List.tail_cons] at h1
        split at h1
        · cases he : parse_escape t with
          | error e2 =>
            rw [he] at h1
            simp only [Except.error.injEq] at h1
            subst h1
            unfold parse_escape at he
            split at he
            · simp at he
            · split_ifs at he
              simp only [Except.error.injEq] at he
              exact Or.inr (Or.inl he.symm)
          | ok r =>
            obtain ⟨b, q1⟩ := r
            rw [he] at h1
            exact ih _ _ h1
        · split_ifs at h1
          · simp only [Except.error.injEq] at h1
            exact Or.inl h1.symm
          · exact ih _ _ h1
    · rw [h1] at h
      cases h
    · rw [h1] at h
      exact ih _ _ h

theorem has_closing_quote_plain (c : Nat) (t : List Nat) (h0 : c ≠ 0) (h1 : c ≠ 34)
    (h2 : c ≠ 92) : has_closing_quote (c :: t) = has_closing_quote t := by
  cases t with
  | nil => simp [has_closing_quote, h1]
  | cons e t1 => simp [has_closing_quote, h0, h1, h2]

theorem has_closing_quote_plain_run (ds t : List Nat)
    (h : ∀ d ∈ ds, d ≠ 0 ∧ d ≠ 34 ∧ d ≠ 92) :
    has_closing_quote (ds ++ t) = has_closing_quote t := by
  induction ds with
  | nil => rfl
  | cons d ds ih =>
    have hd := h d (by simp)
    rw [List.cons_append, has_closing_quote_plain d _ hd.1 hd.2.1 hd.2.2]
    exact ih (fun x hx => h x (by simp [hx]))

theorem octal_loop_digits (i v : Nat) (p : List Nat) :
    ∃ ds : List Nat, p = ds ++ (octal_loop i v p).2 ∧ ∀ d ∈ ds, 48 ≤ d ∧ d ≤ 55 := by
  induction i generalizing v p with
  | zero => exact ⟨[], rfl, by simp⟩
  | succ j ih =>
    simp only [octal_loop]
    split
    · rename_i hd
      cases p with
      | nil => simp [peek] at hd
      | cons c t =>
        simp only [peek, List.headD_cons, List.tail_cons] at hd ⊢
        obtain ⟨ds, h1, h2⟩ := ih ((v * 8 + (c - 48)) % 65536) t
        refine ⟨c :: ds, by rw [List.cons_append, ← h1], ?_⟩
        intro d hdm
        simp only [List.mem_cons] at hdm
        rcases hdm with rfl | hdm
        · exact hd
        · exact h2 d hdm
    · exact ⟨[], rfl, by simp⟩

theorem strtoull_at_x (t : List Nat) : strtoull (120 :: t) 16 = (0, 120 :: t) := by
  simp [strtoull, strto_scan, isspace, peek, has_hex_lead, is_digit_of, digit_value]

/-- Where the inner `switch` leaves the cursor, seen from the character after
the escape character: there, at the `x` itself, or after up to two octal
digits. -/
theorem parse_escape_cursor (e : Nat) (t : List Nat) (b : Nat) (q1 : List Nat)
    (h : parse_escape (e :: t) = .ok (b, q1)) :
    e ≠ 0 ∧ has_closing_quote q1 = has_closing_quote t := by
  unfold parse_escape at h
  simp only [peek, List.headD_cons, List.tail_cons] at h
  split at h
  · rename_i b1 he
    simp only [Except.ok.injEq, Prod.mk.injEq] at h
    obtain ⟨_, rfl⟩ := h
    refine ⟨?_, rfl⟩
    intro h0
    rw [h0, escape_byte_zero] at he
    cases he
  · split_ifs at h
    · rename_i hx
      simp only [Except.ok.injEq, Prod.mk.injEq] at h
      obtain ⟨_, rfl⟩ := h
      subst hx
      rw [strtoull_at_x]
      exact ⟨by omega, has_closing_quote_plain 120 t (by omega) (by omega) (by omega)⟩
    · rename_i hd
      simp only [Except.ok.injEq, Prod.mk.injEq] at h
      obtain ⟨_, rfl⟩ := h
      obtain ⟨ds, h1, h2⟩ := octal_loop_digits 2 ((e - 48) % 65536) t
      refine ⟨by omega, ?_⟩
      conv_rhs => rw [h1]
      rw [has_closing_quote_plain_run ds _ (fun d hdm => by have := h2 d hdm; omega)]

theorem parse_string_loop_closing (fuel : Nat) (q result str p1 : List Nat)
    (h : parse_string_loop fuel q result = .ok (str, p1)) : has_closing_quote q = true := by
  induction fuel generalizing q result with
  | zero => simp [parse_string_loop] at h
  | succ f ih =>
    match q, h with
    | [], h => simp [parse_string_loop, peek] at h
    | [c], h =>
      simp only [parse_string_loop, peek, List.headD_cons, List.tail_cons] at h
      split at h
      · simp [parse_escape, peek, escape_byte_zero] at h
      · split_ifs at h
        · rename_i hq
          simp [has_closing_quote, hq]
        · have := ih _ _ h
          simp [has_closing_quote] at this
    | c :: e :: t, h =>
      simp only [parse_string_loop, peek, List.headD_cons, List.tail_cons] at h
      split at h
      · rename_i hc
        split at h
        · simp at h
        · rename_i b q1 he
          obtain ⟨he0, hcl⟩ := parse_escape_cursor e t b q1 he
          have := ih _ _ h
          rw [hcl] at this
          simp [has_closing_quote, hc, he0, this]
      · rename_i hc
        split_ifs at h
        · rename_i h0 hq
          simp [has_closing_quote, h0, hq]
        · rename_i h0 hq
          have := ih _ _ h
          rw [has_closing_quote_plain c _ h0 hq hc]
          exact this

/-- The main loop stops with the error of a string literal it arrives at. -/
theorem lexing_loop_string_error (fuel : Nat) (t : List Nat) (lx : lexer) (e : lex_error)
    (h : parse_string (34 :: t) = .error e) :
    lexing_loop (fuel + 1) (34 :: t) lx = .error e := by
  simp [lexing_loop, lexing_step, peek, h]

theorem has_bad_escape_plain (c : Nat) (t : List Nat) (h0 : c ≠ 0) (h1 : c ≠ 34)
    (h2 : c ≠ 92) : has_bad_escape (c :: t) = has_bad_escape t := by
  cases t with
  | nil => simp [has_bad_escape, h2]
  | cons e t1 => simp [has_bad_escape, h0, h1, h2]

theorem has_bad_escape_plain_run (ds t : List Nat)
    (h : ∀ d ∈ ds, d ≠ 0 ∧ d ≠ 34 ∧ d ≠ 92) :
    has_bad_escape (ds ++ t) = has_bad_escape t := by
  induction ds with
  | nil => rfl
  | cons d ds ih =>
    have hd := h d (by simp)
    rw [List.cons_append, has_bad_escape_plain d _ hd.1 hd.2.1 hd.2.2]
    exact ih (fun x hx => h x (by simp [hx]))

/-- Where the inner `switch` leaves the cursor, for the search of a bad
escape: what is skipped after the escape character holds no backslash. -/
theorem parse_escape_scan (e : Nat) (t : List Nat) (b : Nat) (q1 : List Nat)
    (h : parse_escape (e :: t) = .ok (b, q1)) :
    is_escape_char e = true ∧ has_bad_escape q1 = has_bad_escape t := by
  have hesc : is_escape_char e = true := by
    cases he : is_escape_char e with
    | true => rfl
    | false =>
      rw [parse_escape_bad e t he] at h
      cases h
  refine ⟨hesc, ?_⟩
  unfold parse_escape at h
  simp only [peek, List.headD_cons, List.tail_cons] at h
  split at h
  · simp only [Except.ok.injEq, Prod.mk.injEq] at h
    obtain ⟨_, rfl⟩ := h
    rfl
  · split_ifs at h
    · rename_i hx
      simp only [Except.ok.injEq, Prod.mk.injEq] at h
      obtain ⟨_, rfl⟩ := h
      subst hx
      rw [strtoull_at_x]
      exact has_bad_escape_plain 120 t (by omega) (by omega) (by omega)
    · rename_i hd
      simp only [Except.ok.injEq, Prod.mk.injEq] at h
      obtain ⟨_, rfl⟩ := h
      obtain ⟨ds, h1, h2⟩ := octal_loop_digits 2 ((e - 48) % 65536) t
      conv_rhs => rw [h1]
      rw [has_bad_escape_plain_run ds _ (fun d hdm => by have := h2 d hdm; omega)]

theorem parse_escape_error (q : List Nat) (e : lex_error) (h : parse_escape q = .error e) :
    e = .bad_escape_character := by
  unfold parse_escape at h
  split at h
  · simp at h
  · split_ifs at h
    simp only [Except.error.injEq] at h
    exact h.symm

/-- The loop of `parse_string` on a body with a bad escape: it stops with the
bad-escape error, unless the fuel ends first. -/
theorem parse_string_loop_bad_escape (fuel : Nat) (q result : List Nat)
    (h : has_bad_escape q = true) :
    parse_string_loop fuel q result = .error .bad_escape_character ∨
    parse_string_loop fuel q result = .error .out_of_fuel := by
  induction fuel generalizing q result with
  | zero => exact Or.inr rfl
  | succ f ih =>
    match q, h with
    | [c], h =>
      simp only [has_bad_escape, beq_iff_eq] at h
      subst h
      left
      simp [parse_string_loop, peek, parse_escape, escape_byte_zero]
    | c :: e :: t, h =>
      simp only [has_bad_escape] at h
      by_cases hc : c = 92
      · subst hc
        simp only [parse_string_loop, peek, List.headD_cons, List.tail_cons, if_true]
        cases he : parse_escape (e :: t) with
        | error e2 =>
          left
          rw [parse_escape_error _ _ he]
        | ok r =>
          obtain ⟨b, q1⟩ := r
          obtain ⟨hesc, hscan⟩ := parse_escape_scan e t b q1 he
          simp only [show (92 : Nat) ≠ 0 by omega, show (92 : Nat) ≠ 34 by omega, if_false,
            if_true, hesc] at h
          exact ih q1 _ (by rw [hscan]; exact h)
      · by_cases h0 : c = 0
        · simp [h0] at h
        · by_cases hq : c = 34
          · simp [hq] at h
          · simp only [h0, hq, hc, if_false] at h
            simp only [parse_string_loop, peek, List.headD_cons, List.tail_cons, hc, h0, hq,
              if_false]
            exact ih _ _ h

theorem parse_string_bad_escape (body : List Nat) (h : has_bad_escape body = true) :
    parse_string (34 :: body) = .error .bad_escape_character := by
  rcases parse_string_loop_bad_escape (34 :: body).length body [] h with h1 | h1
  · simpa [parse_string] using h1
  · exact absurd h1 (parse_string_loop_fuel (34 :: body).length body [] (by simp))

/-- C17. String-literal errors are fatal: when the main loop arrives at a
string literal in which, before it closes, a backslash that is not itself the
character escaped by a backslash before it is followed by a character other
than `'`, `"`, `\`, `a`, `b`, `f`, `n`, `r`, `t`, `v`, `x` and the octal
digits, the pass fails with the bad-escape error, whatever comes before that
backslash in the literal and whatever follows; when it arrives at a quote
after which the input ends before a closing quote, the pass fails with the
bad-string or the bad-escape error. No lexer state is returned. So `"\q"`,
`"\?"`, `"\101\q"` and `"abc` are rejected. -/
theorem string_errors_fatal (fuel : Nat) (lx : lexer) :
    (∀ body : List Nat, has_bad_escape body = true →
      lexing_loop (fuel + 1) (34 :: body) lx = .error .bad_escape_character) ∧
    (∀ (pieces : List (List Nat × Nat)) (e : Nat) (rest : List Nat),
      (∀ x ∈ pieces, is_simple_piece x = true) → is_escape_char e = false →
      lexing_loop (fuel + 1) (34 :: ((pieces.map Prod.fst).flatten ++ 92 :: e :: rest)) lx
        = .error .bad_escape_character) ∧
    (∀ body : List Nat, has_closing_quote body = false →
      lexing_loop (fuel + 1) (34 :: body) lx = .error .bad_string ∨
      lexing_loop (fuel + 1) (34 :: body) lx = .error .bad_escape_character) ∧
    lexing (bytes "\"\\q\"") = .error .bad_escape_character ∧
    lexing (bytes "\"\\?\"") = .error .bad_escape_character ∧
    lexing (bytes "\"\\101\\q\"") = .error .bad_escape_character ∧
    lexing (bytes "\"abc") = .error .bad_string := by
  refine ⟨?_, ?_, ?_, by decide, by decide, by decide, by decide⟩
  · intro body hb
    exact lexing_loop_string_error fuel body lx _ (parse_string_bad_escape body hb)
  · intro pieces e rest hp he
    apply lexing_loop_string_error
    obtain ⟨k, hk⟩ : ∃ k, (34 :: ((pieces.map Prod.fst).flatten ++ 92 :: e :: rest)).length
        = pieces.length + (k + 1) := by
      have hlen : pieces.length ≤ (pieces.map Prod.fst).flatten.length := by
        clear he
        induction pieces with
        | nil => simp
        | cons x xs ih =>
          have hx := hp x (by simp)
          have := ih (fun y hy => hp y (by simp [hy]))
          obtain ⟨src, out⟩ := x
          match src, hx with
          | [c], _ =>
            simp only [List.map_cons, List.flatten_cons, List.length_append, List.length_cons,
              List.length_nil]
            omega
          | [b, e1], _ =>
            simp only [List.map_cons, List.flatten_cons, List.length_append, List.length_cons,
              List.length_nil]
            omega
      exact ⟨(pieces.map Prod.fst).flatten.length - pieces.length + rest.length + 2, by
        simp only [List.length_cons, List.length_append]
        omega⟩
    simp only [parse_string, hk, List.tail_cons]
    rw [parse_string_loop_pieces pieces hp]
    simp [parse_string_loop, peek, parse_escape_bad e rest he]
  · intro body hb
    cases hs : parse_string (34 :: body) with
    | ok r =>
      obtain ⟨str, p1⟩ := r
      have := parse_string_loop_closing _ _ _ _ _ hs
      simp only [List.tail_cons] at this
      rw [hb] at this
      cases this
    | error e =>
      rw [lexing_loop_string_error fuel body lx e hs]
      rcases parse_string_loop_error_kind _ _ _ _ hs with h | h | h
      · exact Or.inl (by rw [h])
      · exact Or.inr (by rw [h])
      · exfalso
        rw [h] at hs
        exact parse_string_loop_fuel (34 :: body).length body [] (by simp) hs

/-- C17, at `"\101\q"` and `"a\q"` followed by more input and at the
unterminated `"abc\"`, whose last quote is escaped. -/
theorem string_errors_fatal_witness :
    (has_bad_escape (bytes "\\101\\q\")") = true ∧
      lexing_loop (5 + 1) (34 :: bytes "\\101\\q\")") ⟨[], [], []⟩
        = .error .bad_escape_character) ∧
    ((∀ x ∈ [([97], 97)], is_simple_piece x = true) ∧ is_escape_char 113 = false ∧
      lexing_loop (5 + 1) (34 :: (([([97], 97)].map Prod.fst).flatten ++ 92 :: 113 :: [34, 41]))
          ⟨[], [], []⟩
        = .error .bad_escape_character) ∧
    (has_closing_quote (bytes "abc\\\"") = false ∧
      (lexing_loop (5 + 1) (34 :: bytes "abc\\\"") ⟨[], [], []⟩ = .error .bad_string ∨
        lexing_loop (5 + 1) (34 :: bytes "abc\\\"") ⟨[], [], []⟩
          = .error .bad_escape_character)) :=
  ⟨⟨by decide,
      (string_errors_fatal 5 ⟨[], [], []⟩).1 (bytes "\\101\\q\")") (by decide)⟩,
    ⟨by decide, by decide,
      (string_errors_fatal 5 ⟨[], [], []⟩).2.1 [([97], 97)] 113 [34, 41] (by decide)
        (by decide)⟩,
    ⟨by decide,
      (string_errors_fatal 5 ⟨[], [], []⟩).2.2.1 (bytes "abc\\\"") (by decide)⟩⟩
/-! ## What the parser consumes -/

theorem lparen_then_name_cons (v : vocabulary) (ks : List vocabulary) (hv : v ≠ .LPAREN) :
    lparen_then_name (v :: ks) = lparen_then_name ks := by
  cases ks with
  | nil => simp [lparen_then_name, hv]
  | cons w r => simp [lparen_then_name, hv]

theorem atom_kind (t : token) (h : is_atom t = true) :
    t.v ≠ .LPAREN ∧ t.v ≠ .RPAREN ∧ t.v ≠ .ENDING := by
  rcases t with ⟨v, x⟩
  cases v <;> simp [is_atom] at h <;> simp

theorem name_kind (t : token) (h : is_name t = true) :
    t.v ≠ .LPAREN ∧ t.v ≠ .RPAREN ∧ t.v ≠ .ENDING ∧ (t.v = .IDENTIFIER ∨ t.v = .KEYWORD) := by
  rcases t with ⟨v, x⟩
  cases v <;> simp [is_name] at h <;> simp

mutual
theorem sentence_lparen_then_name : ∀ (e : sentence), e.wf = true →
    ∀ ks : List vocabulary,
      lparen_then_name (e.tokens.map token.v ++ ks) = lparen_then_name ks
  | .atom tok, h, ks => by
    simp only [sentence.wf] at h
    simpa [sentence.tokens] using lparen_then_name_cons tok.v ks (atom_kind tok h).1
  | .paren n l, h, ks => by
    simp only [sentence.wf, Bool.and_eq_true] at h
    have hn := name_kind n h.1
    have ih := EList_lparen_then_name l h.2 (vocabulary.RPAREN :: ks)
    have h1 : lparen_then_name (vocabulary.LPAREN :: n.v ::
        ((tokens_EList l).map token.v ++ vocabulary.RPAREN :: ks))
        = lparen_then_name (n.v :: ((tokens_EList l).map token.v ++ vocabulary.RPAREN :: ks)) := by
      rcases hn.2.2.2 with hv | hv <;> simp [lparen_then_name, hv]
    simp only [sentence.tokens, token.mk0, List.map_cons, List.map_append, List.cons_append,
      List.append_assoc, List.map_nil, List.nil_append]
    rw [h1, lparen_then_name_cons _ _ hn.1, ih, lparen_then_name_cons _ _ (by simp)]
theorem EList_lparen_then_name : ∀ (l : List sentence), wf_EList l = true →
    ∀ ks : List vocabulary,
      lparen_then_name ((tokens_EList l).map token.v ++ ks) = lparen_then_name ks
  | [], _, ks => by simp [tokens_EList]
  | e :: l, h, ks => by
    simp only [wf_EList, Bool.and_eq_true] at h
    simp only [tokens_EList, List.map_append, List.append_assoc]
    rw [sentence_lparen_then_name e h.1, EList_lparen_then_name l h.2]
end

mutual
theorem sentence_balanced : ∀ (e : sentence), e.wf = true →
    (e.tokens.map token.v).count .LPAREN = (e.tokens.map token.v).count .RPAREN
  | .atom tok, h => by
    simp only [sentence.wf] at h
    have := atom_kind tok h
    simp [sentence.tokens, List.count_cons, this.1, this.2.1]
  | .paren n l, h => by
    simp only [sentence.wf, Bool.and_eq_true] at h
    have hn := name_kind n h.1
    have ih := EList_balanced l h.2
    simp [sentence.tokens, token.mk0, List.count_cons, List.count_append, hn.1, hn.2.1, ih]
theorem EList_balanced : ∀ (l : List sentence), wf_EList l = true →
    ((tokens_EList l).map token.v).count .LPAREN
      = ((tokens_EList l).map token.v).count .RPAREN
  | [], _ => by simp [tokens_EList]
  | e :: l, h => by
    simp only [wf_EList, Bool.and_eq_true] at h
    simp [tokens_EList, List.count_append, sentence_balanced e h.1, EList_balanced l h.2]
end

theorem sentence_last_kind (e : sentence) (h : e.wf = true) :
    (e.tokens.map token.v).getLast? ≠ some .ENDING := by
  cases e with
  | atom tok =>
    simp only [sentence.wf] at h
    simpa [sentence.tokens] using (atom_kind tok h).2.2
  | paren n l =>
    have e1 : (sentence.paren n l).tokens.map token.v
        = (vocabulary.LPAREN :: n.v :: (tokens_EList l).map token.v) ++ [vocabulary.RPAREN] := by
      simp [sentence.tokens, token.mk0]
    rw [e1, List.getLast?_append]
    simp

/-- What `parse_E` consumes when it returns, started on a token other than
the sentinel: the tokens of an atom, or `(`, a name and `)`. -/
theorem parse_E_sound (fuel : Nat) (it : List token) (node : ast_node) (rest : List token)
    (node1 : ast_node) (h : parse_E fuel it node = .ok (rest, node1))
    (hfirst : it.head?.map token.v ≠ some .ENDING) :
    ∃ (e : sentence) (consumed : List token), e.wf = true ∧ e.no_element = true ∧
      it = consumed ++ rest ∧ consumed.map token.v = e.tokens.map token.v := by
  rcases parse_E_ok fuel it node rest node1 h with ⟨tok, ha, hit, _⟩ | ⟨x, hit, _⟩ |
    ⟨x, n, rp, hn, hrp, hit, _⟩
  · exact ⟨.atom tok, [tok], by simpa [sentence.wf] using ha, rfl, by simpa using hit, rfl⟩
  · rw [hit] at hfirst
    simp at hfirst
  · refine ⟨.paren n [], [⟨.LPAREN, x⟩, n, rp], by simpa [sentence.wf, wf_EList] using hn, rfl,
      by simpa using hit, ?_⟩
    simp [sentence.tokens, tokens_EList, token.mk0, hrp]

/-- C25. Soundness of the parser: when `parsing` succeeds on a token sequence
whose first token is not the sentinel, the tokens from the start up to the
final iterator have the token kinds of a sentence of `E`; so among them there
are as many `(` as `)`, and every `(` is immediately followed by an identifier
or a keyword. -/
theorem parsing_sound (pas pas1 : parser) (lx : lexer) (h : parsing pas lx = .ok pas1)
    (hfirst : lx.tokens.head?.map token.v ≠ some .ENDING) :
    ∃ (e : sentence) (consumed : List token), e.wf = true ∧
      lx.tokens = consumed ++ pas1.it ∧
      consumed.map token.v = e.tokens.map token.v ∧
      (consumed.map token.v).count .LPAREN = (consumed.map token.v).count .RPAREN ∧
      lparen_then_name (consumed.map token.v) = true := by
  simp only [parsing] at h
  cases hp : parse_E (2 * lx.tokens.length + 2) lx.tokens pas.root with
  | error e => simp [hp] at h
  | ok r =>
    obtain ⟨it1, root1⟩ := r
    simp only [hp, Except.ok.injEq] at h
    subst h
    obtain ⟨e, consumed, hw, _, hc, hm⟩ := parse_E_sound _ _ _ _ _ hp hfirst
    refine ⟨e, consumed, hw, hc, hm, ?_, ?_⟩
    · rw [hm]
      exact sentence_balanced e hw
    · rw [hm]
      have := sentence_lparen_then_name e hw []
      simpa [lparen_then_name] using this

/-- C25, at the tokens of `(f) x`, of which the first three are consumed. -/
theorem parsing_sound_witness :
    parsing parser.new
        ⟨[⟨.LPAREN, 0⟩, ⟨.IDENTIFIER, 0⟩, ⟨.RPAREN, 0⟩, ⟨.IDENTIFIER, 1⟩, ⟨.ENDING, 0⟩],
          [bytes "f", bytes "x"], []⟩
      = .ok ⟨.nonterminal [.terminal ⟨.IDENTIFIER, 0⟩], [⟨.IDENTIFIER, 1⟩, ⟨.ENDING, 0⟩]⟩ ∧
    ∃ (e : sentence) (consumed : List token), e.wf = true ∧
      [⟨.LPAREN, 0⟩, ⟨.IDENTIFIER, 0⟩, ⟨.RPAREN, 0⟩, ⟨.IDENTIFIER, 1⟩, ⟨.ENDING, 0⟩]
        = consumed ++ [⟨.IDENTIFIER, 1⟩, ⟨.ENDING, 0⟩] ∧
      consumed.map token.v = e.tokens.map token.v ∧
      (consumed.map token.v).count .LPAREN = (consumed.map token.v).count .RPAREN ∧
      lparen_then_name (consumed.map token.v) = true :=
  ⟨rfl, parsing_sound parser.new
    ⟨.nonterminal [.terminal ⟨.IDENTIFIER, 0⟩], [⟨.IDENTIFIER, 1⟩, ⟨.ENDING, 0⟩]⟩
    ⟨[⟨.LPAREN, 0⟩, ⟨.IDENTIFIER, 0⟩, ⟨.RPAREN, 0⟩, ⟨.IDENTIFIER, 1⟩, ⟨.ENDING, 0⟩],
      [bytes "f", bytes "x"], []⟩ rfl (by decide)⟩

/-! ## The iterator stays inside the token sequence -/

/-- What is left after a sentence, in a sequence that ends with a sentinel:
at least that sentinel. -/
theorem rest_after_sentence (it consumed rest : List token) (e : sentence)
    (hw : e.wf = true) (hc : it = consumed ++ rest)
    (hm : consumed.map token.v = e.tokens.map token.v)
    (hend : it.getLast?.map token.v = some .ENDING) :
    rest ≠ [] ∧ rest.getLast?.map token.v = some .ENDING ∧ rest.length < it.length := by
  have hlen : 1 ≤ consumed.length := by
    have := congrArg List.length hm
    simp only [List.length_map] at this
    have := sentence_tokens_pos e
    omega
  have hne : rest ≠ [] := by
    intro hr
    subst hr
    simp only [List.append_nil] at hc
    subst hc
    have h1 : (it.map token.v).getLast? = some .ENDING := by
      rw [List.getLast?_map]
      exact hend
    rw [hm] at h1
    exact sentence_last_kind e hw h1
  refine ⟨hne, ?_, ?_⟩
  · rw [hc, List.getLast?_append_of_ne_nil _ hne] at hend
    exact hend
  · rw [hc, List.length_append]
    omega

theorem ends_after_head (tok : token) (it1 : List token) (hv : tok.v ≠ .ENDING)
    (hend : (tok :: it1).getLast?.map token.v = some .ENDING) :
    it1 ≠ [] ∧ it1.getLast?.map token.v = some .ENDING := by
  cases it1 with
  | nil =>
    simp at hend
    exact absurd hend hv
  | cons t its =>
    rw [List.getLast?_cons_cons] at hend
    exact ⟨by simp, hend⟩

theorem first_E_not_ending (t : token) (h : is_first_E t = true) : t.v ≠ .ENDING := by
  rcases t with ⟨v, x⟩
  cases v <;> simp [is_first_E, is_atom] at h <;> simp

/-- On the child with the deleted list, with a sentinel further on and fuel
left, `parse_E` stops without reading through the end iterator. -/
theorem parse_E_freed_no_overrun (fuel : Nat) (t : token) (it : List token)
    (h : is_first_E t = true) (hend : (t :: it).getLast?.map token.v = some .ENDING) :
    parse_E (fuel + 1) (t :: it) .freed = .error .use_after_free ∨
    parse_E (fuel + 1) (t :: it) .freed = .error .parse_Name_unexpected_token := by
  rcases parse_E_freed fuel t it h with ⟨_, h1⟩ | ⟨_, _, _, _, _, _, h1⟩ |
    ⟨_, _, _, _, _, _, h1⟩ | ⟨_, _, hnil, _⟩
  · exact Or.inl h1
  · exact Or.inl h1
  · exact Or.inr h1
  · exact absurd hnil (ends_after_head t it (first_E_not_ending t h) hend).1

/-- The failures of `parse_EList` on a token sequence that ends with a
sentinel, with the fuel that `parsing` leaves it. -/
theorem parse_EList_no_overrun (fuel : Nat) (it : List token) (node : ast_node)
    (hend : it.getLast?.map token.v = some .ENDING) :
    parse_EList (fuel + 2) it node ≠ .error .read_past_end ∧
    parse_EList (fuel + 2) it node ≠ .error .out_of_fuel := by
  cases it with
  | nil => simp at hend
  | cons t it1 =>
    by_cases hr : t.v = .RPAREN
    · obtain ⟨v, x⟩ := t
      simp only at hr
      subst hr
      rw [parse_EList_rparen]
      exact ⟨by simp, by simp⟩
    · cases hf : is_first_E t with
      | false =>
        rw [parse_EList_other _ t it1 node hf hr]
        exact ⟨by simp, by simp⟩
      | true =>
        cases node with
        | terminal tk =>
          rw [parse_EList_terminal _ t it1 tk hf]
          exact ⟨by simp, by simp⟩
        | freed =>
          rw [parse_EList_freed _ t it1 hf]
          exact ⟨by simp, by simp⟩
        | nonterminal cs =>
          rcases parse_E_freed_no_overrun fuel t it1 hf hend with h1 | h1
          · rw [parse_EList_first _ t it1 cs hf _ h1]
            exact ⟨by simp, by simp⟩
          · rw [parse_EList_first _ t it1 cs hf _ h1]
            exact ⟨by simp, by simp⟩

/-- With a token sequence that ends with a sentinel and the fuel that
`parsing` gives, `parse_E` does not read through the end iterator and does not
run out of fuel. -/
theorem parse_E_no_overrun (fuel : Nat) (it : List token) (node : ast_node)
    (hend : it.getLast?.map token.v = some .ENDING) :
    parse_E (fuel + 3) it node ≠ .error .read_past_end ∧
    parse_E (fuel + 3) it node ≠ .error .out_of_fuel := by
  cases it with
  | nil => simp at hend
  | cons tok it1 =>
    cases ha : is_atom tok with
    | true =>
      rw [parse_E_atom_eq _ tok it1 node ha]
      cases hc : node.add_child_tok tok with
      | ok n1 => exact ⟨by simp [Except.map], by simp [Except.map]⟩
      | error e =>
        rcases add_child_tok_error node tok e hc with rfl | rfl <;>
          exact ⟨by simp [Except.map], by simp [Except.map]⟩
    | false =>
      by_cases he : tok.v = .ENDING
      · obtain ⟨v, x⟩ := tok
        simp only at he
        subst he
        rw [parse_E_ending]
        exact ⟨by simp, by simp⟩
      · by_cases hl : tok.v = .LPAREN
        · obtain ⟨v, x⟩ := tok
          simp only at hl
          subst hl
          obtain ⟨hne, hend1⟩ := ends_after_head _ it1 he hend
          rcases parse_Name_cases it1 node with ⟨hnil, _⟩ | ⟨_, _, _, _, h1⟩ |
            ⟨n, it2, hit, hn, ⟨e, hadd, h1⟩ | ⟨node2, hadd, h1⟩⟩
          · exact absurd hnil hne
          · rw [parse_E_lparen_name_error _ x it1 node _ h1]
            exact ⟨by simp, by simp⟩
          · rw [parse_E_lparen_name_error _ x it1 node _ h1]
            rcases add_child_tok_error node n e hadd with rfl | rfl <;>
              exact ⟨by simp, by simp⟩
          · subst hit
            obtain ⟨_, hend2⟩ := ends_after_head n it2 (name_kind n hn).2.2.1 hend1
            have hno := parse_EList_no_overrun fuel it2 node2 hend2
            cases hp : parse_EList (fuel + 2) it2 node2 with
            | error e =>
              rw [parse_E_lparen_list_error _ x _ it2 node node2 e h1 hp]
              rw [hp] at hno
              exact ⟨fun h => hno.1 h, fun h => hno.2 h⟩
            | ok r =>
              obtain ⟨it3, node3⟩ := r
              obtain ⟨h3, h4, rp, rs, h5, h6⟩ := parse_EList_ok _ it2 node2 it3 node3 hp
              subst h3 h4 h5
              rw [parse_E_lparen_ok _ x _ _ rs node _ _ rp h1 hp h6]
              exact ⟨by simp, by simp⟩
        · rw [parse_E_other _ tok it1 node hl ha he]
          exact ⟨by simp, by simp⟩

/-- C26. Cursor safety: on a token sequence whose last token is the sentinel,
`parsing` never reads through the end iterator, whether it succeeds or fails
(and never runs out of the fuel of the embedding); when it succeeds the final
iterator is what is left of the sequence after at least one token, so the
cursor only moved forward; and the final iterator is the end iterator only
when the sequence is the sentinel alone, which the last advance stepped over. -/
theorem parsing_cursor_safe (pas : parser) (lx : lexer)
    (hend : lx.tokens.getLast?.map token.v = some .ENDING) :
    parsing pas lx ≠ .error .read_past_end ∧ parsing pas lx ≠ .error .out_of_fuel ∧
    ∀ pas1 : parser, parsing pas lx = .ok pas1 →
      (∃ consumed : List token, consumed ≠ [] ∧ lx.tokens = consumed ++ pas1.it) ∧
      (pas1.it = [] → ∃ tend : token, lx.tokens = [tend] ∧ tend.v = .ENDING) := by
  have hlen : 1 ≤ lx.tokens.length := by
    cases hl : lx.tokens with
    | nil => rw [hl] at hend; simp at hend
    | cons t ts => simp
  obtain ⟨f, hf⟩ : ∃ f, 2 * lx.tokens.length + 2 = f + 3 :=
    ⟨2 * lx.tokens.length - 1, by omega⟩
  have hs := parse_E_no_overrun f lx.tokens pas.root hend
  rw [← hf] at hs
  refine ⟨?_, ?_, ?_⟩
  · intro h
    simp only [parsing] at h
    cases hp : parse_E (2 * lx.tokens.length + 2) lx.tokens pas.root with
    | error e =>
      simp only [hp, Except.error.injEq] at h
      subst h
      exact hs.1 hp
    | ok r => simp [hp] at h
  · intro h
    simp only [parsing] at h
    cases hp : parse_E (2 * lx.tokens.length + 2) lx.tokens pas.root with
    | error e =>
      simp only [hp, Except.error.injEq] at h
      subst h
      exact hs.2 hp
    | ok r => simp [hp] at h
  · intro pas1 h
    simp only [parsing] at h
    cases hp : parse_E (2 * lx.tokens.length + 2) lx.tokens pas.root with
    | error e => simp [hp] at h
    | ok r =>
      obtain ⟨it1, root1⟩ := r
      simp only [hp, Except.ok.injEq] at h
      subst h
      simp only
      by_cases hfirst : lx.tokens.head?.map token.v = some .ENDING
      · rcases parse_E_ok _ _ _ _ _ hp with ⟨tok, ha, hit, _⟩ | ⟨x, hit, _⟩ |
          ⟨x, n, rp, hn, hrp, hit, _⟩
        · rw [hit] at hfirst
          simp only [List.head?_cons, Option.map_some', Option.some.injEq] at hfirst
          exact absurd hfirst (atom_kind tok ha).2.2
        · refine ⟨⟨[⟨.ENDING, x⟩], by simp, by simpa using hit⟩, ?_⟩
          intro hnil
          exact ⟨⟨.ENDING, x⟩, by rw [hit, hnil], rfl⟩
        · rw [hit] at hfirst
          simp at hfirst
      · obtain ⟨e, consumed, hw, _, hc, hm⟩ := parse_E_sound _ _ _ _ _ hp hfirst
        obtain ⟨hne, _, _⟩ := rest_after_sentence _ _ _ e hw hc hm hend
        refine ⟨⟨consumed, ?_, hc⟩, fun hnil => absurd hnil hne⟩
        intro hcn
        have := congrArg List.length hm
        rw [hcn] at this
        have hpos := sentence_tokens_pos e
        simp at this
        omega

/-- C26, at the tokens of `(a` and of `a`, both followed by the sentinel. -/
theorem parsing_cursor_safe_witness :
    ((([⟨.LPAREN, 0⟩, ⟨.IDENTIFIER, 0⟩, ⟨.ENDING, 0⟩] : List token).getLast?.map token.v
        = some .ENDING) ∧
      parsing parser.new ⟨[⟨.LPAREN, 0⟩, ⟨.IDENTIFIER, 0⟩, ⟨.ENDING, 0⟩], [], []⟩
        ≠ .error .read_past_end) ∧
    ∃ consumed : List token, consumed ≠ [] ∧
      [⟨.IDENTIFIER, 0⟩, (⟨.ENDING, 0⟩ : token)] = consumed ++ [⟨.ENDING, 0⟩] :=
  ⟨⟨by decide,
      (parsing_cursor_safe parser.new
        ⟨[⟨.LPAREN, 0⟩, ⟨.IDENTIFIER, 0⟩, ⟨.ENDING, 0⟩], [], []⟩ (by decide)).1⟩,
    ((parsing_cursor_safe parser.new ⟨[⟨.IDENTIFIER, 0⟩, ⟨.ENDING, 0⟩], [], []⟩
      (by decide)).2.2 ⟨.nonterminal [.terminal ⟨.IDENTIFIER, 0⟩], [⟨.ENDING, 0⟩]⟩ rfl).1⟩

/-! ## The check for the right parenthesis, the head of a list -/

theorem parse_EList_never_missing_rparen (fuel : Nat) (it : List token) (node : ast_node) :
    parse_EList fuel it node ≠ .error .parse_E_missing_rparen := by
  cases fuel with
  | zero => simp [parse_EList]
  | succ f =>
    cases it with
    | nil => simp [parse_EList]
    | cons t it1 =>
      by_cases hr : t.v = .RPAREN
      · obtain ⟨v, x⟩ := t
        simp only at hr
        subst hr
        rw [parse_EList_rparen]
        simp
      · cases hf : is_first_E t with
        | false =>
          rw [parse_EList_other _ t it1 node hf hr]
          simp
        | true =>
          cases node with
          | terminal tk =>
            rw [parse_EList_terminal _ t it1 tk hf]
            simp
          | freed =>
            rw [parse_EList_freed _ t it1 hf]
            simp
          | nonterminal cs =>
            obtain ⟨e, he, hk⟩ := parse_E_freed_error f t it1 hf
            rw [parse_EList_first _ t it1 cs hf e he]
            rcases hk with rfl | rfl | rfl | rfl <;> simp

theorem parse_E_never_missing_rparen (fuel : Nat) (it : List token) (node : ast_node) :
    parse_E fuel it node ≠ .error .parse_E_missing_rparen := by
  cases fuel with
  | zero => simp [parse_E]
  | succ f =>
    cases it with
    | nil => simp [parse_E]
    | cons tok it1 =>
      cases ha : is_atom tok with
      | true =>
        rw [parse_E_atom_eq _ tok it1 node ha]
        cases hc : node.add_child_tok tok with
        | ok n1 => simp [Except.map]
        | error e =>
          rcases add_child_tok_error node tok e hc with rfl | rfl <;> simp [Except.map]
      | false =>
        by_cases he : tok.v = .ENDING
        · obtain ⟨v, x⟩ := tok
          simp only at he
          subst he
          rw [parse_E_ending]
          simp
        · by_cases hl : tok.v = .LPAREN
          · obtain ⟨v, x⟩ := tok
            simp only at hl
            subst hl
            rcases parse_Name_cases it1 node with ⟨_, h1⟩ | ⟨_, _, _, _, h1⟩ |
              ⟨n, it2, hit, hn, ⟨e, hadd, h1⟩ | ⟨node2, hadd, h1⟩⟩
            · rw [parse_E_lparen_name_error _ x it1 node _ h1]
              simp
            · rw [parse_E_lparen_name_error _ x it1 node _ h1]
              simp
            · rw [parse_E_lparen_name_error _ x it1 node _ h1]
              rcases add_child_tok_error node n e hadd with rfl | rfl <;> simp
            · cases hp : parse_EList f it2 node2 with
              | error e =>
                rw [parse_E_lparen_list_error _ x _ it2 node node2 e h1 hp]
                intro h
                simp only [Except.error.injEq] at h
                subst h
                exact parse_EList_never_missing_rparen f it2 node2 hp
              | ok r =>
                obtain ⟨it3, node3⟩ := r
                obtain ⟨h3, h4, rp, rs, h5, h6⟩ := parse_EList_ok _ it2 node2 it3 node3 hp
                subst h3 h4 h5
                rw [parse_E_lparen_ok _ x _ _ rs node _ _ rp h1 hp h6]
                simp
          · rw [parse_E_other _ tok it1 node hl ha he]
            simp

/-- C27, as the code behaves. The check for the missing right parenthesis in
`parse_E` is never taken: whenever `parse_EList` returns without error the
iterator is on a `)`, and `parsing` never fails with the
missing-right-parenthesis error. A list left open with its name alone, as in
`(a`, is reported by the unexpected-token error of `parse_EList`. A list left
open with an element, as in `(a b`, is not reported: the run stops at the
element, in a call on the deleted list of the node `add_child()` returned. -/
theorem missing_rparen_unreachable :
    (∀ (fuel : Nat) (it : List token) (node : ast_node) (rest : List token)
      (node1 : ast_node), parse_EList fuel it node = .ok (rest, node1) →
      ∃ r rs, rest = r :: rs ∧ r.v = .RPAREN) ∧
    (∀ (pas : parser) (lx : lexer), parsing pas lx ≠ .error .parse_E_missing_rparen) ∧
    (∃ lx : lexer, lexing (bytes "(a") = .ok lx ∧
      parsing parser.new lx = .error .parse_EList_unexpected_token) ∧
    (∃ lx : lexer, lexing (bytes "(a b") = .ok lx ∧
      lx.tokens = [⟨.LPAREN, 0⟩, ⟨.IDENTIFIER, 0⟩, ⟨.IDENTIFIER, 1⟩, ⟨.ENDING, 0⟩] ∧
      parsing parser.new lx = .error .use_after_free) := by
  refine ⟨?_, ?_, ⟨_, rfl, rfl⟩, ⟨_, rfl, rfl, rfl⟩⟩
  · intro fuel it node rest node1 h
    obtain ⟨h1, _, r, rs, h2, h3⟩ := parse_EList_ok fuel it node rest node1 h
    exact ⟨r, rs, by rw [h1, h2], h3⟩
  · intro pas lx h
    simp only [parsing] at h
    cases hp : parse_E (2 * lx.tokens.length + 2) lx.tokens pas.root with
    | error e =>
      simp only [hp, Except.error.injEq] at h
      subst h
      exact parse_E_never_missing_rparen _ _ _ hp
    | ok r => simp [hp] at h

/-- C27, at the tokens of `(a)` after the name: `parse_EList` returns on the
`)`. -/
theorem missing_rparen_unreachable_witness :
    parse_EList 2 [⟨.RPAREN, 0⟩, ⟨.ENDING, 0⟩] (.nonterminal [.terminal ⟨.IDENTIFIER, 0⟩])
        = .ok ([⟨.RPAREN, 0⟩, ⟨.ENDING, 0⟩], .nonterminal [.terminal ⟨.IDENTIFIER, 0⟩]) ∧
    ∃ r rs, [⟨.RPAREN, 0⟩, (⟨.ENDING, 0⟩ : token)] = r :: rs ∧ r.v = .RPAREN :=
  ⟨rfl, missing_rparen_unreachable.1 2 [⟨.RPAREN, 0⟩, ⟨.ENDING, 0⟩]
      (.nonterminal [.terminal ⟨.IDENTIFIER, 0⟩]) _ _ rfl⟩

/-- C21. The head of a parenthesised form must be a name: when a `(` that the
parser arrives at, as first token or in the place of the first element of the
outermost list, is followed by a token that is neither an identifier nor a
keyword, `parsing` fails with the unexpected-token error of `parse_Name`. At
a `(` further inside, after an element or inside an inner list, the parser
does not arrive: the run stops before it, in a call on the deleted list of
the node `add_child()` returned. A `)` as the first token fails with the
unexpected-token error of `parse_E`; and the token sequences of `()`,
`(1 2)`, `("s")` and `((a) b)` are rejected by `parse_Name`. -/
theorem list_head_must_be_name (cs : List ast_node) (it0 : List token)
    (ids strs : List (List Nat)) :
    (∀ (frames : List (token × List sentence)) (x : Int) (t : token) (rest : List token),
      wf_open frames = true → is_name t = false →
      ((frames = [] ∨ ∃ n, frames = [(n, [])]) →
        parsing ⟨.nonterminal cs, it0⟩
            ⟨tokens_open frames ++ ⟨.LPAREN, x⟩ :: t :: rest, ids, strs⟩
          = .error .parse_Name_unexpected_token) ∧
      (¬ (frames = [] ∨ ∃ n, frames = [(n, [])]) →
        parsing ⟨.nonterminal cs, it0⟩
            ⟨tokens_open frames ++ ⟨.LPAREN, x⟩ :: t :: rest, ids, strs⟩
          = .error .use_after_free)) ∧
    (∀ (x : Int) (rest : List token),
      parsing ⟨.nonterminal cs, it0⟩ ⟨⟨.RPAREN, x⟩ :: rest, ids, strs⟩
        = .error .parse_E_unexpected_token) ∧
    ((∃ lx, lexing (bytes "()") = .ok lx ∧
        parsing parser.new lx = .error .parse_Name_unexpected_token) ∧
      (∃ lx, lexing (bytes "(1 2)") = .ok lx ∧
        parsing parser.new lx = .error .parse_Name_unexpected_token) ∧
      (∃ lx, lexing (bytes "(\"s\")") = .ok lx ∧
        parsing parser.new lx = .error .parse_Name_unexpected_token) ∧
      (∃ lx, lexing (bytes "((a) b)") = .ok lx ∧
        parsing parser.new lx = .error .parse_Name_unexpected_token)) := by
  refine ⟨?_, ?_, ⟨⟨_, rfl, rfl⟩, ⟨_, rfl, rfl⟩, ⟨_, rfl, rfl⟩, ⟨_, rfl, rfl⟩⟩⟩
  · intro frames x t rest hw ht
    have hbad : ∀ (fuel : Nat) (node : ast_node),
        parse_E (fuel + 1) (⟨.LPAREN, x⟩ :: t :: rest) node
          = .error .parse_Name_unexpected_token := fun fuel node =>
      parse_E_lparen_name_error fuel x _ node _ (parse_Name_bad t rest node ht)
    constructor
    · rintro (rfl | ⟨n, rfl⟩)
      · simp only [parsing, tokens_open, List.nil_append, List.length_cons]
        rw [show 2 * (rest.length + 1 + 1) + 2 = (2 * rest.length + 5) + 1 by omega, hbad]
      · simp only [wf_open, wf_EList, Bool.and_eq_true] at hw
        exact parsing_open_name_then n hw.1.1 _ cs it0 ids strs _
          (fun fuel => parse_EList_first (fuel + 1) ⟨.LPAREN, x⟩ _ _
            (by simp [is_first_E]) _ (hbad fuel _))
    · intro hdeep
      have hne : frames ≠ [] := fun h => hdeep (Or.inl h)
      exact parsing_open_deep frames hw hne (fun n h => hdeep (Or.inr ⟨n, h⟩)) _ cs it0 ids strs
  · intro x rest
    simp only [parsing, List.length_cons]
    rw [show 2 * (rest.length + 1) + 2 = (2 * rest.length + 3) + 1 by omega]
    rw [parse_E_other _ ⟨.RPAREN, x⟩ rest _ (by simp) (by simp [is_atom]) (by simp)]

/-- C21, at the tokens of `(f (1` followed by the sentinel: the list of `f` is
open, and the number after the second `(` is not a name. -/
theorem list_head_must_be_name_witness :
    (wf_open [(⟨.IDENTIFIER, 0⟩, [])] = true ∧ is_name ⟨.NUMBER, 1⟩ = false) ∧
    parsing ⟨.nonterminal [], []⟩
        ⟨tokens_open [(⟨.IDENTIFIER, 0⟩, [])] ++ ⟨.LPAREN, 0⟩ :: ⟨.NUMBER, 1⟩ :: [⟨.ENDING, 0⟩],
          [[102]], []⟩
      = .error .parse_Name_unexpected_token :=
  ⟨⟨by decide, by decide⟩,
    ((list_head_must_be_name [] [] [[102]] []).1 [(⟨.IDENTIFIER, 0⟩, [])] 0 ⟨.NUMBER, 1⟩
      [⟨.ENDING, 0⟩] (by decide) (by decide)).1 (Or.inr ⟨_, rfl⟩)⟩

/-! ## One top-level expression, the kept root -/

/-- C22, as the code behaves. `parsing` parses one top-level `E` and stops, for
the sentences it can complete: on an atom or a list of its name alone,
followed by anything, it succeeds, its root is the root it gives on the
sentence followed by the sentinel alone, and the iterator stops right after
the sentence; so for `a b`. On a list with an element, followed by anything,
it returns nothing: the run stops at the element, in a call on the deleted
list of the node `add_child()` returned; so for `(f 1) (g 2)`. -/
theorem parsing_first_expression_only (e : sentence) (h : e.wf = true) (rest : List token)
    (cs : List ast_node) (it0 : List token) (ids strs ids1 strs1 : List (List Nat)) :
    (e.no_element = true →
      ∃ root : ast_node,
        parsing ⟨.nonterminal cs, it0⟩ ⟨e.tokens ++ rest, ids, strs⟩ = .ok ⟨root, rest⟩ ∧
        parsing ⟨.nonterminal cs, it0⟩ ⟨e.tokens ++ [token.mk0 .ENDING], ids1, strs1⟩
          = .ok ⟨root, [token.mk0 .ENDING]⟩) ∧
    (e.no_element = false →
      parsing ⟨.nonterminal cs, it0⟩ ⟨e.tokens ++ rest, ids, strs⟩ = .error .use_after_free) ∧
    (∃ lx : lexer, lexing (bytes "a b") = .ok lx ∧
      parsing parser.new lx
        = .ok ⟨.nonterminal [.terminal ⟨.IDENTIFIER, 0⟩], [⟨.IDENTIFIER, 1⟩, ⟨.ENDING, 0⟩]⟩) ∧
    (∃ lx : lexer, lexing (bytes "(f 1) (g 2)") = .ok lx ∧
      parsing parser.new lx = .error .use_after_free) := by
  refine ⟨?_, ?_, ⟨_, rfl, rfl⟩, ⟨_, rfl, rfl⟩⟩
  · intro hn
    exact ⟨_, parsing_no_element e h hn cs it0 rest ids strs,
      parsing_no_element e h hn cs it0 _ ids1 strs1⟩
  · intro hn
    obtain ⟨n, x, l, rfl, h1, h2⟩ := sentence_with_element e h hn
    exact parsing_with_element n x l h1 h2 cs it0 rest ids strs

/-- C22, at the tokens of `(f 1) (g 2)`: nothing is returned. -/
theorem parsing_first_expression_only_witness :
    ((sentence.paren ⟨.IDENTIFIER, 0⟩ [.atom ⟨.NUMBER, 1⟩]).wf = true ∧
      (sentence.paren ⟨.IDENTIFIER, 0⟩ [.atom ⟨.NUMBER, 1⟩]).no_element = false) ∧
    parsing ⟨.nonterminal [], []⟩
        ⟨(sentence.paren ⟨.IDENTIFIER, 0⟩ [.atom ⟨.NUMBER, 1⟩]).tokens
          ++ [⟨.LPAREN, 0⟩, ⟨.IDENTIFIER, 1⟩, ⟨.NUMBER, 2⟩, ⟨.RPAREN, 0⟩, ⟨.ENDING, 0⟩],
          [[102], [103]], []⟩
      = .error .use_after_free :=
  ⟨⟨by decide, by decide⟩,
    (parsing_first_expression_only (.paren ⟨.IDENTIFIER, 0⟩ [.atom ⟨.NUMBER, 1⟩]) (by decide)
      [⟨.LPAREN, 0⟩, ⟨.IDENTIFIER, 1⟩, ⟨.NUMBER, 2⟩, ⟨.RPAREN, 0⟩, ⟨.ENDING, 0⟩] [] []
      [[102], [103]] [] [] []).2.1 (by decide)⟩

/-- C23, as the code behaves. The member `root` is not reset by `parsing`: a
second call on the same parser object appends to the tree of the first call.
With the tokens of `a`, a new parser gives the root with the one leaf `a`, and
calling `parsing` again on the result with the same tokens gives a root with two
leaves `a`, which is not the tree a new parser gives. -/
theorem second_parsing_keeps_root :
    ∃ (lx : lexer) (pas1 pas2 : parser),
      lexing (bytes "a") = .ok lx ∧
      parsing parser.new lx = .ok pas1 ∧
      parsing pas1 lx = .ok pas2 ∧
      pas1.root = .nonterminal [.terminal ⟨.IDENTIFIER, 0⟩] ∧
      pas2.root = .nonterminal [.terminal ⟨.IDENTIFIER, 0⟩, .terminal ⟨.IDENTIFIER, 0⟩] ∧
      pas2.root ≠ pas1.root :=
  ⟨_, _, _, rfl, rfl, rfl, rfl, rfl, by simp⟩

/-! ## Invariants of the main loop of the lexer -/

/-- A property of the containers that every iteration keeps and that does not
look at the sentinel holds after the main loop. -/
theorem lexing_loop_invariant (P : lexer → Prop)
    (hstep : ∀ (p : List Nat) (lx : lexer) (p1 : List Nat) (lx1 : lexer),
      lexing_step p lx = .ok (p1, lx1) → P lx → P lx1)
    (hend : ∀ lx : lexer, P lx → P ⟨lx.tokens ++ [token.mk0 .ENDING], lx.identifiers, lx.strings⟩)
    (fuel : Nat) (p : List Nat) (lx lx1 : lexer)
    (h : lexing_loop fuel p lx = .ok lx1) (hc : P lx) : P lx1 := by
  induction fuel generalizing p lx with
  | zero => simp [lexing_loop] at h
  | succ f ih =>
    simp only [lexing_loop] at h
    split at h
    · simp only [Except.ok.injEq] at h
      subst h
      exact hend lx hc
    · cases hs : lexing_step p lx with
      | error e => simp [hs] at h
      | ok r =>
        obtain ⟨p2, lx2⟩ := r
        simp only [hs] at h
        exact ih p2 lx2 h (hstep p lx p2 lx2 hs hc)

/-- What one iteration does to the table of identifiers and to the number
tokens: an entry is appended only from `parse_identifier` at a cursor where
no keyword was found, and a number token only from `parse_number` at a cursor
on a decimal digit. -/
theorem lexing_step_sources (p : List Nat) (lx : lexer) (p1 : List Nat) (lx1 : lexer)
    (h : lexing_step p lx = .ok (p1, lx1)) :
    (lx1.identifiers = lx.identifiers ∨
      ∃ id : List Nat, lx1.identifiers = lx.identifiers ++ [id] ∧
        (match_keyword p).1 = KW_NOT_A_KEYWORD ∧
        parse_identifier (match_keyword p).2 = .ok (id, p1)) ∧
    (lx1.tokens = lx.tokens ∨
      ∃ t : token, lx1.tokens = lx.tokens ++ [t] ∧
        (t.v = .NUMBER → (48 ≤ peek p ∧ peek p ≤ 57) ∧ t.attr = (parse_number p).1)) := by
  simp only [lexing_step] at h
  split at h
  · simp only [Except.ok.injEq, Prod.mk.injEq] at h
    obtain ⟨_, rfl⟩ := h
    exact ⟨Or.inl rfl, Or.inl rfl⟩
  split at h
  · simp only [Except.ok.injEq, Prod.mk.injEq] at h
    obtain ⟨_, rfl⟩ := h
    exact ⟨Or.inl rfl, Or.inl rfl⟩
  split at h
  · simp only [Except.ok.injEq, Prod.mk.injEq] at h
    obtain ⟨_, rfl⟩ := h
    exact ⟨Or.inl rfl, Or.inr ⟨_, rfl, by simp [token.mk0]⟩⟩
  split at h
  · simp only [Except.ok.injEq, Prod.mk.injEq] at h
    obtain ⟨_, rfl⟩ := h
    exact ⟨Or.inl rfl, Or.inr ⟨_, rfl, by simp [token.mk0]⟩⟩
  split at h
  · split at h
    · simp at h
    · simp only [Except.ok.injEq, Prod.mk.injEq] at h
      obtain ⟨_, rfl⟩ := h
      exact ⟨Or.inl rfl, Or.inr ⟨_, rfl, by simp⟩⟩
  split at h
  · rename_i hd
    simp only [Except.ok.injEq, Prod.mk.injEq] at h
    obtain ⟨_, rfl⟩ := h
    exact ⟨Or.inl rfl, Or.inr ⟨_, rfl, fun _ => ⟨hd, rfl⟩⟩⟩
  split at h
  · rename_i hk
    split at h
    · simp at h
    · rename_i id p2 hs
      simp only [Except.ok.injEq, Prod.mk.injEq] at h
      obtain ⟨rfl, rfl⟩ := h
      exact ⟨Or.inr ⟨id, rfl, hk, hs⟩, Or.inr ⟨_, rfl, by simp⟩⟩
  · simp only [Except.ok.injEq, Prod.mk.injEq] at h
    obtain ⟨_, rfl⟩ := h
    exact ⟨Or.inl rfl, Or.inr ⟨_, rfl, by simp⟩⟩

theorem parse_identifier_loop_text (s id : List Nat) :
    ∃ body : List Nat, parse_identifier_loop s id = (id ++ body, (parse_identifier_loop s id).2) ∧
      s = body ++ (parse_identifier_loop s id).2 ∧ body.all is_identifier_char = true := by
  induction s generalizing id with
  | nil => exact ⟨[], by simp [parse_identifier_loop], by simp [parse_identifier_loop], rfl⟩
  | cons c cs ih =>
    by_cases hc : c ≠ 0 ∧ (isalnum c = true ∨ c = 95)
    · obtain ⟨body, h1, h2, h3⟩ := ih (id ++ [c])
      have hu : parse_identifier_loop (c :: cs) id = parse_identifier_loop cs (id ++ [c]) := by
        rw [parse_identifier_loop, if_pos hc]
      refine ⟨c :: body, ?_, ?_, ?_⟩
      · rw [hu]
        simpa using h1
      · rw [hu]
        simpa using h2
      · have : is_identifier_char c = true := by
          simpa [is_identifier_char] using hc.2
        simp [this, h3]
    · have hu : parse_identifier_loop (c :: cs) id = (id, c :: cs) := by
        rw [parse_identifier_loop, if_neg hc]
      exact ⟨[], by simp [hu], by simp [hu], rfl⟩

/-- The text `parse_identifier` returns: a letter or an underscore, then
letters, digits and underscores, read off the front of the input. -/
theorem parse_identifier_text (s id p1 : List Nat) (h : parse_identifier s = .ok (id, p1)) :
    is_identifier_text id = true ∧ s = id ++ p1 := by
  cases s with
  | nil => simp [parse_identifier, peek, isalpha] at h
  | cons c t =>
    simp only [parse_identifier, peek, List.headD_cons, List.tail_cons] at h
    split at h
    · rename_i hc
      simp only [Except.ok.injEq] at h
      obtain ⟨body, h1, h2, h3⟩ := parse_identifier_loop_text t [c]
      rw [h] at h1 h2
      simp only [Prod.mk.injEq, and_true] at h1
      subst h1
      refine ⟨?_, by simpa using h2⟩
      simp only [List.singleton_append, is_identifier_text, Bool.and_eq_true, Bool.or_eq_true,
        beq_iff_eq]
      exact ⟨hc, h3⟩
    · simp at h

theorem match_keyword_not_found (s : List Nat) (h : (match_keyword s).1 = KW_NOT_A_KEYWORD) :
    (match_keyword s).2 = s ∧ ∀ kw ∈ keywords, ¬ kw <+: s := by
  constructor
  · rcases match_keyword_result s with h1 | ⟨h1, _⟩
    · rw [h1]
    · exact absurd h h1
  · intro kw hkw hp
    obtain ⟨j, kwj, _, hm, _, _⟩ := match_keyword_first s ⟨kw, hkw, hp⟩
    rw [hm] at h
    simp only [KW_NOT_A_KEYWORD] at h
    omega

/-- C28. Invariant of the table of identifiers: after every lexing pass
without error, each entry is non-empty, starts with a letter or an underscore
and goes on with letters, digits and underscores only, and no keyword spelling
is an initial part of it, so that no entry starts with `t`; `test` is lexed as
the keyword `t`, the identifier `est` and the sentinel, and `iffy` as the
keyword `if`, the identifier `fy` and the sentinel. -/
theorem identifier_table_invariant :
    (∀ (target : List Nat) (lx : lexer), lexing target = .ok lx →
      ∀ id ∈ lx.identifiers, id ≠ [] ∧ is_identifier_text id = true ∧
        (∀ kw ∈ keywords, ¬ kw <+: id) ∧ id.head? ≠ some 116) ∧
    lexing (bytes "test")
      = .ok ⟨[⟨.KEYWORD, KW_T⟩, ⟨.IDENTIFIER, 0⟩, token.mk0 .ENDING], [bytes "est"], []⟩ ∧
    lexing (bytes "iffy")
      = .ok ⟨[⟨.KEYWORD, KW_IF⟩, ⟨.IDENTIFIER, 0⟩, token.mk0 .ENDING], [bytes "fy"], []⟩ := by
  refine ⟨?_, by decide, by decide⟩
  intro target lx h
  have hinv : ∀ id ∈ lx.identifiers, is_identifier_text id = true ∧
      (∀ kw ∈ keywords, ¬ kw <+: id) := by
    refine lexing_loop_invariant
      (fun l => ∀ id ∈ l.identifiers, is_identifier_text id = true ∧
        (∀ kw ∈ keywords, ¬ kw <+: id)) ?_ ?_ _ target ⟨[], [], []⟩ lx h (by simp)
    · intro p l p1 l1 hs hP id hid
      rcases (lexing_step_sources p l p1 l1 hs).1 with he | ⟨id1, he, hk, hp⟩
      · rw [he] at hid
        exact hP id hid
      · rw [he] at hid
        simp only [List.mem_append, List.mem_singleton] at hid
        rcases hid with hid | rfl
        · exact hP id hid
        · obtain ⟨h1, h2⟩ := match_keyword_not_found p hk
          rw [h1] at hp
          obtain ⟨ht, hsplit⟩ := parse_identifier_text p id p1 hp
          refine ⟨ht, ?_⟩
          intro kw hkw hpre
          refine h2 kw hkw ?_
          rw [hsplit]
          exact hpre.trans (List.prefix_append _ _)
    · intro l hP
      exact hP
  intro id hid
  obtain ⟨ht, hk⟩ := hinv id hid
  refine ⟨?_, ht, hk, ?_⟩
  · intro hnil
    subst hnil
    simp [is_identifier_text] at ht
  · intro hh
    refine hk [116] (by decide) ?_
    cases id with
    | nil => simp at hh
    | cons c cs =>
      simp only [List.head?_cons, Option.some.injEq] at hh
      subst hh
      exact ⟨cs, rfl⟩

/-- C28, at the input `x test`: the entries of the table are `x` and `est`. -/
theorem identifier_table_invariant_witness :
    lexing (bytes "x test")
      = .ok ⟨[⟨.IDENTIFIER, 0⟩, ⟨.KEYWORD, KW_T⟩, ⟨.IDENTIFIER, 1⟩, token.mk0 .ENDING],
          [bytes "x", bytes "est"], []⟩ ∧
    ∀ id ∈ [bytes "x", bytes "est"], id ≠ [] ∧ is_identifier_text id = true ∧
      (∀ kw ∈ keywords, ¬ kw <+: id) ∧ id.head? ≠ some 116 :=
  ⟨by decide, identifier_table_invariant.1 (bytes "x test")
    ⟨[⟨.IDENTIFIER, 0⟩, ⟨.KEYWORD, KW_T⟩, ⟨.IDENTIFIER, 1⟩, token.mk0 .ENDING],
      [bytes "x", bytes "est"], []⟩ (by decide)⟩

theorem parse_number_range (c : Nat) (t : List Nat) (hc : 48 ≤ c ∧ c ≤ 57) :
    0 ≤ (parse_number (c :: t)).1 ∧ (parse_number (c :: t)).1 ≤ 2 ^ 63 - 1 := by
  obtain ⟨mag, rest, h⟩ := strto_scan_digit_head c t hc
  simp only [parse_number, strtoll, h, Bool.false_eq_true, if_false]
  split
  · simp
  · rename_i hm
    simp only [ge_iff_le, not_le] at hm
    constructor
    · exact Int.natCast_nonneg mag
    · have : (mag : Int) < 2 ^ 63 := by exact_mod_cast hm
      omega

/-- C30. Every number token the lexer produces carries a value between `0` and
`2^63 - 1`: `parse_number` is only called with the cursor on a decimal digit,
so no sign is read (`-5` is the keyword `-` and the number `5`), and a
literal whose value is `2^63` or more is read as `2^63 - 1`, the cursor going
past the whole literal. -/
theorem number_tokens_range :
    (∀ (target : List Nat) (lx : lexer), lexing target = .ok lx →
      ∀ t ∈ lx.tokens, t.v = .NUMBER → 0 ≤ t.attr ∧ t.attr ≤ 2 ^ 63 - 1) ∧
    lexing (bytes "-5")
      = .ok ⟨[⟨.KEYWORD, KW_MINUS⟩, ⟨.NUMBER, 5⟩, token.mk0 .ENDING], [], []⟩ ∧
    (∀ (lit tail : List Nat),
      (is_decimal_literal lit = true ∨ is_hex_literal lit = true ∨
        is_octal_literal lit = true) →
      2 ^ 63 ≤ literal_value lit → is_follower tail = true →
      parse_number (lit ++ tail) = (2 ^ 63 - 1, tail) ∧
      lexing (lit ++ tail) = (lexing tail).map (lexer.push_front [⟨.NUMBER, 2 ^ 63 - 1⟩])) ∧
    lexing (bytes "9223372036854775808")
      = .ok ⟨[⟨.NUMBER, 9223372036854775807⟩, token.mk0 .ENDING], [], []⟩ := by
  refine ⟨?_, by decide, ?_, by decide⟩
  · intro target lx h
    refine lexing_loop_invariant
      (fun l => ∀ t ∈ l.tokens, t.v = .NUMBER → 0 ≤ t.attr ∧ t.attr ≤ 2 ^ 63 - 1)
      ?_ ?_ _ target ⟨[], [], []⟩ lx h (by simp)
    · intro p l p1 l1 hs hP t ht hv
      rcases (lexing_step_sources p l p1 l1 hs).2 with he | ⟨t1, he, hn⟩
      · rw [he] at ht
        exact hP t ht hv
      · rw [he] at ht
        simp only [List.mem_append, List.mem_singleton] at ht
        rcases ht with ht | rfl
        · exact hP t ht hv
        · obtain ⟨hd, ha⟩ := hn hv
          cases p with
          | nil => simp [peek] at hd
          | cons c tl =>
            rw [ha]
            exact parse_number_range c tl hd
    · intro l hP t ht hv
      simp only [List.mem_append, List.mem_singleton] at ht
      rcases ht with ht | rfl
      · exact hP t ht hv
      · simp [token.mk0] at hv
  · intro lit tail hl hv ht
    have hscan := strto_scan_literal lit tail hl ht
    have hpn : parse_number (lit ++ tail) = (2 ^ 63 - 1, tail) := by
      simp only [parse_number, strtoll, hscan, Bool.false_eq_true, if_false, ge_iff_le, hv,
        if_true]
    refine ⟨hpn, ?_⟩
    obtain ⟨c, t, hct, hc⟩ := literal_head_digit lit hl
    have hnum := lexing_step_number c (t ++ tail) hc ⟨[], [], []⟩
    have heq : c :: (t ++ tail) = lit ++ tail := by rw [hct]; rfl
    rw [heq, hpn] at hnum
    have hpeek : peek (lit ++ tail) ≠ 0 := by
      rw [← heq]
      simp only [peek, List.headD_cons]
      omega
    exact lexing_of_step (lit ++ tail) tail _ hpeek hnum

/-- C30, at the input `-5 7` and at the literal `9223372036854775808`, which
is `2^63`. -/
theorem number_tokens_range_witness :
    (lexing (bytes "-5 7")
        = .ok ⟨[⟨.KEYWORD, KW_MINUS⟩, ⟨.NUMBER, 5⟩, ⟨.NUMBER, 7⟩, token.mk0 .ENDING], [], []⟩ ∧
      ∀ t ∈ [⟨.KEYWORD, KW_MINUS⟩, ⟨.NUMBER, 5⟩, ⟨.NUMBER, 7⟩, token.mk0 .ENDING],
        t.v = .NUMBER → 0 ≤ t.attr ∧ t.attr ≤ 2 ^ 63 - 1) ∧
    ((is_decimal_literal (bytes "9223372036854775808") = true ∧
        2 ^ 63 ≤ literal_value (bytes "9223372036854775808") ∧ is_follower [] = true) ∧
      parse_number (bytes "9223372036854775808" ++ []) = (2 ^ 63 - 1, [])) :=
  ⟨⟨by decide, number_tokens_range.1 (bytes "-5 7")
      ⟨[⟨.KEYWORD, KW_MINUS⟩, ⟨.NUMBER, 5⟩, ⟨.NUMBER, 7⟩, token.mk0 .ENDING], [], []⟩
      (by decide)⟩,
    ⟨⟨by decide, by decide, by decide⟩,
      (number_tokens_range.2.2.1 (bytes "9223372036854775808") []
        (Or.inl (by decide)) (by decide) (by decide)).1⟩⟩

/-! ## The rendered tree -/

theorem split_lines_ne_nil (s : List Nat) : ∃ l ls, split_lines s = l :: ls := by
  cases s with
  | nil => exact ⟨[], [], rfl⟩
  | cons c cs =>
    by_cases hc : c = 10
    · exact ⟨_, _, by rw [split_lines, if_pos hc]⟩
    · exact ⟨_, _, by rw [split_lines, if_neg hc]⟩

theorem split_lines_no_break (s : List Nat) (h : 10 ∉ s) : split_lines s = [s] := by
  induction s with
  | nil => rfl
  | cons c cs ih =>
    simp only [List.mem_cons, not_or] at h
    have hc : c ≠ 10 := fun hc => h.1 hc.symm
    rw [split_lines, if_neg hc, ih h.2]
    rfl

theorem split_lines_append (a b : List Nat) :
    split_lines (a ++ 10 :: b) = split_lines a ++ split_lines b := by
  induction a with
  | nil => simp [split_lines]
  | cons c cs ih =>
    obtain ⟨l, ls, hl⟩ := split_lines_ne_nil cs
    by_cases hc : c = 10
    · rw [List.cons_append, split_lines, if_pos hc, ih, split_lines, if_pos hc]
      rfl
    · rw [List.cons_append, split_lines, if_neg hc, ih, split_lines, if_neg hc, hl]
      rfl

theorem nonempty_lines_append (a b : List Nat) :
    nonempty_lines (a ++ 10 :: b) = nonempty_lines a ++ nonempty_lines b := by
  simp only [nonempty_lines, split_lines_append, List.filter_append]

theorem token_to_string_ne_nil (lx : lexer) (tok : token) (s : List Nat)
    (h : token_to_string lx tok = some s) : s ≠ [] := by
  obtain ⟨v, x⟩ := tok
  cases v <;> simp only [token_to_string] at h
  all_goals first
    | (simp only [Option.some.injEq] at h
       subst h
       simp [bytes])
    | (split at h
       · simp at h
       · simp only [Option.map_eq_some'] at h
         obtain ⟨a, _, rfl⟩ := h
         simp [bytes])

mutual
theorem to_string_lines (lx : lexer) : ∀ (node : ast_node) (d : Nat) (text : List Nat),
    node.to_string lx d = some text →
    (∀ p ∈ node.leaf_depths d, ∀ s, token_to_string lx p.1 = some s → 10 ∉ s) →
    (nonempty_lines text).map some
        = (node.leaf_depths d).map
          (fun p => (token_to_string lx p.1).map (fun s => List.replicate p.2 9 ++ s)) ∧
      text.count 10 = node.descendants
  | .terminal tok, d, text, h, hnl => by
    simp only [ast_node.to_string, Option.map_eq_some'] at h
    obtain ⟨s, hs, rfl⟩ := h
    have h10 : 10 ∉ s := hnl (tok, d) (by simp [ast_node.leaf_depths]) s hs
    have hne := token_to_string_ne_nil lx tok s hs
    have hno : 10 ∉ List.replicate d 9 ++ s := by
      simp only [List.mem_append, List.mem_replicate, not_or]
      exact ⟨by omega, h10⟩
    refine ⟨?_, ?_⟩
    · simp [nonempty_lines, split_lines_no_break _ hno, ast_node.leaf_depths, hs, hne]
    · simp only [ast_node.descendants]
      exact List.count_eq_zero.2 hno
  | .nonterminal cs, d, text, h, hnl => by
    simp only [ast_node.to_string] at h
    simp only [ast_node.leaf_depths] at hnl
    simpa only [ast_node.leaf_depths, ast_node.descendants]
      using to_string_childs_lines lx cs d text h hnl
  | .freed, d, text, h, _ => by
    simp [ast_node.to_string] at h
theorem to_string_childs_lines (lx : lexer) : ∀ (cs : List ast_node) (d : Nat)
    (text : List Nat), to_string_childs lx cs d = some text →
    (∀ p ∈ leaf_depths_childs cs d, ∀ s, token_to_string lx p.1 = some s → 10 ∉ s) →
    (nonempty_lines text).map some
        = (leaf_depths_childs cs d).map
          (fun p => (token_to_string lx p.1).map (fun s => List.replicate p.2 9 ++ s)) ∧
      text.count 10 = descendants_childs cs
  | [], d, text, h, _ => by
    simp only [to_string_childs, Option.some.injEq] at h
    subst h
    simp [nonempty_lines, split_lines, leaf_depths_childs, descendants_childs]
  | c :: cs, d, text, h, hnl => by
    simp only [to_string_childs] at h
    cases h1 : c.to_string lx (d + 1) with
    | none => simp [h1] at h
    | some s =>
      cases h2 : to_string_childs lx cs d with
      | none => simp [h1, h2] at h
      | some r =>
        simp only [h1, h2, Option.some.injEq] at h
        subst h
        simp only [leaf_depths_childs, List.mem_append] at hnl
        obtain ⟨a1, a2⟩ := to_string_lines lx c (d + 1) s h1
          (fun p hp => hnl p (Or.inl hp))
        obtain ⟨b1, b2⟩ := to_string_childs_lines lx cs d r h2
          (fun p hp => hnl p (Or.inr hp))
        refine ⟨?_, ?_⟩
        · simp only [List.append_assoc, List.singleton_append, nonempty_lines_append,
            List.map_append, a1, b1, leaf_depths_childs]
        · simp only [List.append_assoc, List.singleton_append, List.count_append,
            List.count_cons_self, a2, b2, descendants_childs]
          omega
end

mutual
theorem node_census : ∀ (node : ast_node) (d : Nat),
    node.descendants + 1 = (node.leaf_depths d).length + node.nonterminals
  | .terminal tok, d => by
    simp [ast_node.descendants, ast_node.leaf_depths, ast_node.nonterminals]
  | .nonterminal cs, d => by
    have := childs_census cs d
    simp only [ast_node.descendants, ast_node.leaf_depths, ast_node.nonterminals]
    omega
  | .freed, d => by
    simp [ast_node.descendants, ast_node.leaf_depths, ast_node.nonterminals]
theorem childs_census : ∀ (cs : List ast_node) (d : Nat),
    descendants_childs cs = (leaf_depths_childs cs d).length + nonterminals_childs cs
  | [], d => by simp [descendants_childs, leaf_depths_childs, nonterminals_childs]
  | c :: cs, d => by
    have h1 := node_census c (d + 1)
    have h2 := childs_census cs d
    simp only [descendants_childs, leaf_depths_childs, nonterminals_childs,
      List.length_append]
    omega
end

/-- C29. Structure of the rendered tree: for every tree whose token texts
hold no line break, the non-empty lines of `to_string` are, in order from
left to right, the lines of the terminal leaves, the line of a leaf at depth
`k` being `k` tabs followed by `token_to_string` of its token (the children of
the node rendered at depth `0` are at depth `1`); the number of line breaks
is the number of nodes other than the root; and since every node is a leaf or
a non-terminal, the line breaks beyond one per leaf are one per non-terminal
other than the root. -/
theorem to_string_structure (lx : lexer) (node : ast_node) (d : Nat) (text : List Nat)
    (h : node.to_string lx d = some text)
    (hnl : ∀ p ∈ node.leaf_depths d, ∀ s, token_to_string lx p.1 = some s → 10 ∉ s) :
    (nonempty_lines text).map some
        = (node.leaf_depths d).map
          (fun p => (token_to_string lx p.1).map (fun s => List.replicate p.2 9 ++ s)) ∧
    text.count 10 = node.descendants ∧
    text.count 10 + 1 = (node.leaf_depths d).length + node.nonterminals := by
  obtain ⟨h1, h2⟩ := to_string_lines lx node d text h hnl
  exact ⟨h1, h2, by rw [h2]; exact node_census node d⟩

/-- C29, at the tree of `(print "hi")`: two leaf lines and three line breaks,
the third for the non-terminal of the element `"hi"`. -/
theorem to_string_structure_witness :
    (ast_node.nonterminal [.terminal ⟨.KEYWORD, 15⟩,
        .nonterminal [.terminal ⟨.STRING, 0⟩]]).to_string ⟨[], [], [bytes "hi"]⟩ 0
      = some (bytes "\t\x7bkeyword:print\x7d\n\t\t\x7bstring:hi\x7d\n\n") ∧
    ((nonempty_lines (bytes "\t\x7bkeyword:print\x7d\n\t\t\x7bstring:hi\x7d\n\n")).map some
        = ((ast_node.nonterminal [.terminal ⟨.KEYWORD, 15⟩,
            .nonterminal [.terminal ⟨.STRING, 0⟩]]).leaf_depths 0).map
          (fun p => (token_to_string ⟨[], [], [bytes "hi"]⟩ p.1).map
            (fun s => List.replicate p.2 9 ++ s)) ∧
      (bytes "\t\x7bkeyword:print\x7d\n\t\t\x7bstring:hi\x7d\n\n").count 10
        = (ast_node.nonterminal [.terminal ⟨.KEYWORD, 15⟩,
            .nonterminal [.terminal ⟨.STRING, 0⟩]]).descendants ∧
      (bytes "\t\x7bkeyword:print\x7d\n\t\t\x7bstring:hi\x7d\n\n").count 10 + 1
        = ((ast_node.nonterminal [.terminal ⟨.KEYWORD, 15⟩,
            .nonterminal [.terminal ⟨.STRING, 0⟩]]).leaf_depths 0).length
          + (ast_node.nonterminal [.terminal ⟨.KEYWORD, 15⟩,
            .nonterminal [.terminal ⟨.STRING, 0⟩]]).nonterminals) :=
  ⟨by decide,
    to_string_structure ⟨[], [], [bytes "hi"]⟩
      (.nonterminal [.terminal ⟨.KEYWORD, 15⟩, .nonterminal [.terminal ⟨.STRING, 0⟩]]) 0
      (bytes "\t\x7bkeyword:print\x7d\n\t\t\x7bstring:hi\x7d\n\n") (by decide)
      (by
        intro p hp s hs
        simp only [ast_node.leaf_depths, leaf_depths_childs, List.append_nil, List.cons_append,
          List.nil_append, List.mem_cons, List.mem_singleton, List.not_mem_nil, or_false] at hp
        rcases hp with rfl | rfl
        · have : token_to_string ⟨[], [], [bytes "hi"]⟩ ⟨.KEYWORD, 15⟩
              = some (bytes "\x7bkeyword:print\x7d") := by decide
          rw [this] at hs
          simp only [Option.some.injEq] at hs
          subst hs
          decide
        · have : token_to_string ⟨[], [], [bytes "hi"]⟩ ⟨.STRING, 0⟩
              = some (bytes "\x7bstring:hi\x7d") := by decide
          rw [this] at hs
          simp only [Option.some.injEq] at hs
          subst hs
          decide)⟩

/-! ## The text of a parsed tree -/

end rais
